import Mathlib

/-!
Verification of the tolerant LLM-output extractor of the bot-relatorio
repository (src/ia_analyzer.py, src/bot.py) against its specification.

All text is modelled as `List Char`.  Python's `json.loads` is modelled by
an executable recursive-descent JSON reader (`jsonLoads`) that follows the
stdlib decoder: JSON whitespace is space/tab/newline/carriage-return, object
keys are decoded strings with last-duplicate-wins lookup, trailing commas
and unquoted tokens are rejected, `NaN`/`Infinity` constants are accepted,
and strict mode rejects raw control characters inside string literals.
Known approximations, none of which any theorem below touches:
lone-surrogate `\uXXXX` escapes (not representable in `Char`) decode to the
replacement behaviour of `Char.ofNat`, numbers are kept as their lexeme,
`str.upper`/`str.lower`/whitespace sets are modelled on their ASCII part,
and Python's recursion limit on deeply nested documents is not modelled.
Exception messages carried by `erro`/`aviso` are modelled by fixed strings;
the code interpolates the Python exception text, which no claim inspects.
-/

/-- Whitespace stripped by Python `str.strip()` and matched by `\s`
(ASCII part). -/
def isPySpace (c : Char) : Bool :=
  c = ' ' || c = '\t' || c = '\n' || c = '\r' || c = '\x0b' || c = '\x0c'

/-- Whitespace skipped by the stdlib JSON decoder (`[ \t\n\r]`). -/
def jsonWsChar (c : Char) : Bool :=
  c = ' ' || c = '\t' || c = '\n' || c = '\r'

/-- Drop trailing characters satisfying `p`. -/
def dropTrailWhile (p : Char → Bool) (l : List Char) : List Char :=
  (l.reverse.dropWhile p).reverse

/-- Python `str.strip()` (ASCII whitespace part). -/
def pstrip (l : List Char) : List Char :=
  dropTrailWhile isPySpace (l.dropWhile isPySpace)

/-- Does `l` start with the pattern `p`? -/
def lstarts : List Char → List Char → Bool
  | [], _ => true
  | _ :: _, [] => false
  | p :: ps, c :: cs => p = c && lstarts ps cs

/-- Case-insensitive `lstarts` (ASCII lowering, as Python `re.IGNORECASE`
behaves on the ASCII labels used here). -/
def lstartsCI (p l : List Char) : Bool :=
  lstarts (p.map Char.toLower) (l.map Char.toLower)

/-- Does `p` occur as a contiguous sublist of `l`? -/
def containsSub (p : List Char) : List Char → Bool
  | [] => lstarts p []
  | c :: cs => lstarts p (c :: cs) || containsSub p cs

/-- Index of the first occurrence of `p` in `l` (Python `str.find`,
`none` for `-1`). -/
def idxOfSub (p : List Char) : List Char → Option Nat
  | [] => if lstarts p [] then some 0 else none
  | c :: cs =>
      if lstarts p (c :: cs) then some 0
      else (idxOfSub p cs).map (· + 1)

/-- JSON values as produced by `json.loads`.  Numbers keep their source
lexeme; objects keep their members in source order (lookup is
last-duplicate-wins, matching dict insertion). -/
inductive Json where
  | null : Json
  | bool (b : Bool) : Json
  | num (lex : List Char) : Json
  | str (s : List Char) : Json
  | arr (elems : List Json) : Json
  | obj (kvs : List (List Char × Json)) : Json

/-- Python dict lookup for an object built by repeated insertion:
the last binding of a duplicated key wins. -/
def dget (kvs : List (List Char × Json)) (k : List Char) : Option Json :=
  match kvs with
  | [] => none
  | (k', v) :: t =>
      match dget t k with
      | some r => some r
      | none => if k' = k then some v else none

/-- Python truthiness of a parsed JSON value (`bool(x)`). -/
def pyTruthy : Json → Bool
  | Json.null => false
  | Json.bool b => b
  | Json.num lex =>
      -- a JSON number is falsy iff its mantissa is zero
      !((lex.filter Char.isDigit ≠ []) && (lex.takeWhile (· ≠ 'e') |>.takeWhile (· ≠ 'E') |>.filter Char.isDigit |>.all (· = '0')))
  | Json.str s => !s.isEmpty
  | Json.arr es => !es.isEmpty
  | Json.obj kvs => !kvs.isEmpty

/-- Skip JSON whitespace. -/
def skipWs (l : List Char) : List Char := l.dropWhile jsonWsChar

def isHexD (c : Char) : Bool :=
  ('0' ≤ c && c ≤ '9') || ('a' ≤ c && c ≤ 'f') || ('A' ≤ c && c ≤ 'F')

def hexVal (c : Char) : Nat :=
  if '0' ≤ c && c ≤ '9' then c.toNat - '0'.toNat
  else if 'a' ≤ c && c ≤ 'f' then c.toNat - 'a'.toNat + 10
  else c.toNat - 'A'.toNat + 10

def hex4 (h1 h2 h3 h4 : Char) : Nat :=
  ((hexVal h1 * 16 + hexVal h2) * 16 + hexVal h3) * 16 + hexVal h4

/-- Simple backslash escapes accepted by the strict decoder. -/
def escMap (c : Char) : Option Char :=
  if c = '"' then some '"'
  else if c = '\\' then some '\\'
  else if c = '/' then some '/'
  else if c = 'b' then some '\x08'
  else if c = 'f' then some '\x0c'
  else if c = 'n' then some '\n'
  else if c = 'r' then some '\r'
  else if c = 't' then some '\t'
  else none

/-- Body of a JSON string literal after the opening quote.  Returns the
decoded characters and the input after the closing quote.  Mirrors
`json.decoder.py_scanstring` in strict mode: raw control characters are
rejected, only the eight simple escapes and `\uXXXX` are allowed.  A
`\uXXXX` escape decodes through `Char.ofNat` of its code unit; surrogate
halves are not representable in `Char`, so pair combination is
approximated (an acknowledged model boundary that every theorem below
stays away from). -/
def parseStrBody : List Char → Option (List Char × List Char)
  | [] => none
  | c :: r =>
      if c = '"' then some ([], r)
      else if c = '\\' then
        match r with
        | [] => none
        | e :: r2 =>
            if e = 'u' then
              match r2 with
              | a1 :: a2 :: a3 :: a4 :: r3 =>
                  if isHexD a1 && isHexD a2 && isHexD a3 && isHexD a4 then
                    (parseStrBody r3).map
                      (fun p => (Char.ofNat (hex4 a1 a2 a3 a4) :: p.1, p.2))
                  else none
              | _ => none
            else
              match escMap e with
              | some d => (parseStrBody r2).map (fun p => (d :: p.1, p.2))
              | none => none
      else if c.toNat < 32 then none
      else (parseStrBody r).map (fun p => (c :: p.1, p.2))

/-- A JSON string literal including its quotes. -/
def parseStr : List Char → Option (List Char × List Char)
  | '"' :: r => parseStrBody r
  | _ => none

def spanDigits (l : List Char) : List Char × List Char :=
  (l.takeWhile Char.isDigit, l.dropWhile Char.isDigit)

/-- Integer part of the stdlib `NUMBER_RE`: `0` or a nonzero digit followed
by digits. -/
def numInt : List Char → Option (List Char × List Char)
  | [] => none
  | c :: r =>
      if c = '0' then some (['0'], r)
      else if c.isDigit then some (c :: (spanDigits r).1, (spanDigits r).2)
      else none

/-- Optional fraction `(\.\d+)?`; returns consumed lexeme part and rest. -/
def numFrac (l : List Char) : List Char × List Char :=
  match l with
  | [] => ([], [])
  | c :: r =>
      if c = '.' then
        if (spanDigits r).1 = [] then ([], l)
        else ('.' :: (spanDigits r).1, (spanDigits r).2)
      else ([], l)

/-- Optional exponent `([eE][-+]?\\d+)?`. -/
def numExp : List Char → List Char × List Char
  | [] => ([], [])
  | [e] => ([], [e])
  | e :: c2 :: r2 =>
      if e = 'e' || e = 'E' then
        if c2 = '+' then
          if (spanDigits r2).1 = [] then ([], e :: c2 :: r2)
          else (e :: '+' :: (spanDigits r2).1, (spanDigits r2).2)
        else if c2 = '-' then
          if (spanDigits r2).1 = [] then ([], e :: c2 :: r2)
          else (e :: '-' :: (spanDigits r2).1, (spanDigits r2).2)
        else
          if (spanDigits (c2 :: r2)).1 = [] then ([], e :: c2 :: r2)
          else (e :: (spanDigits (c2 :: r2)).1, (spanDigits (c2 :: r2)).2)
      else ([], e :: c2 :: r2)

/-- A JSON number at the head of the input, as matched by the stdlib
`NUMBER_RE`; returns the lexeme and the rest. -/
def parseNum (l : List Char) : Option (List Char × List Char) :=
  match l with
  | [] => none
  | c :: r =>
      if c = '-' then
        match numInt r with
        | some (ip, r1) =>
            some ('-' :: (ip ++ (numFrac r1).1 ++ (numExp (numFrac r1).2).1),
                  (numExp (numFrac r1).2).2)
        | none => none
      else
        match numInt (c :: r) with
        | some (ip, r1) =>
            some (ip ++ (numFrac r1).1 ++ (numExp (numFrac r1).2).1,
                  (numExp (numFrac r1).2).2)
        | none => none

/-- Recursion mode of the JSON reader: a single value, the members of an
object after `{` (first key already peeked to be a quote), or the elements
of an array after `[`. -/
inductive PMode where
  | val : PMode
  | mems : PMode
  | elems : PMode

/-- Fuel-indexed recursive-descent JSON reader mirroring the stdlib
`scan_once`/`JSONObject`/`JSONArray` routines.  The fuel only bounds the
mutual recursion depth; `jsonLoads` supplies enough for any input. -/
def parseV : Nat → PMode → List Char → Option (Json × List Char)
  | 0, _, _ => none
  | Nat.succ fuel, PMode.val, l =>
      match l with
      | [] => none
      | c :: r =>
          if c = '{' then
            (match skipWs r with
             | '}' :: r2 => some (Json.obj [], r2)
             | '"' :: _ => parseV fuel PMode.mems (skipWs r)
             | _ => none)
          else if c = '[' then
            (match skipWs r with
             | ']' :: r2 => some (Json.arr [], r2)
             | _ => parseV fuel PMode.elems (skipWs r))
          else if c = '"' then (parseStr (c :: r)).map (fun p => (Json.str p.1, p.2))
          else if c = 't' then
            if lstarts ['r', 'u', 'e'] r then some (Json.bool true, r.drop 3) else none
          else if c = 'f' then
            if lstarts ['a', 'l', 's', 'e'] r then some (Json.bool false, r.drop 4) else none
          else if c = 'n' then
            if lstarts ['u', 'l', 'l'] r then some (Json.null, r.drop 3) else none
          else if c = 'N' then
            if lstarts ['a', 'N'] r then some (Json.num ['N', 'a', 'N'], r.drop 2) else none
          else if c = 'I' then
            if lstarts ['n', 'f', 'i', 'n', 'i', 't', 'y'] r then
              some (Json.num "Infinity".data, r.drop 7)
            else none
          else if c = '-' then
            (match parseNum (c :: r) with
             | some (lex, r2) => some (Json.num lex, r2)
             | none =>
                 if lstarts ['I', 'n', 'f', 'i', 'n', 'i', 't', 'y'] r then
                   some (Json.num "-Infinity".data, r.drop 8)
                 else none)
          else if c.isDigit then (parseNum (c :: r)).map (fun p => (Json.num p.1, p.2))
          else none
  | Nat.succ fuel, PMode.mems, l =>
      match parseStr l with
      | none => none
      | some (k, r1) =>
          match skipWs r1 with
          | ':' :: r2 =>
              (match parseV fuel PMode.val (skipWs r2) with
               | none => none
               | some (v, r3) =>
                   match skipWs r3 with
                   | ',' :: r4 =>
                       (match skipWs r4 with
                        | '"' :: _ =>
                            (match parseV fuel PMode.mems (skipWs r4) with
                             | some (Json.obj kvs, r5) => some (Json.obj ((k, v) :: kvs), r5)
                             | _ => none)
                        | _ => none)
                   | '}' :: r4 => some (Json.obj [(k, v)], r4)
                   | _ => none)
          | _ => none
  | Nat.succ fuel, PMode.elems, l =>
      match parseV fuel PMode.val l with
      | none => none
      | some (v, r1) =>
          match skipWs r1 with
          | ',' :: r2 =>
              (match parseV fuel PMode.elems (skipWs r2) with
               | some (Json.arr vs, r3) => some (Json.arr (v :: vs), r3)
               | _ => none)
          | ']' :: r2 => some (Json.arr [v], r2)
          | _ => none

/-- Model of `json.loads`: skip surrounding whitespace, read one value, and
require the rest to be whitespace (`raw_decode` + the end check). -/
def jsonLoads (l : List Char) : Option Json :=
  let t := skipWs l
  match parseV (2 * t.length + 2) PMode.val t with
  | some (v, rest) => if skipWs rest = [] then some v else none
  | none => none

/-- Scan loop of `AnaliseIA._extrair_json`: depth counter, in-string flag
and one-shot escape flag, with the running index; returns the index of the
closing brace that brings the depth back to zero. -/
def scanBal : List Char → Int → Bool → Bool → Nat → Option Nat
  | [], _, _, _, _ => none
  | c :: rest, depth, emString, escape, i =>
      if emString then
        if escape then scanBal rest depth true false (i + 1)
        else if c = '\\' then scanBal rest depth true true (i + 1)
        else if c = '"' then scanBal rest depth false false (i + 1)
        else scanBal rest depth true false (i + 1)
      else if c = '"' then scanBal rest depth true false (i + 1)
      else if c = '{' then scanBal rest (depth + 1) false false (i + 1)
      else if c = '}' then
        if depth - 1 = 0 then some i
        else scanBal rest (depth - 1) false false (i + 1)
      else scanBal rest depth false false (i + 1)

/-- `AnaliseIA._extrair_json`: substring from the first `{` through the
brace that balances it, or `None` (`texto.find("{") < 0` is the
no-brace-at-all case, i.e. `dropWhile` exhausts the text). -/
def extrairJson (texto : List Char) : Option (List Char) :=
  if texto.dropWhile (· ≠ '{') = [] then none
  else
    (scanBal (texto.dropWhile (· ≠ '{')) 0 false false 0).map
      (fun i => (texto.dropWhile (· ≠ '{')).take (i + 1))

/-- One application of `re.sub(r"^```(?:json)?", "", texto, flags=IGNORECASE)`:
the pattern is anchored, so at most the leading fence marker is removed,
greedily including a `json` tag. -/
def resubFence (t : List Char) : List Char :=
  if lstarts ['`', '`', '`'] t then
    if lstartsCI ['j', 's', 'o', 'n'] (t.drop 3) then t.drop 7 else t.drop 3
  else t

/-- Python `texto.replace("```", "")`: delete every occurrence of three
backticks, scanning left to right. -/
def removeTriples : List Char → List Char
  | [] => []
  | [c] => [c]
  | [c1, c2] => [c1, c2]
  | c1 :: c2 :: c3 :: rest =>
      if c1 = '`' && c2 = '`' && c3 = '`' then removeTriples rest
      else c1 :: removeTriples (c2 :: c3 :: rest)

/-- Does `l` end with the pattern `p`? -/
def lends (p l : List Char) : Bool := lstarts p.reverse l.reverse

/-- Dead check `if texto.startswith("```json"): texto = texto[7:]` of
`_parse` (unreachable after the global replace, modelled faithfully). -/
def fenceDrop7 (t : List Char) : List Char :=
  if lstarts "```json".data t then t.drop 7 else t

/-- Dead check `if texto.startswith("```"): texto = texto[3:]`. -/
def fenceDrop3 (t : List Char) : List Char :=
  if lstarts ['`', '`', '`'] t then t.drop 3 else t

/-- Dead check `if texto.endswith("```"): texto = texto[:-3]`. -/
def fenceDropEnd (t : List Char) : List Char :=
  if lends ['`', '`', '`'] t then t.take (t.length - 3) else t

/-- The fence-stripping prelude of `AnaliseIA._parse` (lines 104-116),
producing the cleaned `texto` handed to the locator. -/
def clean (raw : List Char) : List Char :=
  pstrip (fenceDropEnd (fenceDrop3 (fenceDrop7
    (pstrip (removeTriples (pstrip (resubFence (pstrip raw))))))))

/-- After a label: `\s*[:\-]` of the field patterns; returns the input
after the colon/dash. -/
def afterColon (r : List Char) : Option (List Char) :=
  match r.dropWhile isPySpace with
  | ':' :: r2 => some r2
  | '-' :: r2 => some r2
  | _ => none

/-- The `\s*(.+)` tail of a field pattern followed by `.strip()`: greedy
whitespace, then at least one non-newline character up to the end of the
line, with regex backtracking folded in (an all-whitespace tail matches iff
it contains a non-newline whitespace character, and then strips to the
empty value). -/
def fieldValueAt (r2 : List Char) : Option (List Char) :=
  match r2.dropWhile isPySpace with
  | _ :: _ => some (pstrip ((r2.dropWhile isPySpace).takeWhile (· ≠ '\n')))
  | [] => if r2.any (· ≠ '\n') then some [] else none

/-- Literal label matched case-insensitively at the head of the input. -/
def labelPlain (pat l : List Char) : Option (List Char) :=
  if lstartsCI pat l then some (l.drop pat.length) else none

/-- The `proxima[_\s]?acao` label: greedy optional separator. -/
def labelProxima (l : List Char) : Option (List Char) :=
  match labelPlain "proxima".data l with
  | none => none
  | some r =>
      if (match r with
          | c :: r2 => (c = '_' || isPySpace c) && lstartsCI "acao".data r2
          | [] => false) then
        some ((r.drop 1).drop 4)
      else if lstartsCI "acao".data r then some (r.drop 4)
      else none

/-- `re.search` of one field pattern: try every start position left to
right; at each, the label, then colon/dash, then the value tail. -/
def searchField (lab : List Char → Option (List Char)) : List Char → Option (List Char)
  | [] => none
  | c :: cs =>
      match ((lab (c :: cs)).bind afterColon).bind fieldValueAt with
      | some v => some v
      | none => searchField lab cs

/-- Placeholder tokens of `_extrair_campos_texto` that turn a captured
value into Python `None`. -/
def sentinelNull (v : List Char) : Bool :=
  let lv := v.map Char.toLower
  lv = "null".data || lv = "nenhum".data || lv = "n/a".data || lv = "nao".data

/-- One iteration of the `padroes` loop: the dict entry added for `chave`
when its pattern matches (`Json.null` models a Python `None` value). -/
def campoEntry (chave : List Char) (lab : List Char → Option (List Char))
    (texto : List Char) : List (List Char × Json) :=
  match searchField lab texto with
  | some v => [(chave, if sentinelNull v then Json.null else Json.str v)]
  | none => []

/-- `AnaliseIA._extrair_campos_texto`. -/
def extrairCampos (texto : List Char) : Option (List (List Char × Json)) :=
  if texto.isEmpty then none
  else
    let campos :=
      campoEntry "resumo".data (labelPlain "resumo".data) texto ++
      campoEntry "situacao".data (labelPlain "situacao".data) texto ++
      campoEntry "prazo".data (labelPlain "prazo".data) texto ++
      campoEntry "proxima_acao".data labelProxima texto
    if campos.isEmpty then none else some campos

/-- Python `.upper()` on a parsed value: succeeds only on strings (ASCII
uppercasing); anything else raises `AttributeError`, modelled as `none`. -/
def pyUpper : Json → Option Json
  | Json.str s => some (Json.str (s.map Char.toUpper))
  | _ => none

/-- The four field assignments shared by the JSON and plain-text populate
blocks of `_parse`: `dados.get("resumo", "")`,
`dados.get("situacao", "NORMAL").upper()`, `dados.get("prazo")`,
`dados.get("proxima_acao")`.  `none` models the `AttributeError` raised by
`.upper()` on a non-string. -/
def mkCampos (kvs : List (List Char × Json)) : Option (Json × Json × Json × Json) :=
  match pyUpper ((dget kvs "situacao".data).getD (Json.str "NORMAL".data)) with
  | some sit =>
      some ((dget kvs "resumo".data).getD (Json.str []), sit,
            (dget kvs "prazo".data).getD Json.null,
            (dget kvs "proxima_acao".data).getD Json.null)
  | none => none

/-- First `replace` of `_reparar_json`.  The four chained `replace` calls
of the source line all carry the single byte `?` as their pattern (spec
section 9 records this as a lost-in-encoding slip), so the first rewrites
every `?` to `"` and the remaining three find nothing to replace. -/
def repStep1 (l : List Char) : List Char :=
  l.map (fun c => if c = '?' then '"' else c)

/-- Second `replace("?", "\"")` of `_reparar_json`. -/
def repStep2 (l : List Char) : List Char :=
  l.map (fun c => if c = '?' then '"' else c)

/-- Third `replace("?", "'")` of `_reparar_json`. -/
def repStep3 (l : List Char) : List Char :=
  l.map (fun c => if c = '?' then '\'' else c)

/-- Fourth `replace("?", "'")` of `_reparar_json`. -/
def repStep4 (l : List Char) : List Char :=
  l.map (fun c => if c = '?' then '\'' else c)

/-- `re.sub(r",\s*([}\])", r"\1", ...)` of `_reparar_json`: drop a comma
(and the whitespace run) immediately preceding a closing brace or bracket.
The fuel only bounds the left-to-right scan; the input length suffices. -/
def remTC : Nat → List Char → List Char
  | 0, l => l
  | _, [] => []
  | f + 1, ',' :: rest =>
      (match rest.dropWhile isPySpace with
       | '}' :: r2 => '}' :: remTC f r2
       | ']' :: r2 => ']' :: remTC f r2
       | _ => ',' :: remTC f rest)
  | f + 1, c :: rest => c :: remTC f rest

/-- `AnaliseIA._reparar_json`. -/
def repararJson (texto : List Char) : Option (List Char) :=
  if texto.isEmpty then none
  else
    let r1 := repStep4 (repStep3 (repStep2 (repStep1 texto)))
    let r2 := remTC r1.length r1
    extrairJson r2

/-- The result record built by `AnaliseIA.__init__`/`_parse`.  Fields hold
parsed JSON values (`Json.null` doubles for Python `None`, exactly as the
code conflates an absent key with a JSON `null`). -/
structure Analise where
  raw : List Char
  resumo : Json
  situacao : Json
  prazo : Json
  proxima_acao : Json
  erro : Option (List Char)
  aviso : Option (List Char)

/-- Record produced by the outer `except Exception` handler of `_parse`:
only `resumo` and `erro` are (re)assigned there, so `situacao`, `prazo` and
`proxima_acao` keep their constructor defaults. -/
def excRecord (raw : List Char) : Analise :=
  ⟨raw, Json.str "Erro na analise".data, Json.str "NORMAL".data,
   Json.null, Json.null, some "excecao".data, none⟩

/-- Record produced at the end of the `except json.JSONDecodeError` handler
when the repaired retry also fails (lines 154-156). -/
def decodeFallback (raw : List Char) : Analise :=
  ⟨raw, Json.str (if raw.isEmpty then "Erro na analise".data else raw.take 200),
   Json.str "NORMAL".data, Json.null, Json.null, none,
   some "JSON invalido".data⟩

/-- Body of `AnaliseIA._parse` after the fence-stripping prelude, as a
function of the raw input and the cleaned `texto`.  Exceptions are threaded
as `Option`: a `none` from `jsonLoads` is the `json.JSONDecodeError`
branch, a `none` from `mkCampos` is the `AttributeError` raised by
`.upper()`, caught by the outer handler (or, inside the repair retry, by
the inner `except Exception: pass`). -/
def parseFrom (raw texto : List Char) : Analise :=
  match extrairJson texto with
  | some js =>
      (match jsonLoads js with
       | some (Json.obj kvs) =>
           (match mkCampos kvs with
            | some (r, s, p, a) => ⟨raw, r, s, p, a, none, none⟩
            | none => excRecord raw)
       | some _ => excRecord raw
       | none =>
           (match repararJson texto with
            | some rep =>
                (match jsonLoads rep with
                 | some (Json.obj kvs) =>
                     (match mkCampos kvs with
                      | some (r, s, p, a) => ⟨raw, r, s, p, a, none, none⟩
                      | none => decodeFallback raw)
                 | some _ => decodeFallback raw
                 | none => decodeFallback raw)
            | none => decodeFallback raw))
  | none =>
      match extrairCampos texto with
      | some campos =>
          (match mkCampos campos with
           | some (r, s, p, a) => ⟨raw, r, s, p, a, none, none⟩
           | none => excRecord raw)
      | none =>
          ⟨raw,
           Json.str (if texto.isEmpty then "Nao foi possivel analisar".data else texto.take 200),
           Json.str "NORMAL".data, Json.null, Json.null, none,
           some "Resposta nao contem JSON valido".data⟩

/-- `AnaliseIA._parse` (together with `__init__`): the full cascade from
raw model output to the result record. -/
def parse (raw : List Char) : Analise := parseFrom raw (clean raw)

/-- The `sucesso` property: no error and a truthy `resumo`. -/
def Analise.sucesso (a : Analise) : Bool :=
  a.erro.isNone && pyTruthy a.resumo

/-- Wrapping a payload in a ```json fenced-code block, as in the spec's
fence-transparency property. -/
def wrapFence (raw : List Char) : List Char :=
  "```json\n".data ++ raw ++ "\n```".data

/-- Python `str()` of a parsed JSON value, used by `limpar_resumo_planilha`
on the early-return branch only.  Container and float `repr` forms are
abbreviated; every theorem below about `limpar` assumes the input does not
parse as an object, which makes this branch unreachable there. -/
def pyStr : Json → List Char
  | Json.str s => s
  | Json.null => "None".data
  | Json.bool true => "True".data
  | Json.bool false => "False".data
  | Json.num lex => lex
  | Json.arr _ => "[...]".data
  | Json.obj _ => "{...}".data

/-- `re.sub(r'}\s*$', '', texto)` of `limpar_resumo_planilha`: the anchored
pattern matches at most once, deleting a final closing brace together with
the whitespace after it. -/
def remCloseEnd (t : List Char) : List Char :=
  match t.reverse.dropWhile isPySpace with
  | '}' :: r => r.reverse
  | _ => t

/-- One match of `"?resumo"?\s*[:\-]?\s*` (case-insensitive) at the head of
the input; returns the input after the match.  Every element after the
mandatory `resumo` is optional and greedy, so no backtracking arises. -/
def matchResumoKey (l : List Char) : Option (List Char) :=
  match (match l with
         | '"' :: r =>
             (match labelPlain "resumo".data r with
              | some r2 => some r2
              | none => labelPlain "resumo".data l)
         | _ => labelPlain "resumo".data l) with
  | none => none
  | some r2 =>
      let r3 := match r2 with | '"' :: t => t | _ => r2
      let r4 := r3.dropWhile isPySpace
      let r5 := match r4 with | ':' :: t => t | '-' :: t => t | _ => r4
      some (r5.dropWhile isPySpace)

/-- `re.sub` of the `resumo` key pattern with empty replacement, scanning
left to right (fuel bounds the scan; the input length suffices since every
match consumes at least the six label characters). -/
def remResumoKeys : Nat → List Char → List Char
  | 0, l => l
  | _, [] => []
  | f + 1, c :: rest =>
      match matchResumoKey (c :: rest) with
      | some r => remResumoKeys f r
      | none => c :: remResumoKeys f rest

/-- One iteration of the sibling-word loop of `limpar_resumo_planilha`:
`texto.lower().find(chave)` followed by the `idx > 0` guard and the
truncate-strip-rstrip step. -/
def truncOne (chave t : List Char) : Option (List Char) :=
  match idxOfSub chave (t.map Char.toLower) with
  | some i =>
      if 0 < i then some (dropTrailWhile (· = ',') (pstrip (t.take i))) else none
  | none => none

/-- The sibling-word loop with its `break`: the chaves are tried in the
fixed source order and the first one found at a positive index wins. -/
def truncAtChaves (t : List Char) : List Char :=
  match truncOne "situacao".data t with
  | some t2 => t2
  | none =>
      match truncOne "prazo".data t with
      | some t2 => t2
      | none =>
          match truncOne "proxima_acao".data t with
          | some t2 => t2
          | none =>
              match truncOne "proxima acao".data t with
              | some t2 => t2
              | none => t

/-- Python `strip(ch)` for a single character. -/
def stripChars (ch : Char) (l : List Char) : List Char :=
  dropTrailWhile (· = ch) (l.dropWhile (· = ch))

/-- The final `texto.strip().strip('"').strip("'")` of
`limpar_resumo_planilha`. -/
def finishTrim (t : List Char) : List Char :=
  stripChars '\'' (stripChars '"' (pstrip t))

/-- The wrapper-stripping block of `limpar_resumo_planilha` (everything
after the failed `json.loads` early return). -/
def stripPipeline (texto : List Char) : List Char :=
  let t1 := texto.dropWhile (fun c => c = '{' || isPySpace c)
  let t2 := remCloseEnd t1
  let t3 := remResumoKeys t2.length t2
  let t4 := truncAtChaves t3
  finishTrim t4

/-- `bot.limpar_resumo_planilha`. -/
def limpar (resumo : List Char) : List Char :=
  if resumo.isEmpty then []
  else if lstarts ['{'] (pstrip resumo) ||
      containsSub "resumo".data ((pstrip resumo).map Char.toLower) then
    match jsonLoads (pstrip resumo) with
    | some (Json.obj kvs) =>
        (match dget kvs "resumo".data with
         | some v => pstrip (pyStr v)
         | none => stripPipeline (pstrip resumo))
    | _ => stripPipeline (pstrip resumo)
  else pstrip resumo

/-- Specification-side grammar of JSON string-literal bodies: no unescaped
quote, a backslash always followed by one (arbitrary) escaped character. -/
inductive StrOk : List Char → Prop where
  | nil : StrOk []
  | esc (c : Char) (rest : List Char) : StrOk rest → StrOk ('\\' :: c :: rest)
  | chr (c : Char) (rest : List Char) : c ≠ '"' → c ≠ '\\' → StrOk rest → StrOk (c :: rest)

/-- Specification-side grammar of well-nested brace segments, with string
literals opaque: a sequence of plain characters, complete `{...}` groups
and complete `"..."` literals.  This is the "well-nested with braces and
quotes inside string literals never affecting depth" notion of the spec. -/
inductive Bal : List Char → Prop where
  | nil : Bal []
  | chr (c : Char) (rest : List Char) : c ≠ '{' → c ≠ '}' → c ≠ '"' → Bal rest → Bal (c :: rest)
  | obj (inner rest : List Char) : Bal inner → Bal rest → Bal ('{' :: inner ++ '}' :: rest)
  | str (body rest : List Char) : StrOk body → Bal rest → Bal ('"' :: body ++ '"' :: rest)

/-- Text that closes `d` pending braces: `d - 1` unmatched closers with
balanced segments between them (the final pending one closes just after). -/
inductive NBal : Int → List Char → Prop where
  | one (s : List Char) : Bal s → NBal 1 s
  | more (d : Int) (b s : List Char) : 1 ≤ d → Bal b → NBal d s → NBal (d + 1) (b ++ '}' :: s)

/-- Does the text contain three consecutive backticks? -/
def hasTriple (l : List Char) : Bool := containsSub ['`', '`', '`'] l

/-- First case-insensitive occurrence of `p` in `l`, specified by position
rather than by Python's `lower`-then-`find` composition. -/
def findCI (p : List Char) : List Char → Option Nat
  | [] => if lstartsCI p [] then some 0 else none
  | c :: cs =>
      if lstartsCI p (c :: cs) then some 0
      else (findCI p cs).map (· + 1)

/-- Truncation step of the cleanup collaborator as the spec words it for a
single word: truncate before the word's occurrence (the source keeps the
`idx > 0` guard), then strip whitespace and trailing commas. -/
def truncSpecStep (chave t : List Char) : Option (List Char) :=
  match findCI chave t with
  | some i => if 0 < i then some (dropTrailWhile (· = ',') (pstrip (t.take i))) else none
  | none => none

/-- Try a list of sibling words in order; the first that truncates wins. -/
def truncFirstOf : List (List Char) → List Char → List Char
  | [], t => t
  | ch :: rest, t =>
      match truncSpecStep ch t with
      | some t2 => t2
      | none => truncFirstOf rest t

/-- Modelled from the claim's words (C9): truncate at the earliest
case-insensitive occurrence of any of the sibling words `situacao`,
`prazo`, `proxima_acao`, whichever position is smallest. -/
def truncEarliest (t : List Char) : List Char :=
  let cands := [findCI "situacao".data t, findCI "prazo".data t,
                findCI "proxima_acao".data t].reduceOption
  match cands.foldr (fun i acc => match acc with
                                  | none => some i
                                  | some a => some (min i a)) none with
  | some i =>
      if 0 < i then dropTrailWhile (· = ',') (pstrip (t.take i)) else t
  | none => t

/-- The cleanup collaborator's wrapper-stripping output as the original
claim C9 words it: leading braces, the single trailing brace, the `resumo`
key tokens, then truncation at the earliest sibling word, then quote
stripping. -/
def limparClaimSpec (texto : List Char) : List Char :=
  let t1 := texto.dropWhile (fun c => c = '{' || isPySpace c)
  let t2 := remCloseEnd t1
  let t3 := remResumoKeys t2.length t2
  let t4 := truncEarliest t3
  finishTrim t4

/-- The wrapper-stripping output as amended: the sibling words are tried
in the fixed priority order `situacao`, `prazo`, `proxima_acao`,
`proxima acao`, and the first one occurring at a positive index wins. -/
def limparAmendSpec (texto : List Char) : List Char :=
  let t1 := texto.dropWhile (fun c => c = '{' || isPySpace c)
  let t2 := remCloseEnd t1
  let t3 := remResumoKeys t2.length t2
  let t4 := truncFirstOf ["situacao".data, "prazo".data,
                          "proxima_acao".data, "proxima acao".data] t3
  finishTrim t4


/-- Constructor tag of a JSON value, used to state that backtick deletion
preserves the kind of the decoded value. -/
def jKind : Json → Nat
  | Json.null => 0
  | Json.bool _ => 1
  | Json.num _ => 2
  | Json.str _ => 3
  | Json.arr _ => 4
  | Json.obj _ => 5

/-- Fuel needed by `parseV` per mode, measured against the input length:
the canonical fuel `2 * length + 2` of `jsonLoads` always suffices. -/
def mcost : PMode → Nat
  | PMode.val => 1
  | PMode.mems => 2
  | PMode.elems => 2

/-- Characters that may legally follow a complete JSON value or key inside
a successful decode: whitespace, the separators, or the closers. -/
def sepChar (d : Char) : Bool :=
  jsonWsChar d || d = ',' || d = '}' || d = ']' || d = ':'

/-- The rest of the input after a value starts with a separator-class
character (vacuous for the empty rest). -/
def sepHead (r : List Char) : Prop :=
  ∀ d ds, r = d :: ds → sepChar d = true

theorem scanBal_str_esc1 (c : Char) (rest : List Char) (d : Int) (i : Nat) :
    scanBal ('\\' :: c :: rest) d true false i = scanBal rest d true false (i + 2) := by
  simp [scanBal]

theorem scanBal_str_close (rest : List Char) (d : Int) (i : Nat) :
    scanBal ('"' :: rest) d true false i = scanBal rest d false false (i + 1) := by
  simp [scanBal]

theorem scanBal_str_chr (c : Char) (rest : List Char) (d : Int) (i : Nat)
    (h1 : c ≠ '"') (h2 : c ≠ '\\') :
    scanBal (c :: rest) d true false i = scanBal rest d true false (i + 1) := by
  simp [scanBal, h1, h2]

theorem scanBal_open (rest : List Char) (d : Int) (i : Nat) :
    scanBal ('{' :: rest) d false false i = scanBal rest (d + 1) false false (i + 1) := by
  simp [scanBal]

theorem scanBal_close (rest : List Char) (d : Int) (i : Nat) :
    scanBal ('}' :: rest) d false false i =
      if d - 1 = 0 then some i else scanBal rest (d - 1) false false (i + 1) := by
  simp [scanBal]

theorem scanBal_quote (rest : List Char) (d : Int) (i : Nat) :
    scanBal ('"' :: rest) d false false i = scanBal rest d true false (i + 1) := by
  simp [scanBal]

theorem scanBal_plain (c : Char) (rest : List Char) (d : Int) (i : Nat)
    (h1 : c ≠ '"') (h2 : c ≠ '{') (h3 : c ≠ '}') :
    scanBal (c :: rest) d false false i = scanBal rest d false false (i + 1) := by
  simp [scanBal, h1, h2, h3]

/-- Shape of the text consumed by one `parseV` call, per mode: a value
consumes a balanced segment (an object one of the form `{mid}` with
balanced interior); the members mode consumes a balanced interior plus the
closing brace; the elements mode consumes a balanced segment ending at the
closing bracket. -/
def PVshape : PMode → Json → List Char → Prop
  | PMode.val, v, c =>
      Bal c ∧ ∀ kvs, v = Json.obj kvs → ∃ mid, c = '{' :: (mid ++ ['}']) ∧ Bal mid
  | PMode.mems, v, c => ∃ kvs mid, v = Json.obj kvs ∧ c = mid ++ ['}'] ∧ Bal mid
  | PMode.elems, v, c => Bal c ∧ ∃ es, v = Json.arr es

theorem Bal.append {a b : List Char} (ha : Bal a) (hb : Bal b) : Bal (a ++ b) := by
  induction ha with
  | nil => simpa using hb
  | chr c rest h1 h2 h3 _ ih => exact Bal.chr c _ h1 h2 h3 ih
  | obj inner rest h1 _ _ ih2 =>
      have h := Bal.obj inner (rest ++ b) h1 ih2
      simpa [List.append_assoc] using h
  | str body rest hs _ ih2 =>
      have h := Bal.str body (rest ++ b) hs ih2
      simpa [List.append_assoc] using h

theorem NBal.consBal {k : Int} {s : List Char} (b' : List Char) (hb : Bal b')
    (h : NBal k s) : NBal k (b' ++ s) := by
  cases h with
  | one s hs => exact NBal.one _ (hb.append hs)
  | more d b s hd hbb hns =>
      have h2 := NBal.more d (b' ++ b) s hd (hb.append hbb) hns
      simpa [List.append_assoc] using h2

theorem NBal.succ_inv {d : Int} (hd : 1 ≤ d) {f : List Char} (h : NBal (d + 1) f) :
    ∃ b s, f = b ++ '}' :: s ∧ Bal b ∧ NBal d s := by
  generalize he : d + 1 = e at h
  cases h with
  | one s hs => omega
  | more d' b s hd' hb hs =>
      have hdd : d' = d := by omega
      subst hdd
      exact ⟨b, s, rfl, hb, hs⟩

theorem NBal.one_inv {f : List Char} (h : NBal 1 f) : Bal f := by
  generalize he : (1 : Int) = e at h
  cases h with
  | one s hs => exact hs
  | more d' b s hd' hb hs => omega

theorem scanBal_str {body : List Char} (h : StrOk body) :
    ∀ (rest : List Char) (d : Int) (i : Nat),
      scanBal (body ++ '"' :: rest) d true false i =
        scanBal rest d false false (i + body.length + 1) := by
  induction h with
  | nil => intro rest d i; simp [scanBal_str_close]
  | esc c rest' _ ih =>
      intro rest d i
      simp only [List.cons_append, scanBal_str_esc1]
      rw [ih]
      congr 1
      simp
      omega
  | chr c rest' h1 h2 _ ih =>
      intro rest d i
      simp only [List.cons_append]
      rw [scanBal_str_chr c _ d i h1 h2, ih]
      congr 1
      simp
      omega

theorem scanBal_seg {b : List Char} (h : Bal b) :
    ∀ (rest : List Char) (d : Int) (i : Nat), 1 ≤ d →
      scanBal (b ++ rest) d false false i = scanBal rest d false false (i + b.length) := by
  induction h with
  | nil => intro rest d i _; simp
  | chr c rest' h1 h2 h3 _ ih =>
      intro rest d i hd
      simp only [List.cons_append]
      rw [scanBal_plain c _ d i h3 h1 h2, ih rest d (i + 1) hd]
      congr 1
      simp
      omega
  | obj inner rest' _ _ ihi ihr =>
      intro rest d i hd
      simp only [List.cons_append, List.append_assoc]
      rw [scanBal_open, ihi ('}' :: (rest' ++ rest)) (d + 1) (i + 1) (by omega), scanBal_close,
          if_neg (by omega : ¬ d + 1 - 1 = 0), show d + 1 - 1 = d by omega,
          ihr rest d _ hd]
      congr 1
      simp
      omega
  | str body rest' hs _ ihr =>
      intro rest d i hd
      simp only [List.cons_append, List.append_assoc]
      rw [scanBal_quote, scanBal_str hs, ihr rest d _ hd]
      congr 1
      simp
      omega

theorem scanBal_complete :
    ∀ (n : Nat) (l : List Char), l.length ≤ n →
      (∀ (d : Int) (i j : Nat), 1 ≤ d → scanBal l d false false i = some j →
         ∃ front post, l = front ++ '}' :: post ∧ NBal d front ∧ j = i + front.length) ∧
      (∀ (d : Int) (i j : Nat), 1 ≤ d → scanBal l d true false i = some j →
         ∃ body l2, l = body ++ '"' :: l2 ∧ StrOk body ∧
           scanBal l2 d false false (i + body.length + 1) = some j) := by
  intro n
  induction n with
  | zero =>
      intro l hl
      have hnil : l = [] := List.length_eq_zero.mp (Nat.le_zero.mp hl)
      subst hnil
      constructor <;> (intro d i j hd h; simp [scanBal] at h)
  | succ n ih =>
      intro l hl
      cases l with
      | nil => constructor <;> (intro d i j hd h; simp [scanBal] at h)
      | cons c t =>
          have ht : t.length ≤ n := by simp at hl; omega
          constructor
          · intro d i j hd h
            by_cases hq : c = '"'
            · subst hq
              rw [scanBal_quote] at h
              obtain ⟨body, l2, ht2, hbody, h2⟩ := (ih t ht).2 d (i + 1) j hd h
              have hl2 : l2.length ≤ n := by
                have hlen := congrArg List.length ht2
                simp at hlen; omega
              obtain ⟨front2, post, hl2eq, hnb2, hj⟩ := (ih l2 hl2).1 d _ j hd h2
              refine ⟨'"' :: body ++ '"' :: front2, post, ?_, ?_, ?_⟩
              · subst hl2eq; subst ht2; simp
              · have hb : Bal ('"' :: body ++ ['"']) := Bal.str body [] hbody Bal.nil
                have hc := NBal.consBal _ hb hnb2
                simpa [List.append_assoc] using hc
              · subst hl2eq; simp at hj ⊢; omega
            · by_cases hob : c = '{'
              · subst hob
                rw [scanBal_open] at h
                obtain ⟨front', post, hteq, hnb, hj⟩ := (ih t ht).1 (d + 1) (i + 1) j (by omega) h
                obtain ⟨b, s, hfeq, hb, hs⟩ := NBal.succ_inv hd hnb
                refine ⟨'{' :: front', post, by simp [hteq], ?_, ?_⟩
                · subst hfeq
                  have hbal : Bal ('{' :: b ++ ['}']) := Bal.obj b [] hb Bal.nil
                  have hc := NBal.consBal _ hbal hs
                  simpa [List.append_assoc] using hc
                · simp [hj]; omega
              · by_cases hcb : c = '}'
                · subst hcb
                  rw [scanBal_close] at h
                  by_cases hd1 : d - 1 = 0
                  · rw [if_pos hd1] at h
                    have hji : j = i := by simpa using h.symm
                    have hd1' : d = 1 := by omega
                    subst hd1'
                    exact ⟨[], t, by simp, NBal.one [] Bal.nil, by simp [hji]⟩
                  · rw [if_neg hd1] at h
                    obtain ⟨front', post, hteq, hnb, hj⟩ := (ih t ht).1 (d - 1) (i + 1) j (by omega) h
                    refine ⟨'}' :: front', post, by simp [hteq], ?_, ?_⟩
                    · have hc := NBal.more (d - 1) [] front' (by omega) Bal.nil hnb
                      simpa [show d - 1 + 1 = d by omega] using hc
                    · simp [hj]; omega
                · rw [scanBal_plain c t d i hq hob hcb] at h
                  obtain ⟨front', post, hteq, hnb, hj⟩ := (ih t ht).1 d (i + 1) j hd h
                  refine ⟨c :: front', post, by simp [hteq], ?_, ?_⟩
                  · have hc := NBal.consBal [c] (Bal.chr c [] hob hcb hq Bal.nil) hnb
                    simpa using hc
                  · simp [hj]; omega
          · intro d i j hd h
            by_cases hq : c = '"'
            · subst hq
              rw [scanBal_str_close] at h
              exact ⟨[], t, by simp, StrOk.nil, by simpa using h⟩
            · by_cases hbs : c = '\\'
              · subst hbs
                cases t with
                | nil => simp [scanBal] at h
                | cons c2 t2 =>
                    rw [scanBal_str_esc1] at h
                    have ht2 : t2.length ≤ n := by simp at hl; omega
                    obtain ⟨body', l2, ht2eq, hb', h2⟩ := (ih t2 ht2).2 d (i + 2) j hd h
                    refine ⟨'\\' :: c2 :: body', l2, by simp [ht2eq], StrOk.esc c2 body' hb', ?_⟩
                    have hidx : i + ('\\' :: c2 :: body').length + 1 = i + 2 + body'.length + 1 := by
                      simp; omega
                    rw [hidx]; exact h2
              · rw [scanBal_str_chr c t d i hq hbs] at h
                obtain ⟨body', l2, ht2eq, hb', h2⟩ := (ih t ht).2 d (i + 1) j hd h
                refine ⟨c :: body', l2, by simp [ht2eq], StrOk.chr c body' hq hbs hb', ?_⟩
                have hidx : i + (c :: body').length + 1 = i + 1 + body'.length + 1 := by
                  simp; omega
                rw [hidx]; exact h2

theorem dropWhile_append_all {p : Char → Bool} {pre l : List Char}
    (h : ∀ c ∈ pre, p c = true) : (pre ++ l).dropWhile p = l.dropWhile p := by
  induction pre with
  | nil => simp
  | cons c cs ih =>
      simp only [List.cons_append, List.dropWhile_cons, h c (by simp)]
      exact ih (fun x hx => h x (by simp [hx]))

theorem take_append_one (l x : List Char) (a : Char) :
    (l ++ a :: x).take (l.length + 1) = l ++ [a] := by
  induction l with
  | nil => simp
  | cons c cs ih => simpa using ih

theorem dropWhile_toBrace (pre t : List Char) (hpre : ∀ c ∈ pre, c ≠ '{') :
    (pre ++ '{' :: t).dropWhile (· ≠ '{') = '{' :: t := by
  rw [dropWhile_append_all (l := '{' :: t) (fun c hc => by simpa using hpre c hc)]
  simp [List.dropWhile_cons]

theorem extrairJson_pos (pre mid post : List Char)
    (hpre : ∀ c ∈ pre, c ≠ '{') (hmid : Bal mid) :
    extrairJson (pre ++ '{' :: mid ++ '}' :: post) = some ('{' :: mid ++ ['}']) := by
  have hdrop := dropWhile_toBrace pre (mid ++ '}' :: post) hpre
  unfold extrairJson
  rw [show pre ++ '{' :: mid ++ '}' :: post = pre ++ '{' :: (mid ++ '}' :: post) by simp]
  rw [hdrop, if_neg (by simp)]
  have hscan : scanBal ('{' :: (mid ++ '}' :: post)) 0 false false 0 = some (0 + 1 + mid.length) := by
    rw [scanBal_open, scanBal_seg hmid ('}' :: post) (0 + 1) (0 + 1) (by omega), scanBal_close,
        if_pos (by omega)]
  rw [hscan]
  simp only [Option.map_some']
  have htake := take_append_one ('{' :: mid) post '}'
  simp only [List.length_cons] at htake
  rw [show 0 + 1 + mid.length + 1 = mid.length + 1 + 1 by omega]
  rw [show '{' :: (mid ++ '}' :: post) = ('{' :: mid) ++ '}' :: post by simp]
  rw [htake]

theorem extrairJson_none_noBrace (texto : List Char) (h : ∀ c ∈ texto, c ≠ '{') :
    extrairJson texto = none := by
  unfold extrairJson
  have hdrop : texto.dropWhile (· ≠ '{') = [] := by
    rw [List.dropWhile_eq_nil_iff]
    intro x hx
    simpa using h x hx
  rw [hdrop, if_pos rfl]

theorem extrairJson_none_noClose (pre t : List Char) (hpre : ∀ c ∈ pre, c ≠ '{')
    (h : ¬ ∃ mid post, t = mid ++ '}' :: post ∧ Bal mid) :
    extrairJson (pre ++ '{' :: t) = none := by
  have hdrop := dropWhile_toBrace pre t hpre
  unfold extrairJson
  rw [hdrop, if_neg (by simp)]
  cases hscan : scanBal ('{' :: t) 0 false false 0 with
  | none => rfl
  | some j =>
      exfalso
      rw [scanBal_open] at hscan
      obtain ⟨front, post, hteq, hnb, _⟩ :=
        (scanBal_complete t.length t le_rfl).1 (0 + 1) (0 + 1) j (by omega) hscan
      exact h ⟨front, post, hteq, NBal.one_inv (by simpa using hnb)⟩

theorem strOkPlain (s : List Char) (h : ∀ c ∈ s, c ≠ '"' ∧ c ≠ '\\') : StrOk s := by
  induction s with
  | nil => exact StrOk.nil
  | cons c cs ih =>
      exact StrOk.chr c cs (h c (by simp)).1 (h c (by simp)).2
        (ih (fun x hx => h x (by simp [hx])))

theorem balPlain (s : List Char) (h : ∀ c ∈ s, c ≠ '{' ∧ c ≠ '}' ∧ c ≠ '"') : Bal s := by
  induction s with
  | nil => exact Bal.nil
  | cons c cs ih =>
      exact Bal.chr c cs (h c (by simp)).1 (h c (by simp)).2.1 (h c (by simp)).2.2
        (ih (fun x hx => h x (by simp [hx])))

/-- C3: for text containing a complete well-nested JSON object,
`_extrair_json` returns the substring from the first `{` through its
matching closing `}` inclusive, where braces and quotes inside string
literals (including escaped quotes) never affect the depth count; it
returns `None` when no `{` exists, and also when no prefix of the text
after the first `{` is a well-nested segment closed by `}` (depth never
returns to zero). -/
theorem C3_locator_balanced_span :
    (∀ texto : List Char, (∀ c ∈ texto, c ≠ '{') → extrairJson texto = none) ∧
    (∀ pre mid post : List Char, (∀ c ∈ pre, c ≠ '{') → Bal mid →
       extrairJson (pre ++ '{' :: mid ++ '}' :: post) = some ('{' :: mid ++ ['}'])) ∧
    (∀ pre t : List Char, (∀ c ∈ pre, c ≠ '{') →
       (¬ ∃ mid post, t = mid ++ '}' :: post ∧ Bal mid) →
       extrairJson (pre ++ '{' :: t) = none) :=
  ⟨extrairJson_none_noBrace, extrairJson_pos, extrairJson_none_noClose⟩

/-- Witness for C3: each conjunct applied at a concrete input — prose with
no brace; a span whose string literal contains `{`; an unterminated span. -/
theorem C3_locator_balanced_span_witness :
    extrairJson "sem chaves".data = none ∧
    extrairJson ("x ".data ++ '{' :: "\"a\x7bb\": 1".data ++ '}' :: " y".data) =
      some ('{' :: "\"a\x7bb\": 1".data ++ ['}']) ∧
    extrairJson ("x ".data ++ '{' :: "\"aberto".data) = none := by
  refine ⟨?_, ?_, ?_⟩
  · exact C3_locator_balanced_span.1 "sem chaves".data (by decide)
  · exact C3_locator_balanced_span.2.1 "x ".data "\"a\x7bb\": 1".data " y".data (by decide)
      (Bal.str ['a', '{', 'b'] [':', ' ', '1'] (strOkPlain _ (by decide)) (balPlain _ (by decide)))
  · refine C3_locator_balanced_span.2.2 "x ".data "\"aberto".data (by decide) ?_
    rintro ⟨mid, post, heq, -⟩
    have hmem : '}' ∈ "\"aberto".data := by rw [heq]; simp
    exact absurd hmem (by decide)


theorem lstarts_decomp {p l : List Char} (h : lstarts p l = true) :
    l = p ++ l.drop p.length := by
  induction p generalizing l with
  | nil => simp
  | cons a ps ih =>
      cases l with
      | nil => simp [lstarts] at h
      | cons c cs =>
          simp only [lstarts, Bool.and_eq_true, decide_eq_true_eq] at h
          obtain ⟨h1, h2⟩ := h
          subst h1
          simpa using ih h2

theorem mem_takeWhile_pred {p : Char → Bool} : ∀ {l : List Char} {a : Char},
    a ∈ l.takeWhile p → p a = true := by
  intro l
  induction l with
  | nil => intro a ha; simp [List.takeWhile] at ha
  | cons c cs ih =>
      intro a ha
      rw [List.takeWhile_cons] at ha
      by_cases hc : p c = true
      · rw [if_pos hc] at ha
        rcases List.mem_cons.mp ha with h | h
        · subst h; exact hc
        · exact ih h
      · rw [if_neg hc] at ha
        simp at ha

theorem jsonWs_plain {c : Char} (h : jsonWsChar c = true) :
    c ≠ '{' ∧ c ≠ '}' ∧ c ≠ '"' := by
  simp only [jsonWsChar, Bool.or_eq_true, decide_eq_true_eq] at h
  rcases h with ((h | h) | h) | h <;> subst h <;> exact ⟨by decide, by decide, by decide⟩

theorem balWsTake (l : List Char) : Bal (l.takeWhile jsonWsChar) :=
  balPlain _ (fun _ hc => jsonWs_plain (mem_takeWhile_pred hc))

theorem skipWs_decomp (l : List Char) : ∃ w, Bal w ∧ l = w ++ skipWs l :=
  ⟨l.takeWhile jsonWsChar, balWsTake l, (List.takeWhile_append_dropWhile _ _).symm⟩

theorem digit_plain {c : Char} (h : c.isDigit = true) :
    c ≠ '{' ∧ c ≠ '}' ∧ c ≠ '"' := by
  simp only [Char.isDigit, Bool.and_eq_true, decide_eq_true_eq] at h
  refine ⟨?_, ?_, ?_⟩ <;> (intro he; subst he; revert h; decide)

theorem spanDigits_fst (l : List Char) : ∀ c ∈ (spanDigits l).1, c.isDigit = true :=
  fun _ hc => mem_takeWhile_pred hc

theorem spanDigits_split (l : List Char) : l = (spanDigits l).1 ++ (spanDigits l).2 :=
  (List.takeWhile_append_dropWhile _ _).symm

theorem numInt_shape {l ip r : List Char} (h : numInt l = some (ip, r)) :
    l = ip ++ r ∧ ∀ c ∈ ip, c.isDigit = true := by
  cases l with
  | nil => simp [numInt] at h
  | cons c t =>
      simp only [numInt] at h
      by_cases hc : c = '0'
      · subst hc
        rw [if_pos rfl] at h
        obtain ⟨h1, h2⟩ := Prod.mk.injEq .. ▸ Option.some.inj h
        subst h1 h2
        exact ⟨rfl, by decide⟩
      · rw [if_neg hc] at h
        by_cases hd : c.isDigit
        · rw [if_pos hd] at h
          obtain ⟨h1, h2⟩ := Prod.mk.injEq .. ▸ Option.some.inj h
          subst h1 h2
          refine ⟨by simpa using spanDigits_split t, ?_⟩
          intro x hx
          rcases List.mem_cons.mp hx with hx | hx
          · subst hx; exact hd
          · exact spanDigits_fst t x hx
        · rw [if_neg hd] at h
          exact absurd h (by simp)

theorem numFrac_shape (l : List Char) :
    l = (numFrac l).1 ++ (numFrac l).2 ∧
      ∀ c ∈ (numFrac l).1, c = '.' ∨ c.isDigit = true := by
  cases l with
  | nil => simp [numFrac]
  | cons c t =>
      simp only [numFrac]
      by_cases hc : c = '.'
      · subst hc
        rw [if_pos rfl]
        by_cases hnil : (spanDigits t).1 = []
        · rw [if_pos hnil]; simp
        · rw [if_neg hnil]
          refine ⟨by simpa using spanDigits_split t, ?_⟩
          intro x hx
          rcases List.mem_cons.mp hx with hx | hx
          · exact Or.inl hx
          · exact Or.inr (spanDigits_fst t x hx)
      · rw [if_neg hc]; simp

theorem numExp_shape (l : List Char) :
    l = (numExp l).1 ++ (numExp l).2 ∧
      ∀ c ∈ (numExp l).1, c = 'e' ∨ c = 'E' ∨ c = '+' ∨ c = '-' ∨ c.isDigit = true := by
  match l with
  | [] => simp [numExp]
  | [e] => simp [numExp]
  | e :: c2 :: r2 =>
      simp only [numExp]
      by_cases he : e = 'e' ∨ e = 'E'
      · rw [if_pos (by simpa using he)]
        by_cases hp : c2 = '+'
        · subst hp
          rw [if_pos rfl]
          by_cases hnil : (spanDigits r2).1 = []
          · rw [if_pos hnil]; simp
          · rw [if_neg hnil]
            refine ⟨by simpa using spanDigits_split r2, ?_⟩
            intro x hx
            rcases List.mem_cons.mp hx with hx | hx
            · subst hx; tauto
            · rcases List.mem_cons.mp hx with hx | hx
              · subst hx; tauto
              · exact Or.inr (Or.inr (Or.inr (Or.inr (spanDigits_fst r2 x hx))))
        · rw [if_neg hp]
          by_cases hm : c2 = '-'
          · subst hm
            rw [if_pos rfl]
            by_cases hnil : (spanDigits r2).1 = []
            · rw [if_pos hnil]; simp
            · rw [if_neg hnil]
              refine ⟨by simpa using spanDigits_split r2, ?_⟩
              intro x hx
              rcases List.mem_cons.mp hx with hx | hx
              · subst hx; tauto
              · rcases List.mem_cons.mp hx with hx | hx
                · subst hx; tauto
                · exact Or.inr (Or.inr (Or.inr (Or.inr (spanDigits_fst r2 x hx))))
          · rw [if_neg hm]
            by_cases hnil : (spanDigits (c2 :: r2)).1 = []
            · rw [if_pos hnil]; simp
            · rw [if_neg hnil]
              refine ⟨by simpa using spanDigits_split (c2 :: r2), ?_⟩
              intro x hx
              rcases List.mem_cons.mp hx with hx | hx
              · subst hx; tauto
              · exact Or.inr (Or.inr (Or.inr (Or.inr (spanDigits_fst _ x hx))))
      · rw [if_neg (by simpa using he)]; simp

theorem numLex_plain {c : Char}
    (h : c = '.' ∨ c = 'e' ∨ c = 'E' ∨ c = '+' ∨ c = '-' ∨ c.isDigit = true) :
    c ≠ '{' ∧ c ≠ '}' ∧ c ≠ '"' := by
  rcases h with h | h | h | h | h | h
  · subst h; exact ⟨by decide, by decide, by decide⟩
  · subst h; exact ⟨by decide, by decide, by decide⟩
  · subst h; exact ⟨by decide, by decide, by decide⟩
  · subst h; exact ⟨by decide, by decide, by decide⟩
  · subst h; exact ⟨by decide, by decide, by decide⟩
  · exact digit_plain h

theorem parseNum_shape {l lex r : List Char} (h : parseNum l = some (lex, r)) :
    l = lex ++ r ∧ ∀ c ∈ lex, c ≠ '{' ∧ c ≠ '}' ∧ c ≠ '"' := by
  cases l with
  | nil => simp [parseNum] at h
  | cons c t =>
      simp only [parseNum] at h
      by_cases hc : c = '-'
      · subst hc
        rw [if_pos rfl] at h
        cases hni : numInt t with
        | none => rw [hni] at h; simp at h
        | some p =>
            obtain ⟨ip, r1⟩ := p
            rw [hni] at h
            obtain ⟨h1, h2⟩ := Prod.mk.injEq .. ▸ Option.some.inj h
            subst h1 h2
            obtain ⟨hint, hdig⟩ := numInt_shape hni
            obtain ⟨hfr, hfc⟩ := numFrac_shape r1
            obtain ⟨her, hec⟩ := numExp_shape (numFrac r1).2
            constructor
            · simp only [List.cons_append, List.append_assoc]
              rw [← her, ← hfr, ← hint]
            · intro x hx
              rcases List.mem_cons.mp hx with hx | hx
              · subst hx; exact ⟨by decide, by decide, by decide⟩
              · rcases List.mem_append.mp hx with hx | hx
                · rcases List.mem_append.mp hx with hx | hx
                  · exact digit_plain (hdig x hx)
                  · rcases hfc x hx with hh | hh
                    · exact numLex_plain (Or.inl hh)
                    · exact numLex_plain (Or.inr (Or.inr (Or.inr (Or.inr (Or.inr hh)))))
                · exact numLex_plain (Or.inr (hec x hx))
      · rw [if_neg hc] at h
        cases hni : numInt (c :: t) with
        | none => rw [hni] at h; simp at h
        | some p =>
            obtain ⟨ip, r1⟩ := p
            rw [hni] at h
            obtain ⟨h1, h2⟩ := Prod.mk.injEq .. ▸ Option.some.inj h
            subst h1 h2
            obtain ⟨hint, hdig⟩ := numInt_shape hni
            obtain ⟨hfr, hfc⟩ := numFrac_shape r1
            obtain ⟨her, hec⟩ := numExp_shape (numFrac r1).2
            constructor
            · simp only [List.append_assoc]
              rw [← her, ← hfr, ← hint]
            · intro x hx
              rcases List.mem_append.mp hx with hx | hx
              · rcases List.mem_append.mp hx with hx | hx
                · exact digit_plain (hdig x hx)
                · rcases hfc x hx with hh | hh
                  · exact numLex_plain (Or.inl hh)
                  · exact numLex_plain (Or.inr (Or.inr (Or.inr (Or.inr (Or.inr hh)))))
              · exact numLex_plain (Or.inr (hec x hx))

theorem hexD_plain {c : Char} (h : isHexD c = true) : c ≠ '"' ∧ c ≠ '\\' := by
  simp only [isHexD, Bool.or_eq_true, Bool.and_eq_true, decide_eq_true_eq] at h
  constructor <;> rintro rfl <;> revert h <;> decide


theorem parseStrBody_shape : ∀ (n : Nat) (l : List Char), l.length ≤ n → ∀ (s r : List Char),
    parseStrBody l = some (s, r) → ∃ body, l = body ++ '"' :: r ∧ StrOk body := by
  intro n
  induction n with
  | zero =>
      intro l hl s r h
      have hnil : l = [] := List.length_eq_zero.mp (Nat.le_zero.mp hl)
      subst hnil
      simp [parseStrBody] at h
  | succ n ih =>
      intro l hl s r h
      cases l with
      | nil => simp [parseStrBody] at h
      | cons c t =>
          rw [parseStrBody.eq_def] at h
          simp only [] at h
          by_cases hq : c = '"'
          · subst hq
            rw [if_pos rfl] at h
            simp only [Option.some.injEq, Prod.mk.injEq] at h
            obtain ⟨-, hr⟩ := h
            subst hr
            exact ⟨[], by simp, StrOk.nil⟩
          · rw [if_neg hq] at h
            by_cases hbs : c = '\\'
            · subst hbs
              rw [if_pos rfl] at h
              split at h
              · simp at h
              · rename_i e r2
                by_cases heu : e = 'u'
                · subst heu
                  rw [if_pos rfl] at h
                  split at h
                  · rename_i a1 a2 a3 a4 r3
                    by_cases hhex : (isHexD a1 && isHexD a2 && isHexD a3 && isHexD a4) = true
                    · rw [if_pos hhex, Option.map_eq_some'] at h
                      obtain ⟨⟨s', r'⟩, hps, heq⟩ := h
                      cases heq
                      obtain ⟨body', hb, hso⟩ := ih r3 (by simp at hl; omega) s' r' hps
                      obtain ⟨hx1, hx2, hx3, hx4⟩ :
                          isHexD a1 = true ∧ isHexD a2 = true ∧ isHexD a3 = true ∧
                            isHexD a4 = true := by
                        simpa [Bool.and_eq_true, and_assoc] using hhex
                      refine ⟨'\\' :: 'u' :: a1 :: a2 :: a3 :: a4 :: body', by simp [hb], ?_⟩
                      exact StrOk.esc 'u' _
                        (StrOk.chr a1 _ (hexD_plain hx1).1 (hexD_plain hx1).2
                          (StrOk.chr a2 _ (hexD_plain hx2).1 (hexD_plain hx2).2
                            (StrOk.chr a3 _ (hexD_plain hx3).1 (hexD_plain hx3).2
                              (StrOk.chr a4 _ (hexD_plain hx4).1 (hexD_plain hx4).2 hso))))
                    · rw [if_neg hhex] at h
                      simp at h
                  · simp at h
                · rw [if_neg heu] at h
                  split at h
                  · rename_i d hesc
                    rw [Option.map_eq_some'] at h
                    obtain ⟨⟨s', r'⟩, hps, heq⟩ := h
                    cases heq
                    obtain ⟨body', hb, hso⟩ := ih r2 (by simp at hl; omega) s' r' hps
                    exact ⟨'\\' :: e :: body', by simp [hb], StrOk.esc e _ hso⟩
                  · simp at h
            · rw [if_neg hbs] at h
              by_cases hctl : c.toNat < 32
              · rw [if_pos hctl] at h
                simp at h
              · rw [if_neg hctl, Option.map_eq_some'] at h
                obtain ⟨⟨s', r'⟩, hps, heq⟩ := h
                cases heq
                obtain ⟨body', hb, hso⟩ := ih t (by simp at hl; omega) s' r' hps
                exact ⟨c :: body', by simp [hb], StrOk.chr c _ hq hbs hso⟩

theorem parseStr_shape {l s r : List Char} (h : parseStr l = some (s, r)) :
    ∃ body, l = '"' :: (body ++ '"' :: r) ∧ StrOk body := by
  cases l with
  | nil => simp [parseStr] at h
  | cons c t =>
      have hc : c = '"' := by
        by_contra hc
        rw [parseStr.eq_def] at h
        split at h
        · rename_i heq
          obtain ⟨h1, -⟩ := List.cons.injEq .. ▸ heq
          exact hc h1
        · simp at h
      subst hc
      obtain ⟨body, hb, hso⟩ := parseStrBody_shape t.length t le_rfl s r (by simpa [parseStr] using h)
      exact ⟨body, by simp [hb], hso⟩

theorem balCons {ch : Char} (h1 : ch ≠ '{') (h2 : ch ≠ '}') (h3 : ch ≠ '"')
    {x : List Char} (hx : Bal x) : Bal (ch :: x) :=
  Bal.chr ch x h1 h2 h3 hx

theorem skipWs_split (l : List Char) :
    ∃ w, (∀ c ∈ w, jsonWsChar c = true) ∧ Bal w ∧ l = w ++ skipWs l :=
  ⟨l.takeWhile jsonWsChar, fun _ hc => mem_takeWhile_pred hc, balWsTake l,
    (List.takeWhile_append_dropWhile _ _).symm⟩

theorem balStrLit {body : List Char} (h : StrOk body) : Bal ('"' :: (body ++ ['"'])) :=
  Bal.str body [] h Bal.nil

theorem balObjLit {mid : List Char} (h : Bal mid) : Bal ('{' :: (mid ++ ['}'])) :=
  Bal.obj mid [] h Bal.nil


set_option maxHeartbeats 1000000 in
theorem parseV_shape : ∀ (fuel : Nat) (mode : PMode) (l : List Char) (v : Json) (r : List Char),
    parseV fuel mode l = some (v, r) → ∃ c, l = c ++ r ∧ PVshape mode v c := by
  intro fuel
  induction fuel with
  | zero => intro mode l v r h; simp [parseV] at h
  | succ fuel ih =>
      intro mode l v r h
      cases mode with
      | val =>
          cases l with
          | nil => simp [parseV] at h
          | cons c0 t =>
              rw [parseV.eq_def] at h
              simp only [] at h
              by_cases h1 : c0 = '{'
              · subst h1
                rw [if_pos rfl] at h
                split at h
                · rename_i r2 heqws
                  cases Option.some.inj h
                  obtain ⟨w, hwmem, hw, hsplit⟩ := skipWs_split t
                  rw [heqws] at hsplit
                  refine ⟨'{' :: (w ++ ['}']), ?_, ?_⟩
                  · rw [hsplit]; simp
                  · exact ⟨balObjLit hw, fun kvs hv => ⟨w, rfl, hw⟩⟩
                · rename_i t2 heqws
                  obtain ⟨cm, hcm, hsh⟩ := ih PMode.mems (skipWs t) v r h
                  obtain ⟨kvs, mid2, hv, hcmeq, hmid2⟩ := hsh
                  obtain ⟨w, hwmem, hw, hsplit⟩ := skipWs_split t
                  refine ⟨'{' :: (w ++ cm), ?_, ?_⟩
                  · rw [hsplit, hcm]; simp
                  · constructor
                    · rw [hcmeq]
                      have hb := balObjLit (hw.append hmid2)
                      simpa [List.append_assoc] using hb
                    · intro kvs2 hv2
                      exact ⟨w ++ mid2, by rw [hcmeq]; simp, hw.append hmid2⟩
                · simp at h
              · rw [if_neg h1] at h
                by_cases h2 : c0 = '['
                · subst h2
                  rw [if_pos rfl] at h
                  split at h
                  · rename_i r2 heqws
                    cases Option.some.inj h
                    obtain ⟨w, hwmem, hw, hsplit⟩ := skipWs_split t
                    rw [heqws] at hsplit
                    refine ⟨'[' :: (w ++ [']']), ?_, ?_⟩
                    · rw [hsplit]; simp
                    · constructor
                      · apply balPlain
                        intro x hx
                        simp at hx
                        rcases hx with hx | hx | hx
                        · subst hx; exact ⟨by decide, by decide, by decide⟩
                        · exact jsonWs_plain (hwmem x hx)
                        · subst hx; exact ⟨by decide, by decide, by decide⟩
                      · intro kvs hv; simp at hv
                  · obtain ⟨ce, hce, hsh⟩ := ih PMode.elems (skipWs t) v r h
                    obtain ⟨hbce, es, hv⟩ := hsh
                    obtain ⟨w, hwmem, hw, hsplit⟩ := skipWs_split t
                    refine ⟨'[' :: (w ++ ce), ?_, ?_⟩
                    · rw [hsplit, hce]; simp
                    · refine ⟨balCons (by decide) (by decide) (by decide) (hw.append hbce), ?_⟩
                      intro kvs hv2
                      rw [hv] at hv2
                      simp at hv2
                · rw [if_neg h2] at h
                  by_cases h3 : c0 = '"'
                  · subst h3
                    rw [if_pos rfl, Option.map_eq_some'] at h
                    obtain ⟨⟨s1, r1⟩, hps, heq⟩ := h
                    cases heq
                    obtain ⟨body, hleq, hso⟩ := parseStr_shape hps
                    obtain ⟨-, ht⟩ := List.cons.injEq .. ▸ hleq
                    refine ⟨'"' :: (body ++ ['"']), ?_, ?_⟩
                    · rw [ht]; simp
                    · exact ⟨balStrLit hso, fun kvs hv => by simp at hv⟩
                  · rw [if_neg h3] at h
                    by_cases h4 : c0 = 't'
                    · subst h4
                      rw [if_pos rfl] at h
                      by_cases hls : lstarts ['r', 'u', 'e'] t = true
                      · rw [if_pos hls] at h
                        cases Option.some.inj h
                        refine ⟨'t' :: ['r', 'u', 'e'], ?_, ?_⟩
                        · exact congrArg (List.cons _) (lstarts_decomp hls)
                        · exact ⟨balPlain _ (by decide), fun kvs hv => by simp at hv⟩
                      · rw [if_neg hls] at h; simp at h
                    · rw [if_neg h4] at h
                      by_cases h5 : c0 = 'f'
                      · subst h5
                        rw [if_pos rfl] at h
                        by_cases hls : lstarts ['a', 'l', 's', 'e'] t = true
                        · rw [if_pos hls] at h
                          cases Option.some.inj h
                          refine ⟨'f' :: ['a', 'l', 's', 'e'], ?_, ?_⟩
                          · exact congrArg (List.cons _) (lstarts_decomp hls)
                          · exact ⟨balPlain _ (by decide), fun kvs hv => by simp at hv⟩
                        · rw [if_neg hls] at h; simp at h
                      · rw [if_neg h5] at h
                        by_cases h6 : c0 = 'n'
                        · subst h6
                          rw [if_pos rfl] at h
                          by_cases hls : lstarts ['u', 'l', 'l'] t = true
                          · rw [if_pos hls] at h
                            cases Option.some.inj h
                            refine ⟨'n' :: ['u', 'l', 'l'], ?_, ?_⟩
                            · exact congrArg (List.cons _) (lstarts_decomp hls)
                            · exact ⟨balPlain _ (by decide), fun kvs hv => by simp at hv⟩
                          · rw [if_neg hls] at h; simp at h
                        · rw [if_neg h6] at h
                          by_cases h7 : c0 = 'N'
                          · subst h7
                            rw [if_pos rfl] at h
                            by_cases hls : lstarts ['a', 'N'] t = true
                            · rw [if_pos hls] at h
                              cases Option.some.inj h
                              refine ⟨'N' :: ['a', 'N'], ?_, ?_⟩
                              · exact congrArg (List.cons _) (lstarts_decomp hls)
                              · exact ⟨balPlain _ (by decide), fun kvs hv => by simp at hv⟩
                            · rw [if_neg hls] at h; simp at h
                          · rw [if_neg h7] at h
                            by_cases h8 : c0 = 'I'
                            · subst h8
                              rw [if_pos rfl] at h
                              by_cases hls : lstarts ['n', 'f', 'i', 'n', 'i', 't', 'y'] t = true
                              · rw [if_pos hls] at h
                                cases Option.some.inj h
                                refine ⟨'I' :: ['n', 'f', 'i', 'n', 'i', 't', 'y'], ?_, ?_⟩
                                · exact congrArg (List.cons _) (lstarts_decomp hls)
                                · exact ⟨balPlain _ (by decide), fun kvs hv => by simp at hv⟩
                              · rw [if_neg hls] at h; simp at h
                            · rw [if_neg h8] at h
                              by_cases h9 : c0 = '-'
                              · subst h9
                                rw [if_pos rfl] at h
                                split at h
                                · rename_i lex r2 heqpn
                                  cases Option.some.inj h
                                  obtain ⟨hdec, hchars⟩ := parseNum_shape heqpn
                                  exact ⟨lex, hdec,
                                    balPlain _ hchars, fun kvs hv => by simp at hv⟩
                                · by_cases hls :
                                      lstarts ['I', 'n', 'f', 'i', 'n', 'i', 't', 'y'] t = true
                                  · rw [if_pos hls] at h
                                    cases Option.some.inj h
                                    refine ⟨'-' :: ['I', 'n', 'f', 'i', 'n', 'i', 't', 'y'],
                                      ?_, ?_⟩
                                    · exact congrArg (List.cons _) (lstarts_decomp hls)
                                    · exact ⟨balPlain _ (by decide), fun kvs hv => by simp at hv⟩
                                  · rw [if_neg hls] at h; simp at h
                              · rw [if_neg h9] at h
                                by_cases h10 : c0.isDigit = true
                                · rw [if_pos h10, Option.map_eq_some'] at h
                                  obtain ⟨⟨lex, r2⟩, hpn, heq⟩ := h
                                  cases heq
                                  obtain ⟨hdec, hchars⟩ := parseNum_shape hpn
                                  exact ⟨lex, hdec,
                                    balPlain _ hchars, fun kvs hv => by simp at hv⟩
                                · rw [if_neg h10] at h; simp at h
      | mems =>
          rw [parseV.eq_def] at h
          simp only [] at h
          split at h
          · simp at h
          · rename_i k r1 hps
            split at h
            · rename_i r2 heqcol
              split at h
              · simp at h
              · rename_i v1 r3 hval
                split at h
                · rename_i r4 heqcom
                  split at h
                  · rename_i t4 heqq
                    split at h
                    · rename_i kvs2 r5 heqm
                      cases Option.some.inj h
                      obtain ⟨kb, hlk, hsk⟩ := parseStr_shape hps
                      obtain ⟨cv, hcv, hshv⟩ := ih PMode.val _ _ _ hval
                      obtain ⟨hbcv, -⟩ := hshv
                      obtain ⟨cm2, hcm2, hshm⟩ := ih PMode.mems _ _ _ heqm
                      obtain ⟨kvsX, mid2, hvX, hcm2eq, hmid2⟩ := hshm
                      obtain ⟨w1, hw1m, hw1, hs1⟩ := skipWs_split r1
                      rw [heqcol] at hs1
                      obtain ⟨w2, hw2m, hw2, hs2⟩ := skipWs_split r2
                      rw [hcv] at hs2
                      obtain ⟨w3, hw3m, hw3, hs3⟩ := skipWs_split r3
                      rw [heqcom] at hs3
                      obtain ⟨w4, hw4m, hw4, hs4⟩ := skipWs_split r4
                      rw [hcm2] at hs4
                      refine ⟨('"' :: (kb ++ ['"'])) ++ w1 ++
                        ':' :: (w2 ++ cv ++ w3 ++ ',' :: (w4 ++ cm2)), ?_, ?_⟩
                      · rw [hlk, hs1, hs2, hs3, hs4]
                        simp [List.append_assoc]
                      · refine ⟨(k, v1) :: kvs2,
                          ('"' :: (kb ++ ['"'])) ++ w1 ++
                            ':' :: (w2 ++ cv ++ w3 ++ ',' :: (w4 ++ mid2)), rfl, ?_, ?_⟩
                        · rw [hcm2eq]
                          simp [List.append_assoc]
                        · refine ((balStrLit hsk).append hw1).append
                            (balCons (by decide) (by decide) (by decide) ?_)
                          exact ((hw2.append hbcv).append hw3).append
                            (balCons (by decide) (by decide) (by decide) (hw4.append hmid2))
                    · simp at h
                  · simp at h
                · rename_i r4 heqbr
                  cases Option.some.inj h
                  obtain ⟨kb, hlk, hsk⟩ := parseStr_shape hps
                  obtain ⟨cv, hcv, hshv⟩ := ih PMode.val _ _ _ hval
                  obtain ⟨hbcv, -⟩ := hshv
                  obtain ⟨w1, hw1m, hw1, hs1⟩ := skipWs_split r1
                  rw [heqcol] at hs1
                  obtain ⟨w2, hw2m, hw2, hs2⟩ := skipWs_split r2
                  rw [hcv] at hs2
                  obtain ⟨w3, hw3m, hw3, hs3⟩ := skipWs_split r3
                  rw [heqbr] at hs3
                  refine ⟨('"' :: (kb ++ ['"'])) ++ w1 ++
                    ':' :: (w2 ++ cv ++ w3) ++ ['}'], ?_, ?_⟩
                  · rw [hlk, hs1, hs2, hs3]
                    simp [List.append_assoc]
                  · refine ⟨[(k, v1)],
                      ('"' :: (kb ++ ['"'])) ++ w1 ++ ':' :: (w2 ++ cv ++ w3), rfl, ?_, ?_⟩
                    · simp [List.append_assoc]
                    · exact ((balStrLit hsk).append hw1).append
                        (balCons (by decide) (by decide) (by decide)
                          ((hw2.append hbcv).append hw3))
                · simp at h
            · simp at h
      | elems =>
          rw [parseV.eq_def] at h
          simp only [] at h
          split at h
          · simp at h
          · rename_i v1 r1 hval
            split at h
            · rename_i r2 heqcom
              split at h
              · rename_i vs r3 heqe
                cases Option.some.inj h
                obtain ⟨cv, hcv, hshv⟩ := ih PMode.val _ _ _ hval
                obtain ⟨hbcv, -⟩ := hshv
                obtain ⟨ce2, hce2, hshe⟩ := ih PMode.elems _ _ _ heqe
                obtain ⟨hbce2, es, hve⟩ := hshe
                obtain ⟨w1, hw1m, hw1, hs1⟩ := skipWs_split r1
                rw [heqcom] at hs1
                obtain ⟨w2, hw2m, hw2, hs2⟩ := skipWs_split r2
                rw [hce2] at hs2
                refine ⟨cv ++ w1 ++ ',' :: (w2 ++ ce2), ?_, ?_⟩
                · rw [hcv, hs1, hs2]
                  simp [List.append_assoc]
                · refine ⟨(hbcv.append hw1).append
                    (balCons (by decide) (by decide) (by decide) (hw2.append hbce2)), ?_⟩
                  exact ⟨v1 :: vs, rfl⟩
              · simp at h
            · rename_i r2 heqbr
              cases Option.some.inj h
              obtain ⟨cv, hcv, hshv⟩ := ih PMode.val _ _ _ hval
              obtain ⟨hbcv, -⟩ := hshv
              obtain ⟨w1, hw1m, hw1, hs1⟩ := skipWs_split r1
              rw [heqbr] at hs1
              refine ⟨cv ++ w1 ++ [']'], ?_, ?_⟩
              · rw [hcv, hs1]
                simp [List.append_assoc]
              · exact ⟨(hbcv.append hw1).append (balPlain _ (by decide)), [v1], rfl⟩
            · simp at h

theorem jsonWs_le_pyWs {c : Char} (h : jsonWsChar c = true) : isPySpace c = true := by
  simp only [jsonWsChar, Bool.or_eq_true, decide_eq_true_eq] at h
  rcases h with ((h | h) | h) | h <;> subst h <;> decide

theorem dropWhile_head_false {p : Char → Bool} : ∀ (l : List Char) {c : Char} {cs : List Char},
    l.dropWhile p = c :: cs → p c = false := by
  intro l
  induction l with
  | nil => intro c cs h; simp at h
  | cons a as ih =>
      intro c cs h
      rw [List.dropWhile_cons] at h
      by_cases ha : p a = true
      · rw [if_pos ha] at h
        exact ih h
      · rw [if_neg ha] at h
        obtain ⟨h1, -⟩ := List.cons.injEq .. ▸ h
        rw [← h1]
        exact Bool.not_eq_true _ ▸ ha

theorem dropTrail_decomp (p : Char → Bool) (y : List Char) :
    ∃ tr, (∀ c ∈ tr, p c = true) ∧ y = dropTrailWhile p y ++ tr := by
  refine ⟨(y.reverse.takeWhile p).reverse, ?_, ?_⟩
  · intro c hc
    exact mem_takeWhile_pred (List.mem_reverse.mp hc)
  · unfold dropTrailWhile
    rw [← List.reverse_append, List.takeWhile_append_dropWhile]
    simp

theorem pstrip_decomp (l : List Char) :
    ∃ a b, (∀ c ∈ a, isPySpace c = true) ∧ (∀ c ∈ b, isPySpace c = true) ∧
      l = a ++ pstrip l ++ b := by
  obtain ⟨tr, htr, hy⟩ := dropTrail_decomp isPySpace (l.dropWhile isPySpace)
  refine ⟨l.takeWhile isPySpace, tr, fun _ hc => mem_takeWhile_pred hc, htr, ?_⟩
  conv_lhs => rw [← List.takeWhile_append_dropWhile (p := isPySpace) (l := l)]
  unfold pstrip
  rw [List.append_assoc, ← hy]

theorem pstrip_head_false {l : List Char} {c : Char} {cs : List Char}
    (h : pstrip l = c :: cs) : isPySpace c = false := by
  obtain ⟨tr, -, hy⟩ := dropTrail_decomp isPySpace (l.dropWhile isPySpace)
  have hd : l.dropWhile isPySpace = c :: (cs ++ tr) := by
    rw [hy]
    unfold pstrip at h
    rw [h]
    simp
  exact dropWhile_head_false l hd

theorem pstrip_rev_head_false {l : List Char} {d : Char} {ds : List Char}
    (h : (pstrip l).reverse = d :: ds) : isPySpace d = false := by
  have hrev : (pstrip l).reverse = (l.dropWhile isPySpace).reverse.dropWhile isPySpace := by
    unfold pstrip dropTrailWhile
    simp
  rw [hrev] at h
  exact dropWhile_head_false _ h

theorem dropWhile_eq_self_of_head {p : Char → Bool} {l : List Char}
    (h : ∀ c cs, l = c :: cs → p c = false) : l.dropWhile p = l := by
  cases l with
  | nil => simp
  | cons c cs =>
      rw [List.dropWhile_cons, if_neg (by simp [h c cs rfl])]

theorem pstrip_eq_self {l : List Char}
    (hhead : ∀ c cs, l = c :: cs → isPySpace c = false)
    (hlast : ∀ d ds, l.reverse = d :: ds → isPySpace d = false) : pstrip l = l := by
  unfold pstrip dropTrailWhile
  rw [dropWhile_eq_self_of_head hhead]
  rw [dropWhile_eq_self_of_head (by
    intro c cs h
    exact hlast c cs h)]
  simp

theorem pstrip_idem (l : List Char) : pstrip (pstrip l) = pstrip l := by
  apply pstrip_eq_self
  · intro c cs h
    exact pstrip_head_false h
  · intro d ds h
    exact pstrip_rev_head_false h

theorem skipWs_eq_self_of_head {l : List Char}
    (h : ∀ c cs, l = c :: cs → isPySpace c = false) : skipWs l = l := by
  unfold skipWs
  apply dropWhile_eq_self_of_head
  intro c cs hc
  have hpy := h c cs hc
  by_cases hj : jsonWsChar c = true
  · rw [jsonWs_le_pyWs hj] at hpy
    simp at hpy
  · simpa using hj

theorem jsonLoads_pstrip_obj {l : List Char} {kvs : List (List Char × Json)}
    (h : jsonLoads (pstrip l) = some (Json.obj kvs)) :
    ∃ mid, pstrip l = '{' :: (mid ++ ['}']) ∧ Bal mid := by
  have hsk : skipWs (pstrip l) = pstrip l :=
    skipWs_eq_self_of_head (fun c cs hc => pstrip_head_false hc)
  unfold jsonLoads at h
  simp only [hsk] at h
  cases hpv : parseV (2 * (pstrip l).length + 2) PMode.val (pstrip l) with
  | none => rw [hpv] at h; simp at h
  | some p =>
      obtain ⟨v, rest⟩ := p
      rw [hpv] at h
      simp only [] at h
      by_cases hre : skipWs rest = []
      · rw [if_pos hre] at h
        have hv : v = Json.obj kvs := Option.some.inj h
        subst hv
        obtain ⟨c, hdec, hsh⟩ := parseV_shape _ _ _ _ _ hpv
        obtain ⟨hbal, hobj⟩ := hsh
        obtain ⟨mid, hceq, hmid⟩ := hobj kvs rfl
        have hrest : rest = [] := by
          by_contra hne
          obtain ⟨d, ds, hds⟩ : ∃ d ds, rest.reverse = d :: ds := by
            cases hr : rest.reverse with
            | nil =>
                exact absurd (by simpa using congrArg List.reverse hr) hne
            | cons d ds => exact ⟨d, ds, rfl⟩
          have hall : ∀ x ∈ rest, jsonWsChar x = true :=
            List.dropWhile_eq_nil_iff.mp hre
          have hrev : (pstrip l).reverse = d :: (ds ++ c.reverse) := by
            rw [hdec]
            simp [hds]
          have hlastf := pstrip_rev_head_false hrev
          have hdmem : d ∈ rest := by
            have hmem : d ∈ rest.reverse := by rw [hds]; simp
            simpa using hmem
          rw [jsonWs_le_pyWs (hall d hdmem)] at hlastf
          simp at hlastf
        subst hrest
        refine ⟨mid, ?_, hmid⟩
        simp only [List.append_nil] at hdec
        rw [hdec, hceq]
      · rw [if_neg hre] at h
        simp at h

theorem lstarts_append_mono {p x : List Char} (y : List Char)
    (h : lstarts p x = true) : lstarts p (x ++ y) = true := by
  induction p generalizing x with
  | nil => simp [lstarts]
  | cons a ps ih =>
      cases x with
      | nil => simp [lstarts] at h
      | cons c cs =>
          simp only [lstarts, Bool.and_eq_true] at h ⊢
          exact ⟨h.1, ih h.2⟩

theorem containsSub_append_right {p x : List Char} (y : List Char)
    (h : containsSub p x = true) : containsSub p (x ++ y) = true := by
  induction x with
  | nil =>
      simp only [containsSub] at h
      cases y with
      | nil => simpa [containsSub] using h
      | cons c cs =>
          simp only [List.nil_append, containsSub, Bool.or_eq_true]
          exact Or.inl (lstarts_append_mono _ h)
  | cons c cs ih =>
      simp only [containsSub, Bool.or_eq_true] at h
      rcases h with h | h
      · simp only [List.cons_append, containsSub, Bool.or_eq_true]
        exact Or.inl (by simpa using lstarts_append_mono y h)
      · simp only [List.cons_append, containsSub, Bool.or_eq_true]
        exact Or.inr (ih h)

theorem containsSub_append_left {p y : List Char} (x : List Char)
    (h : containsSub p y = true) : containsSub p (x ++ y) = true := by
  induction x with
  | nil => simpa using h
  | cons c cs ih =>
      simp only [List.cons_append, containsSub, Bool.or_eq_true]
      exact Or.inr ih

theorem removeTriples_fix : ∀ (l : List Char), hasTriple l = false → removeTriples l = l := by
  intro l
  induction l using removeTriples.induct with
  | case1 => intro _; rfl
  | case2 c => intro _; rfl
  | case3 c1 c2 => intro _; rfl
  | case4 c1 c2 c3 rest htri ih =>
      intro h
      exfalso
      simp only [Bool.and_eq_true, decide_eq_true_eq] at htri
      obtain ⟨⟨h1, h2⟩, h3⟩ := htri
      subst h1; subst h2; subst h3
      simp [hasTriple, containsSub, lstarts] at h
  | case5 c1 c2 c3 rest htri ih =>
      intro h
      simp only [removeTriples]
      rw [if_neg htri]
      congr 1
      apply ih
      rw [Bool.eq_false_iff] at h ⊢
      intro hc
      exact h (containsSub_append_left [c1] hc)

theorem hasTriple_pstrip {l : List Char} (h : hasTriple l = false) :
    hasTriple (pstrip l) = false := by
  rw [Bool.eq_false_iff] at h ⊢
  intro hc
  obtain ⟨a, b, -, -, hd⟩ := pstrip_decomp l
  apply h
  rw [hd]
  unfold hasTriple
  rw [List.append_assoc]
  exact containsSub_append_left a (containsSub_append_right b hc)

theorem clean_eq_pstrip {raw : List Char} {kvs : List (List Char × Json)}
    (htrip : hasTriple raw = false)
    (h : jsonLoads (pstrip raw) = some (Json.obj kvs)) :
    clean raw = pstrip raw := by
  obtain ⟨mid, hshape, -⟩ := jsonLoads_pstrip_obj h
  have hrf : resubFence (pstrip raw) = pstrip raw := by
    unfold resubFence
    rw [if_neg ?hneg]
    case hneg =>
      rw [hshape]
      simp [lstarts]
  have hrt : removeTriples (pstrip raw) = pstrip raw :=
    removeTriples_fix _ (hasTriple_pstrip htrip)
  have hrev : (pstrip raw).reverse = '}' :: (mid.reverse ++ ['{']) := by
    rw [hshape]
    simp
  have h7 : ¬ lstarts "```json".data (pstrip raw) = true := by
    rw [hshape]; simp [lstarts]
  have h3 : ¬ lstarts ['`', '`', '`'] (pstrip raw) = true := by
    rw [hshape]; simp [lstarts]
  have hend : ¬ lends ['`', '`', '`'] (pstrip raw) = true := by
    unfold lends; rw [hrev]; simp [lstarts]
  unfold clean fenceDrop7 fenceDrop3 fenceDropEnd
  rw [hrf, pstrip_idem, hrt, pstrip_idem, if_neg h7, if_neg h3, if_neg hend]
  exact pstrip_idem raw

theorem extrairJson_pstrip_self {raw : List Char} {kvs : List (List Char × Json)}
    (h : jsonLoads (pstrip raw) = some (Json.obj kvs)) :
    extrairJson (pstrip raw) = some (pstrip raw) := by
  obtain ⟨mid, hshape, hmid⟩ := jsonLoads_pstrip_obj h
  have hpos := extrairJson_pos [] mid [] (by simp) hmid
  rw [hshape]
  simpa using hpos

theorem parseFrom_obj (raw texto js : List Char) (kvs : List (List Char × Json))
    (hex : extrairJson texto = some js)
    (hj : jsonLoads js = some (Json.obj kvs)) :
    parseFrom raw texto =
      (match mkCampos kvs with
       | some (r, s, p, a) => ⟨raw, r, s, p, a, none, none⟩
       | none => excRecord raw) := by
  unfold parseFrom
  rw [hex]
  simp only []
  rw [hj]

theorem parse_obj_case {raw : List Char} {kvs : List (List Char × Json)}
    (htrip : hasTriple raw = false)
    (h : jsonLoads (pstrip raw) = some (Json.obj kvs)) :
    parse raw =
      (match mkCampos kvs with
       | some (r, s, p, a) => ⟨raw, r, s, p, a, none, none⟩
       | none => excRecord raw) := by
  unfold parse
  rw [clean_eq_pstrip htrip h]
  exact parseFrom_obj raw _ _ kvs (extrairJson_pstrip_self h) h

theorem mkCampos_of_keys {kvs : List (List Char × Json)} {rv sv : List Char} {pv av : Json}
    (hr : dget kvs "resumo".data = some (Json.str rv))
    (hs : dget kvs "situacao".data = some (Json.str sv))
    (hp : dget kvs "prazo".data = some pv)
    (ha : dget kvs "proxima_acao".data = some av) :
    mkCampos kvs = some (Json.str rv, Json.str (sv.map Char.toUpper), pv, av) := by
  unfold mkCampos
  rw [hr, hs, hp, ha]
  rfl

/-- C2 (amended): for a raw input whose stripped text is a syntactically
valid JSON object carrying all four keys — with `resumo` a non-empty
string, `situacao` a string, and no ``` run in the raw text (the
fence-stripper deletes such runs anywhere, see the C10 development) — the
result record holds exactly the four JSON values (`situacao` uppercased),
has neither `erro` nor `aviso`, and `sucesso` is true.  The original
claim's unconditional form fails on an empty or non-string `resumo` (see
the counterexample). -/
theorem C2_valid_json_populates (raw : List Char) (kvs : List (List Char × Json))
    (rv sv : List Char) (pv av : Json)
    (htrip : hasTriple raw = false)
    (hjson : jsonLoads (pstrip raw) = some (Json.obj kvs))
    (hr : dget kvs "resumo".data = some (Json.str rv))
    (hrne : rv ≠ [])
    (hs : dget kvs "situacao".data = some (Json.str sv))
    (hp : dget kvs "prazo".data = some pv)
    (ha : dget kvs "proxima_acao".data = some av) :
    parse raw = ⟨raw, Json.str rv, Json.str (sv.map Char.toUpper), pv, av, none, none⟩ ∧
      (parse raw).sucesso = true := by
  have hpr := parse_obj_case htrip hjson
  rw [mkCampos_of_keys hr hs hp ha] at hpr
  simp only [] at hpr
  refine ⟨hpr, ?_⟩
  rw [hpr]
  simp [Analise.sucesso, pyTruthy, hrne]

/-- Raw input refuting the unconditional form of C2: a valid JSON object
with all four keys whose `resumo` value is the empty string. -/
def c2bad : List Char :=
  "\x7b\"resumo\": \"\", \"situacao\": \"NORMAL\", \"prazo\": null, \"proxima_acao\": null\x7d".data

/-- C2 counterexample: `c2bad` is a syntactically valid JSON object with
all four keys present, yet the constructed record has `sucesso = false`
(the empty `resumo` is falsy), against the claim's `sucesso = true`. -/
theorem C2_counterexample_empty_resumo :
    jsonLoads (pstrip c2bad) =
      some (Json.obj [("resumo".data, Json.str []),
                      ("situacao".data, Json.str "NORMAL".data),
                      ("prazo".data, Json.null),
                      ("proxima_acao".data, Json.null)]) ∧
    (parse c2bad).sucesso = false := ⟨rfl, rfl⟩

/-- Raw input witnessing C2's amended theorem. -/
def c2good : List Char :=
  "\x7b\"resumo\": \"ok\", \"situacao\": \"urgente\", \"prazo\": null, \"proxima_acao\": null\x7d".data

/-- Witness for C2: the amended theorem applied at `c2good`. -/
theorem C2_valid_json_populates_witness :
    parse c2good = ⟨c2good, Json.str "ok".data, Json.str "URGENTE".data,
                    Json.null, Json.null, none, none⟩ ∧
      (parse c2good).sucesso = true :=
  C2_valid_json_populates c2good
    [("resumo".data, Json.str "ok".data),
     ("situacao".data, Json.str "urgente".data),
     ("prazo".data, Json.null),
     ("proxima_acao".data, Json.null)]
    "ok".data "urgente".data Json.null Json.null
    rfl rfl rfl (by decide) rfl rfl rfl

theorem removeTriples_cons2_ne {d : Char} (a : Char) (t : List Char) (h : d ≠ '`') :
    removeTriples (a :: d :: t) = a :: removeTriples (d :: t) := by
  cases t with
  | nil => rfl
  | cons e ts =>
      simp only [removeTriples]
      rw [if_neg (by simp [h])]

theorem removeTriples_cons3_ne {d : Char} (a b : Char) (t : List Char) (h : d ≠ '`') :
    removeTriples (a :: b :: d :: t) = a :: removeTriples (b :: d :: t) := by
  simp only [removeTriples]
  rw [if_neg (by simp [h])]

theorem removeTriples_cons_ne {c : Char} (t : List Char) (h : c ≠ '`') :
    removeTriples (c :: t) = c :: removeTriples t := by
  cases t with
  | nil => rfl
  | cons d t2 =>
      cases t2 with
      | nil => rfl
      | cons e ts =>
          simp only [removeTriples]
          rw [if_neg (by simp [h])]

theorem removeTriples_append_split : ∀ (x y : List Char),
    (∀ d ds, y = d :: ds → d ≠ '`') →
    removeTriples (x ++ y) = removeTriples x ++ removeTriples y := by
  intro x
  induction x using removeTriples.induct with
  | case1 => intro y hy; rfl
  | case2 c =>
      intro y hy
      cases y with
      | nil => rfl
      | cons d ys =>
          have hd : d ≠ '`' := hy d ys rfl
          show removeTriples (c :: d :: ys) = removeTriples [c] ++ removeTriples (d :: ys)
          rw [removeTriples_cons2_ne c ys hd]
          rfl
  | case3 c1 c2 =>
      intro y hy
      cases y with
      | nil => rfl
      | cons d ys =>
          have hd : d ≠ '`' := hy d ys rfl
          show removeTriples (c1 :: c2 :: d :: ys) =
            removeTriples [c1, c2] ++ removeTriples (d :: ys)
          rw [removeTriples_cons3_ne c1 c2 ys hd, removeTriples_cons2_ne c2 ys hd]
          rfl
  | case4 c1 c2 c3 rest htri ih =>
      intro y hy
      show removeTriples (c1 :: c2 :: c3 :: (rest ++ y)) =
        removeTriples (c1 :: c2 :: c3 :: rest) ++ removeTriples y
      simp only [removeTriples]
      rw [if_pos htri, if_pos htri]
      exact ih y hy
  | case5 c1 c2 c3 rest htri ih =>
      intro y hy
      show removeTriples (c1 :: c2 :: c3 :: (rest ++ y)) =
        removeTriples (c1 :: c2 :: c3 :: rest) ++ removeTriples y
      simp only [removeTriples]
      rw [if_neg htri, if_neg htri]
      rw [List.cons_append]
      congr 1
      exact ih y hy

theorem hasTriple_no_tick : ∀ {l : List Char}, (∀ c ∈ l, c ≠ '`') → hasTriple l = false := by
  intro l
  induction l with
  | nil => intro _; rfl
  | cons c cs ih =>
      intro h
      have hc : c ≠ '`' := h c (by simp)
      unfold hasTriple containsSub
      refine Bool.or_eq_false_iff.mpr ⟨?_, ih (fun x hx => h x (by simp [hx]))⟩
      show lstarts ['`', '`', '`'] (c :: cs) = false
      simp only [lstarts]
      simp [Ne.symm hc]

theorem removeTriples_ws {l : List Char} (h : ∀ c ∈ l, isPySpace c = true) :
    removeTriples l = l := by
  apply removeTriples_fix
  apply hasTriple_no_tick
  intro c hc he
  have := h c hc
  rw [he] at this
  simp [isPySpace] at this

theorem removeTriples_obj (mid : List Char) :
    removeTriples ('{' :: (mid ++ ['}'])) = '{' :: (removeTriples mid ++ ['}']) := by
  rw [removeTriples_cons_ne _ (by decide)]
  rw [removeTriples_append_split mid ['}'] (by intro d ds h; cases h; decide)]
  rfl

theorem dropWhile_append_stop {p : Char → Bool} {x : List Char} (y : List Char)
    {c : Char} {cs : List Char} (hx : x.dropWhile p = c :: cs) :
    (x ++ y).dropWhile p = x.dropWhile p ++ y := by
  conv_lhs => rw [← List.takeWhile_append_dropWhile (p := p) (l := x), List.append_assoc]
  rw [dropWhile_append_all (fun d hd => mem_takeWhile_pred hd)]
  rw [hx]
  simp only [List.cons_append, List.dropWhile_cons]
  rw [if_neg (by simp [dropWhile_head_false x hx])]

theorem objShape_pstrip {A : List Char} (m : List Char) (hA : A = '{' :: (m ++ ['}'])) :
    pstrip A = A := by
  have hrev : A.reverse = '}' :: (m.reverse ++ ['{']) := by rw [hA]; simp
  exact pstrip_eq_self
    (by intro c cs h; rw [hA] at h; cases h; decide)
    (by intro d ds h; rw [hrev] at h; cases h; decide)

theorem objShape_fds {A : List Char} (m : List Char) (hA : A = '{' :: (m ++ ['}'])) :
    pstrip (fenceDropEnd (fenceDrop3 (fenceDrop7 A))) = A := by
  have hrev : A.reverse = '}' :: (m.reverse ++ ['{']) := by rw [hA]; simp
  have h7 : ¬ lstarts "```json".data A = true := by rw [hA]; simp [lstarts]
  have h3 : ¬ lstarts ['`', '`', '`'] A = true := by rw [hA]; simp [lstarts]
  have hend : ¬ lends ['`', '`', '`'] A = true := by unfold lends; rw [hrev]; simp [lstarts]
  unfold fenceDrop7 fenceDrop3 fenceDropEnd
  rw [if_neg h7, if_neg h3, if_neg hend]
  exact objShape_pstrip m hA

theorem clean_obj {raw : List Char} {kvs : List (List Char × Json)}
    (h : jsonLoads (pstrip raw) = some (Json.obj kvs)) :
    ∃ m, pstrip raw = '{' :: (m ++ ['}']) ∧
      clean raw = '{' :: (removeTriples m ++ ['}']) := by
  obtain ⟨mid, hshape, -⟩ := jsonLoads_pstrip_obj h
  refine ⟨mid, hshape, ?_⟩
  have hrf : resubFence (pstrip raw) = pstrip raw := by
    unfold resubFence
    rw [if_neg (by rw [hshape]; simp [lstarts])]
  have hrt : removeTriples (pstrip raw) = '{' :: (removeTriples mid ++ ['}']) := by
    rw [hshape]; exact removeTriples_obj mid
  unfold clean
  rw [hrf, pstrip_idem, hrt, objShape_pstrip _ rfl]
  exact objShape_fds _ rfl

theorem clean_wrapFence {raw : List Char} {kvs : List (List Char × Json)}
    (h : jsonLoads (pstrip raw) = some (Json.obj kvs)) :
    clean (wrapFence raw) = clean raw := by
  obtain ⟨mid, hshape, hclean⟩ := clean_obj h
  obtain ⟨a, b, ha, hb, hdecomp⟩ := pstrip_decomp raw
  have hlws : raw.dropWhile isPySpace = pstrip raw ++ b := by
    conv_lhs => rw [hdecomp, List.append_assoc]
    rw [dropWhile_append_all ha]
    apply dropWhile_eq_self_of_head
    intro c cs hc
    rw [hshape] at hc
    simp only [List.cons_append] at hc
    cases hc
    decide
  have hlws2 : raw.dropWhile isPySpace = '{' :: ((mid ++ ['}']) ++ b) := by
    rw [hlws, hshape]; simp
  have hW : wrapFence raw =
      '`' :: '`' :: '`' :: 'j' :: 's' :: 'o' :: 'n' :: '\n' :: (raw ++ "\n```".data) := rfl
  have hw1 : pstrip (wrapFence raw) = wrapFence raw := by
    have hwrev : (wrapFence raw).reverse =
        '`' :: ('`' :: '`' :: '\n' :: (raw.reverse ++ "\nnosj```".data)) := by
      unfold wrapFence
      rw [List.reverse_append, List.reverse_append]
      rfl
    exact pstrip_eq_self
      (by intro c cs hc; rw [hW] at hc; cases hc; decide)
      (by intro d ds hd; rw [hwrev] at hd; cases hd; decide)
  have hrsf : resubFence (wrapFence raw) = '\n' :: (raw ++ "\n```".data) := by
    rw [hW]
    unfold resubFence
    rw [if_pos (by rfl), if_pos (by rfl)]
    rfl
  have hpw : pstrip ('\n' :: (raw ++ "\n```".data)) = (pstrip raw ++ b) ++ "\n```".data := by
    have hxr : ∀ (c : Char) (cs : List Char),
        ((pstrip raw ++ b) ++ "\n```".data).reverse = c :: cs → isPySpace c = false := by
      intro c cs hc
      rw [List.reverse_append] at hc
      rw [show ("\n```".data).reverse = '`' :: '`' :: '`' :: ['\n'] from rfl] at hc
      simp only [List.cons_append] at hc
      cases hc
      decide
    show dropTrailWhile isPySpace
        (List.dropWhile isPySpace ('\n' :: (raw ++ "\n```".data))) =
      (pstrip raw ++ b) ++ "\n```".data
    rw [List.dropWhile_cons]
    rw [if_pos (by decide)]
    rw [dropWhile_append_stop _ hlws2, hlws]
    unfold dropTrailWhile
    rw [dropWhile_eq_self_of_head hxr]
    simp
  have hbhead : ∀ (d : Char) (ds : List Char),
      b ++ "\n```".data = d :: ds → d ≠ '`' := by
    intro d ds hd
    cases b with
    | nil =>
        simp only [List.nil_append] at hd
        have hd2 : '\n' :: ['`', '`', '`'] = d :: ds := hd
        cases hd2
        decide
    | cons e es =>
        simp only [List.cons_append] at hd
        injection hd with h1 h2
        subst h1
        have hws := hb e (by simp)
        intro he
        rw [he] at hws
        exact absurd hws (by decide)
  have hnl : ∀ (d : Char) (ds : List Char), "\n```".data = d :: ds → d ≠ '`' := by
    intro d ds hd
    have hd2 : '\n' :: ['`', '`', '`'] = d :: ds := hd
    cases hd2
    decide
  have hrt2 : removeTriples ((pstrip raw ++ b) ++ "\n```".data) =
      ('{' :: (removeTriples mid ++ ['}'])) ++ (b ++ ['\n']) := by
    rw [List.append_assoc]
    rw [removeTriples_append_split (pstrip raw) (b ++ "\n```".data) hbhead]
    rw [hshape, removeTriples_obj]
    refine congrArg (fun z => ('{' :: (removeTriples mid ++ ['}'])) ++ z) ?_
    rw [removeTriples_append_split b "\n```".data hnl]
    rw [removeTriples_ws hb]
    rfl
  have hps2 : pstrip (('{' :: (removeTriples mid ++ ['}'])) ++ (b ++ ['\n'])) =
      '{' :: (removeTriples mid ++ ['}']) := by
    have hXrev : ('{' :: (removeTriples mid ++ ['}'])).reverse =
        '}' :: ((removeTriples mid).reverse ++ ['{']) := by simp
    have hallY : ∀ c ∈ (b ++ ['\n']).reverse, isPySpace c = true := by
      intro c hc
      rw [List.mem_reverse] at hc
      rcases List.mem_append.mp hc with h1 | h1
      · exact hb c h1
      · simp at h1; subst h1; decide
    show dropTrailWhile isPySpace
        (List.dropWhile isPySpace
          (('{' :: (removeTriples mid ++ ['}'])) ++ (b ++ ['\n']))) =
      '{' :: (removeTriples mid ++ ['}'])
    rw [dropWhile_eq_self_of_head (by
      intro c cs hc
      simp only [List.cons_append] at hc
      cases hc
      decide)]
    unfold dropTrailWhile
    rw [List.reverse_append]
    rw [dropWhile_append_all hallY]
    rw [dropWhile_eq_self_of_head (by
      intro c cs hc
      rw [hXrev] at hc
      cases hc
      decide)]
    simp
  rw [hclean]
  show pstrip (fenceDropEnd (fenceDrop3 (fenceDrop7
      (pstrip (removeTriples (pstrip (resubFence (pstrip (wrapFence raw))))))))) =
    '{' :: (removeTriples mid ++ ['}'])
  rw [hw1, hrsf, hpw, hrt2, hps2]
  exact objShape_fds _ rfl

/-- Raw input witnessing C8. -/
def c8raw : List Char := "\x7b\"resumo\": \"ok\", \"situacao\": \"normal\"\x7d".data

/-- C4: the result record always exists (the cascade is a total function of
the raw text, termination being structural), and on every path where an
exception reaches the outer handler — the modelled `erro` field is set —
the record carries the generic failure summary `"Erro na analise"`.  On all
other paths `erro` is absent: no exception escapes `_parse`. -/
theorem C4_exceptions_converted (raw : List Char) :
    (parse raw).erro = none ∨
      ((parse raw).erro = some "excecao".data ∧
       (parse raw).resumo = Json.str "Erro na analise".data) := by
  unfold parse parseFrom
  cases hex : extrairJson (clean raw) with
  | some js =>
      simp only []
      cases hjl : jsonLoads js with
      | none =>
          simp only []
          cases hrep : repararJson (clean raw) with
          | none => left; rfl
          | some rep =>
              simp only []
              cases hjl2 : jsonLoads rep with
              | none => left; rfl
              | some v =>
                  cases v with
                  | obj kvs =>
                      simp only []
                      cases hmk : mkCampos kvs with
                      | none => left; rfl
                      | some q => obtain ⟨r, s, p, a⟩ := q; left; rfl
                  | null => left; rfl
                  | bool b => left; rfl
                  | num lex => left; rfl
                  | str s => left; rfl
                  | arr es => left; rfl
      | some v =>
          cases v with
          | obj kvs =>
              simp only []
              cases hmk : mkCampos kvs with
              | none => right; exact ⟨rfl, rfl⟩
              | some q => obtain ⟨r, s, p, a⟩ := q; left; rfl
          | null => right; exact ⟨rfl, rfl⟩
          | bool b => right; exact ⟨rfl, rfl⟩
          | num lex => right; exact ⟨rfl, rfl⟩
          | str s => right; exact ⟨rfl, rfl⟩
          | arr es => right; exact ⟨rfl, rfl⟩
  | none =>
      simp only []
      cases hcm : extrairCampos (clean raw) with
      | none => left; rfl
      | some campos =>
          simp only []
          cases hmk : mkCampos campos with
          | none => right; exact ⟨rfl, rfl⟩
          | some q => obtain ⟨r, s, p, a⟩ := q; left; rfl

/-- C1 (amended): when the locator finds a span inside the cleaned text but
decoding it fails, and the single repair attempt also fails to yield a
decodable span, `_parse` does NOT run the plain-text field extractor: the
`json.JSONDecodeError` handler ends by truncating the raw input to 200
characters with the `"JSON invalido"` warning.  The plain-text tier runs
only when no span is found at all. -/
theorem C1_decode_failure_truncates (raw js : List Char)
    (hex : extrairJson (clean raw) = some js)
    (hjl : jsonLoads js = none)
    (hrep : repararJson (clean raw) = none ∨
      ∃ rep, repararJson (clean raw) = some rep ∧ jsonLoads rep = none) :
    parse raw = decodeFallback raw := by
  unfold parse parseFrom
  rw [hex]
  simp only []
  rw [hjl]
  simp only []
  rcases hrep with h | ⟨rep, h1, h2⟩
  · rw [h]
  · rw [h1]
    simp only []
    rw [h2]

/-- Input refuting C1's original form: a labeled `Resumo:` line followed by
a located but undecodable brace span. -/
def c1raw : List Char := "Resumo: oi\n\x7bx\x7d".data

/-- C1 counterexample: on `c1raw` the locator finds the span `\x7bx\x7d`, its
decoding fails, repair re-finds the same undecodable span — and although
the text carries a labeled `Resumo: oi` line that the plain-text extractor
would capture, the result instead truncates the whole raw text: `resumo`
is the entire input, not `"oi"`, with the `"JSON invalido"` warning. -/
theorem C1_counterexample :
    extrairJson (clean c1raw) = some "\x7bx\x7d".data ∧
    jsonLoads "\x7bx\x7d".data = none ∧
    searchField (labelPlain "resumo".data) (clean c1raw) = some "oi".data ∧
    (parse c1raw).resumo = Json.str c1raw ∧
    (parse c1raw).aviso = some "JSON invalido".data :=
  ⟨rfl, rfl, rfl, rfl, rfl⟩

/-- Witness for C1: the amended theorem applied at `c1raw`. -/
theorem C1_decode_failure_truncates_witness :
    parse c1raw = decodeFallback c1raw :=
  C1_decode_failure_truncates c1raw "\x7bx\x7d".data rfl rfl
    (Or.inr ⟨"\x7bx\x7d".data, rfl, rfl⟩)

/-- Smart-quoted object (U+201C/U+201D), the inputs `_reparar_json` is
specified to normalize. -/
def c5smart : List Char := '{' :: ("“resumo”: “ok”".data ++ ['}'])

/-- The same object with literal `?` bytes — the pattern the source's
`replace` calls actually carry. -/
def c5ascii : List Char := '{' :: ("?resumo?: ?ok?".data ++ ['}'])

/-- C5 (code bug): the four `replace` patterns of `_reparar_json` are all
the literal byte `?` (the smart-quote glyphs were lost in encoding), so a
smart-quoted object passes through the repairer unchanged and still fails
to decode — `_parse` ends in the truncation fallback — while an object
whose quotes are literal `?` characters is "repaired" into valid JSON and
parsed successfully. -/
theorem C5_smart_quote_bug :
    repStep4 (repStep3 (repStep2 (repStep1 c5smart))) = c5smart ∧
    parse c5smart = decodeFallback c5smart ∧
    parse c5ascii = ⟨c5ascii, Json.str "ok".data, Json.str "NORMAL".data,
                     Json.null, Json.null, none, none⟩ :=
  ⟨rfl, rfl, rfl⟩

/-- Plain-text input whose `Situacao:` line carries the `null` sentinel. -/
def c6raw : List Char := "Resumo: algo\nSituacao: null".data

/-- C6 (code bug): the sentinel turns the extracted `situacao` into Python
`None`, but `_parse` then calls `campos.get("situacao", "NORMAL").upper()`
— the key is present with value `None`, so the default does not apply and
`.upper()` raises `AttributeError`.  The outer handler turns this into the
hard failure record (`erro` set, `sucesso` false) instead of the
success-with-default-`NORMAL` the spec promises. -/
theorem C6_sentinel_situacao_raises :
    extrairCampos (clean c6raw) =
      some [("resumo".data, Json.str "algo".data), ("situacao".data, Json.null)] ∧
    parse c6raw = excRecord c6raw ∧
    (parse c6raw).sucesso = false :=
  ⟨rfl, rfl, rfl⟩

/-- The spec's trailing-comma example. -/
def c7raw : List Char := '{' :: ("\"resumo\": \"ok\", \"situacao\": \"NORMAL\",".data ++ ['}'])

/-- C7: the trailing-comma object fails to decode directly, the repairer
drops the comma before the closing brace, and the retry succeeds with
`resumo = "ok"`, `situacao = "NORMAL"` and neither `aviso` nor `erro`
set. -/
theorem C7_trailing_comma_repaired :
    jsonLoads c7raw = none ∧
    repararJson (clean c7raw) =
      some ('{' :: ("\"resumo\": \"ok\", \"situacao\": \"NORMAL\"".data ++ ['}'])) ∧
    parse c7raw = ⟨c7raw, Json.str "ok".data, Json.str "NORMAL".data,
                   Json.null, Json.null, none, none⟩ ∧
    (parse c7raw).sucesso = true :=
  ⟨rfl, rfl, rfl, rfl⟩

theorem hasTriple_removeTriples : ∀ (l : List Char), hasTriple (removeTriples l) = false := by
  intro l
  induction l using removeTriples.induct with
  | case1 => rfl
  | case2 c => simp [removeTriples, hasTriple, containsSub, lstarts]
  | case3 c1 c2 => simp [removeTriples, hasTriple, containsSub, lstarts]
  | case4 c1 c2 c3 rest htri ih =>
      simp only [removeTriples]
      rw [if_pos htri]
      exact ih
  | case5 c1 c2 c3 rest htri ih =>
      simp only [removeTriples]
      rw [if_neg htri]
      show containsSub ['`', '`', '`'] (c1 :: removeTriples (c2 :: c3 :: rest)) = false
      rw [show containsSub ['`', '`', '`'] (c1 :: removeTriples (c2 :: c3 :: rest)) =
            (lstarts ['`', '`', '`'] (c1 :: removeTriples (c2 :: c3 :: rest)) ||
             containsSub ['`', '`', '`'] (removeTriples (c2 :: c3 :: rest))) from rfl]
      rw [show containsSub ['`', '`', '`'] (removeTriples (c2 :: c3 :: rest)) =
            hasTriple (removeTriples (c2 :: c3 :: rest)) from rfl]
      rw [ih, Bool.or_false]
      by_cases hc1 : c1 = '`'
      · by_cases hc2 : c2 = '`'
        · have hc3 : c3 ≠ '`' := by
            intro hc3
            exact htri (by simp [hc1, hc2, hc3])
          rw [removeTriples_cons2_ne c2 rest hc3]
          rw [removeTriples_cons_ne rest hc3]
          simp [lstarts, Ne.symm hc3]
        · rw [removeTriples_cons_ne (c3 :: rest) hc2]
          simp [lstarts, Ne.symm hc2]
      · simp [lstarts, Ne.symm hc1]

/-- Valid JSON whose `resumo` string value carries a ``` run. -/
def c10raw : List Char :=
  '{' :: ("\"resumo\": \"a```b\", \"situacao\": \"x\"".data ++ ['}'])

/-- C10: the `texto.replace("```", "")` step deletes every ``` run anywhere
in the text — after stripping, no occurrence remains, wherever it stood —
and on a valid JSON input whose `resumo` value contains such a run the
parsed summary is the value with the run deleted (`"ab"`), not the
original JSON value (`"a```b"`). -/
theorem C10_backtick_runs_deleted :
    (∀ l, hasTriple (removeTriples l) = false) ∧
    jsonLoads (pstrip c10raw) =
      some (Json.obj [("resumo".data, Json.str "a```b".data),
                      ("situacao".data, Json.str "x".data)]) ∧
    (parse c10raw).resumo = Json.str "ab".data ∧
    (parse c10raw).resumo ≠ Json.str "a```b".data :=
  ⟨hasTriple_removeTriples, rfl, rfl, by
    intro hcontra
    rw [show (parse c10raw).resumo = Json.str "ab".data from rfl] at hcontra
    exact absurd (Json.str.inj hcontra) (by decide)⟩

theorem idxOfSub_lower_findCI : ∀ (l p : List Char), p.map Char.toLower = p →
    idxOfSub p (l.map Char.toLower) = findCI p l := by
  intro l
  induction l with
  | nil =>
      intro p hp
      show idxOfSub p [] = findCI p []
      unfold idxOfSub findCI
      rw [show lstartsCI p [] = lstarts p [] from by unfold lstartsCI; rw [hp]; rfl]
  | cons c cs ih =>
      intro p hp
      have hcond : lstarts p (Char.toLower c :: List.map Char.toLower cs) =
          lstartsCI p (c :: cs) := by
        unfold lstartsCI
        rw [hp]
        rfl
      show (if lstarts p (Char.toLower c :: List.map Char.toLower cs) then some 0
            else (idxOfSub p (List.map Char.toLower cs)).map (· + 1)) =
        (if lstartsCI p (c :: cs) then some 0 else (findCI p cs).map (· + 1))
      rw [hcond, ih p hp]

theorem truncOne_eq_spec (p t : List Char) (hp : p.map Char.toLower = p) :
    truncOne p t = truncSpecStep p t := by
  unfold truncOne truncSpecStep
  rw [idxOfSub_lower_findCI t p hp]

theorem truncAt_eq_firstOf (t : List Char) :
    truncAtChaves t = truncFirstOf ["situacao".data, "prazo".data,
      "proxima_acao".data, "proxima acao".data] t := by
  have h1 := truncOne_eq_spec "situacao".data t (by decide)
  have h2 := truncOne_eq_spec "prazo".data t (by decide)
  have h3 := truncOne_eq_spec "proxima_acao".data t (by decide)
  have h4 := truncOne_eq_spec "proxima acao".data t (by decide)
  unfold truncAtChaves
  simp only [truncFirstOf]
  rw [h1, h2, h3, h4]

theorem stripPipeline_eq_amend (t : List Char) : stripPipeline t = limparAmendSpec t := by
  show finishTrim (truncAtChaves (remResumoKeys
      (remCloseEnd (t.dropWhile (fun c => c = '{' || isPySpace c))).length
      (remCloseEnd (t.dropWhile (fun c => c = '{' || isPySpace c))))) =
    finishTrim (truncFirstOf ["situacao".data, "prazo".data,
        "proxima_acao".data, "proxima acao".data]
      (remResumoKeys
        (remCloseEnd (t.dropWhile (fun c => c = '{' || isPySpace c))).length
        (remCloseEnd (t.dropWhile (fun c => c = '{' || isPySpace c)))))
  exact congrArg finishTrim (truncAt_eq_firstOf _)

/-- C9 (amended): for a non-empty summary that carries wrapper syntax (it
starts with a brace or mentions `resumo`) and does not decode as JSON, the
cleanup collaborator strips the leading brace/whitespace run, the trailing
brace, and the `resumo` key tokens, then truncates at the first sibling
word found in the FIXED PRIORITY ORDER `situacao`, `prazo`,
`proxima_acao`, `proxima acao` — each checked case-insensitively at a
positive index — and finally strips whitespace and quote characters.  The
original claim's earliest-occurrence truncation is refuted by the
counterexample. -/
theorem C9_fixed_priority_truncation (s : List Char)
    (hne : s.isEmpty = false)
    (hwrap : (lstarts ['{'] (pstrip s) ||
      containsSub "resumo".data ((pstrip s).map Char.toLower)) = true)
    (hjson : jsonLoads (pstrip s) = none) :
    limpar s = limparAmendSpec (pstrip s) := by
  unfold limpar
  rw [if_neg (by rw [hne]; exact Bool.false_ne_true)]
  rw [if_pos hwrap, hjson]
  exact stripPipeline_eq_amend (pstrip s)

/-- Summary input on which `prazo` occurs before `situacao`. -/
def c9raw : List Char := '{' :: "\"resumo\": \"a prazo b situacao c\"".data

/-- C9 counterexample: on `c9raw` (wrapper syntax present, not decodable
as JSON) the code truncates at `situacao` — the first chave in the fixed
loop order — keeping the earlier `prazo` text, while the claim's
earliest-occurrence rule would cut at `prazo`: the outputs differ. -/
theorem C9_counterexample :
    jsonLoads (pstrip c9raw) = none ∧
    limpar c9raw = "a prazo b".data ∧
    limparClaimSpec (pstrip c9raw) = "a".data ∧
    limpar c9raw ≠ limparClaimSpec (pstrip c9raw) :=
  ⟨rfl, rfl, rfl, by
    intro h
    rw [show limpar c9raw = "a prazo b".data from rfl,
        show limparClaimSpec (pstrip c9raw) = "a".data from rfl] at h
    exact absurd h (by decide)⟩

/-- Plain-text summary witnessing C9's amended theorem. -/
def c9plain : List Char := "resumo: oi, situacao: depois".data

/-- Witness for C9: the amended theorem applied at `c9plain`. -/
theorem C9_fixed_priority_truncation_witness :
    limpar c9plain = limparAmendSpec (pstrip c9plain) :=
  C9_fixed_priority_truncation c9plain rfl rfl rfl

theorem jsonWs_ne_tick {c : Char} (h : jsonWsChar c = true) : c ≠ '`' := by
  simp only [jsonWsChar, Bool.or_eq_true, decide_eq_true_eq] at h
  rcases h with ((h | h) | h) | h <;> subst h <;> decide

theorem sep_facts {d : Char} (h : sepChar d = true) :
    d ≠ '`' ∧ d.isDigit = false ∧ d ≠ '.' ∧ d ≠ 'e' ∧ d ≠ 'E' := by
  simp only [sepChar, Bool.or_eq_true, decide_eq_true_eq] at h
  rcases h with (((hw | h) | h) | h) | h
  · refine ⟨jsonWs_ne_tick hw, ?_, ?_, ?_, ?_⟩ <;>
      (simp only [jsonWsChar, Bool.or_eq_true, decide_eq_true_eq] at hw;
       rcases hw with ((hw | hw) | hw) | hw <;> subst hw <;> decide)
  · subst h; exact ⟨by decide, by decide, by decide, by decide, by decide⟩
  · subst h; exact ⟨by decide, by decide, by decide, by decide, by decide⟩
  · subst h; exact ⟨by decide, by decide, by decide, by decide, by decide⟩
  · subst h; exact ⟨by decide, by decide, by decide, by decide, by decide⟩

theorem sepHead_ne_tick {r : List Char} (h : sepHead r) :
    ∀ d ds, r = d :: ds → d ≠ '`' :=
  fun d ds hr => (sep_facts (h d ds hr)).1

theorem removeTriples_no_tick_append {x : List Char} (y : List Char)
    (h : ∀ c ∈ x, c ≠ '`') :
    removeTriples (x ++ y) = x ++ removeTriples y := by
  induction x with
  | nil => rfl
  | cons c cs ih =>
      rw [List.cons_append, removeTriples_cons_ne _ (h c (by simp)),
          ih (fun d hd => h d (by simp [hd]))]
      rfl

theorem removeTriples_id_no_tick {x : List Char} (h : ∀ c ∈ x, c ≠ '`') :
    removeTriples x = x :=
  removeTriples_fix x (hasTriple_no_tick h)

theorem skipWs_rt (r : List Char) (h : ∀ d ds, skipWs r = d :: ds → d ≠ '`') :
    skipWs (removeTriples r) = removeTriples (skipWs r) := by
  have hsplit : r = r.takeWhile jsonWsChar ++ skipWs r :=
    (List.takeWhile_append_dropWhile _ _).symm
  have htw : ∀ c ∈ r.takeWhile jsonWsChar, c ≠ '`' :=
    fun c hc => jsonWs_ne_tick (mem_takeWhile_pred hc)
  conv_lhs => rw [hsplit]
  rw [removeTriples_no_tick_append _ htw]
  rw [show skipWs (r.takeWhile jsonWsChar ++ removeTriples (skipWs r)) =
        (r.takeWhile jsonWsChar ++ removeTriples (skipWs r)).dropWhile jsonWsChar from rfl]
  rw [dropWhile_append_all (fun c hc => mem_takeWhile_pred hc)]
  cases hs : skipWs r with
  | nil => rfl
  | cons d ds =>
      rw [removeTriples_cons_ne _ (h d ds hs)]
      rw [List.dropWhile_cons, if_neg (by
        have := dropWhile_head_false r hs
        simp [this])]

theorem skipWs_rt_cons {r r₂ : List Char} {c : Char} (hc : c ≠ '`')
    (h : skipWs r = c :: r₂) :
    skipWs (removeTriples r) = c :: removeTriples r₂ := by
  rw [skipWs_rt r (by intro d ds hd; rw [h] at hd; cases hd; exact hc), h,
      removeTriples_cons_ne _ hc]

theorem sepHead_of_skipWs {r : List Char} {c : Char} {x : List Char}
    (h : skipWs r = c :: x) (hc : sepChar c = true) : sepHead r := by
  intro d ds hr
  subst hr
  unfold skipWs at h
  rw [List.dropWhile_cons] at h
  by_cases hd : jsonWsChar d = true
  · simp [sepChar, hd]
  · rw [if_neg (by simpa using hd)] at h
    obtain ⟨h1, -⟩ := List.cons.injEq .. ▸ h
    rw [h1]
    exact hc

theorem sepHead_of_skipWs_nil {r : List Char} (h : skipWs r = []) : sepHead r := by
  intro d ds hr
  subst hr
  unfold skipWs at h
  rw [List.dropWhile_cons] at h
  by_cases hd : jsonWsChar d = true
  · simp [sepChar, hd]
  · rw [if_neg (by simpa using hd)] at h
    simp at h

theorem digit_ne_tick {c : Char} (h : c.isDigit = true) : c ≠ '`' := by
  intro hc
  subst hc
  exact absurd h (by decide)

theorem takeWhile_append_all {p : Char → Bool} {x : List Char} (y : List Char)
    (h : ∀ c ∈ x, p c = true) : (x ++ y).takeWhile p = x ++ y.takeWhile p := by
  induction x with
  | nil => rfl
  | cons c cs ih =>
      rw [List.cons_append, List.takeWhile_cons, if_pos (h c (by simp)),
          ih (fun d hd => h d (by simp [hd]))]
      rfl

theorem takeWhile_nil_of_head {p : Char → Bool} {y : List Char}
    (h : ∀ d ds, y = d :: ds → p d = false) : y.takeWhile p = [] := by
  cases y with
  | nil => rfl
  | cons d ds => rw [List.takeWhile_cons, if_neg (by simp [h d ds rfl])]

theorem spanDigits_of {x : List Char} (y : List Char)
    (hx : ∀ c ∈ x, c.isDigit = true)
    (hy : ∀ d ds, y = d :: ds → d.isDigit = false) :
    spanDigits (x ++ y) = (x, y) := by
  unfold spanDigits
  rw [takeWhile_append_all y hx, takeWhile_nil_of_head hy, List.append_nil]
  rw [dropWhile_append_all hx, dropWhile_eq_self_of_head hy]

theorem numInt_inv {l ip r : List Char} (h : numInt l = some (ip, r)) :
    (ip = ['0'] ∧ l = '0' :: r) ∨
    (∃ c ds, c.isDigit = true ∧ c ≠ '0' ∧ (∀ x ∈ ds, x.isDigit = true) ∧
      ip = c :: ds ∧ l = c :: (ds ++ r) ∧
      (∀ d ds', r = d :: ds' → d.isDigit = false)) := by
  cases l with
  | nil => simp [numInt] at h
  | cons c t =>
      simp only [numInt] at h
      by_cases hc : c = '0'
      · subst hc
        rw [if_pos rfl] at h
        obtain ⟨h1, h2⟩ := Prod.mk.injEq .. ▸ Option.some.inj h
        subst h1 h2
        exact Or.inl ⟨rfl, rfl⟩
      · rw [if_neg hc] at h
        by_cases hd : c.isDigit
        · rw [if_pos hd] at h
          obtain ⟨h1, h2⟩ := Prod.mk.injEq .. ▸ Option.some.inj h
          subst h1 h2
          refine Or.inr ⟨c, (spanDigits t).1, hd, hc, spanDigits_fst t, rfl, ?_, ?_⟩
          · rw [show (spanDigits t).1 ++ (spanDigits t).2 = t from (spanDigits_split t).symm]
          · intro d ds' hr
            exact dropWhile_head_false t hr
        · rw [if_neg hd] at h
          exact absurd h (by simp)

theorem numInt_build0 (z : List Char) : numInt ('0' :: z) = some (['0'], z) := by
  simp [numInt]

theorem numInt_buildD {c : Char} {ds : List Char} (z : List Char)
    (hc : c.isDigit = true) (h0 : c ≠ '0') (hds : ∀ x ∈ ds, x.isDigit = true)
    (hz : ∀ d ds', z = d :: ds' → d.isDigit = false) :
    numInt (c :: (ds ++ z)) = some (c :: ds, z) := by
  simp only [numInt]
  rw [if_neg h0, if_pos hc, spanDigits_of z hds hz]

theorem numFrac_inv {l f r : List Char} (h : numFrac l = (f, r)) :
    (f = [] ∧ r = l) ∨
    (∃ ds, (∀ x ∈ ds, x.isDigit = true) ∧ ds ≠ [] ∧ f = '.' :: ds ∧
      l = '.' :: (ds ++ r) ∧ (∀ d ds', r = d :: ds' → d.isDigit = false)) := by
  cases l with
  | nil =>
      simp only [numFrac] at h
      obtain ⟨h1, h2⟩ := Prod.mk.injEq .. ▸ h
      exact Or.inl ⟨h1.symm, h2.symm⟩
  | cons c t =>
      simp only [numFrac] at h
      by_cases hc : c = '.'
      · subst hc
        rw [if_pos rfl] at h
        by_cases hnil : (spanDigits t).1 = []
        · rw [if_pos hnil] at h
          obtain ⟨h1, h2⟩ := Prod.mk.injEq .. ▸ h
          exact Or.inl ⟨h1.symm, h2.symm⟩
        · rw [if_neg hnil] at h
          obtain ⟨h1, h2⟩ := Prod.mk.injEq .. ▸ h
          subst h1 h2
          refine Or.inr ⟨(spanDigits t).1, spanDigits_fst t, hnil, rfl, ?_, ?_⟩
          · rw [show (spanDigits t).1 ++ (spanDigits t).2 = t from (spanDigits_split t).symm]
          · intro d ds' hr
            exact dropWhile_head_false t hr
      · rw [if_neg hc] at h
        obtain ⟨h1, h2⟩ := Prod.mk.injEq .. ▸ h
        exact Or.inl ⟨h1.symm, h2.symm⟩

theorem numFrac_build_nil {z : List Char}
    (h : ∀ d ds, z = d :: ds → d ≠ '.') : numFrac z = ([], z) := by
  cases z with
  | nil => rfl
  | cons c t =>
      simp only [numFrac]
      rw [if_neg (h c t rfl)]

theorem numFrac_buildD {ds : List Char} (z : List Char)
    (hds : ∀ x ∈ ds, x.isDigit = true) (hne : ds ≠ [])
    (hz : ∀ d ds', z = d :: ds' → d.isDigit = false) :
    numFrac ('.' :: (ds ++ z)) = ('.' :: ds, z) := by
  simp only [numFrac]
  rw [if_pos trivial, spanDigits_of z hds hz]
  rw [if_neg (show ¬((ds, z).1 = []) from hne)]

theorem numExp_inv {l ex r : List Char} (h : numExp l = (ex, r)) :
    (ex = [] ∧ r = l) ∨
    (∃ e ds, (e = 'e' ∨ e = 'E') ∧ (∀ x ∈ ds, x.isDigit = true) ∧ ds ≠ [] ∧
      (∀ d ds', r = d :: ds' → d.isDigit = false) ∧
      ((ex = e :: '+' :: ds ∧ l = e :: '+' :: (ds ++ r)) ∨
       (ex = e :: '-' :: ds ∧ l = e :: '-' :: (ds ++ r)) ∨
       (ex = e :: ds ∧ l = e :: (ds ++ r)))) := by
  match l with
  | [] =>
      simp only [numExp] at h
      obtain ⟨h1, h2⟩ := Prod.mk.injEq .. ▸ h
      exact Or.inl ⟨h1.symm, h2.symm⟩
  | [e] =>
      simp only [numExp] at h
      obtain ⟨h1, h2⟩ := Prod.mk.injEq .. ▸ h
      exact Or.inl ⟨h1.symm, h2.symm⟩
  | e :: c2 :: r2 =>
      simp only [numExp] at h
      by_cases he : e = 'e' ∨ e = 'E'
      · rw [if_pos (by simpa using he)] at h
        by_cases hp : c2 = '+'
        · subst hp
          rw [if_pos rfl] at h
          by_cases hnil : (spanDigits r2).1 = []
          · rw [if_pos hnil] at h
            obtain ⟨h1, h2⟩ := Prod.mk.injEq .. ▸ h
            exact Or.inl ⟨h1.symm, h2.symm⟩
          · rw [if_neg hnil] at h
            obtain ⟨h1, h2⟩ := Prod.mk.injEq .. ▸ h
            subst h1 h2
            refine Or.inr ⟨e, (spanDigits r2).1, he, spanDigits_fst r2, hnil,
              (fun d ds' hr => dropWhile_head_false r2 hr), Or.inl ⟨rfl, ?_⟩⟩
            rw [show (spanDigits r2).1 ++ (spanDigits r2).2 = r2 from (spanDigits_split r2).symm]
        · rw [if_neg hp] at h
          by_cases hm : c2 = '-'
          · subst hm
            rw [if_pos rfl] at h
            by_cases hnil : (spanDigits r2).1 = []
            · rw [if_pos hnil] at h
              obtain ⟨h1, h2⟩ := Prod.mk.injEq .. ▸ h
              exact Or.inl ⟨h1.symm, h2.symm⟩
            · rw [if_neg hnil] at h
              obtain ⟨h1, h2⟩ := Prod.mk.injEq .. ▸ h
              subst h1 h2
              refine Or.inr ⟨e, (spanDigits r2).1, he, spanDigits_fst r2, hnil,
                (fun d ds' hr => dropWhile_head_false r2 hr), Or.inr (Or.inl ⟨rfl, ?_⟩)⟩
              rw [show (spanDigits r2).1 ++ (spanDigits r2).2 = r2 from (spanDigits_split r2).symm]
          · rw [if_neg hm] at h
            by_cases hnil : (spanDigits (c2 :: r2)).1 = []
            · rw [if_pos hnil] at h
              obtain ⟨h1, h2⟩ := Prod.mk.injEq .. ▸ h
              exact Or.inl ⟨h1.symm, h2.symm⟩
            · rw [if_neg hnil] at h
              obtain ⟨h1, h2⟩ := Prod.mk.injEq .. ▸ h
              subst h1 h2
              refine Or.inr ⟨e, (spanDigits (c2 :: r2)).1, he, spanDigits_fst _, hnil,
                (fun d ds' hr => dropWhile_head_false (c2 :: r2) hr),
                Or.inr (Or.inr ⟨rfl, ?_⟩)⟩
              rw [show (spanDigits (c2 :: r2)).1 ++ (spanDigits (c2 :: r2)).2 = c2 :: r2 from
                    (spanDigits_split _).symm]
      · rw [if_neg (by simpa using he)] at h
        obtain ⟨h1, h2⟩ := Prod.mk.injEq .. ▸ h
        exact Or.inl ⟨h1.symm, h2.symm⟩

theorem numExp_build_nil {z : List Char}
    (h : ∀ d ds, z = d :: ds → d ≠ 'e' ∧ d ≠ 'E') : numExp z = ([], z) := by
  match z with
  | [] => rfl
  | [e] => rfl
  | e :: c2 :: r2 =>
      simp only [numExp]
      rw [if_neg (by
        obtain ⟨h1, h2⟩ := h e (c2 :: r2) rfl
        simp [h1, h2])]

theorem numExp_buildP {e : Char} {ds : List Char} (z : List Char)
    (he : e = 'e' ∨ e = 'E') (hds : ∀ x ∈ ds, x.isDigit = true) (hne : ds ≠ [])
    (hz : ∀ d ds', z = d :: ds' → d.isDigit = false) :
    numExp (e :: '+' :: (ds ++ z)) = (e :: '+' :: ds, z) := by
  simp only [numExp]
  rw [spanDigits_of z hds hz]
  rw [if_pos (by rcases he with he | he <;> simp [he])]
  simp [hne]

theorem numExp_buildM {e : Char} {ds : List Char} (z : List Char)
    (he : e = 'e' ∨ e = 'E') (hds : ∀ x ∈ ds, x.isDigit = true) (hne : ds ≠ [])
    (hz : ∀ d ds', z = d :: ds' → d.isDigit = false) :
    numExp (e :: '-' :: (ds ++ z)) = (e :: '-' :: ds, z) := by
  simp only [numExp]
  rw [spanDigits_of z hds hz]
  rw [if_pos (by rcases he with he | he <;> simp [he])]
  simp [hne]

theorem numExp_buildD {e : Char} {ds : List Char} (z : List Char)
    (he : e = 'e' ∨ e = 'E') (hds : ∀ x ∈ ds, x.isDigit = true) (hne : ds ≠ [])
    (hz : ∀ d ds', z = d :: ds' → d.isDigit = false) :
    numExp (e :: (ds ++ z)) = (e :: ds, z) := by
  match ds, hne with
  | d0 :: ds', _ =>
      have hd0 : d0.isDigit = true := hds d0 (by simp)
      have hp : ¬ d0 = '+' := by intro hp; rw [hp] at hd0; exact absurd hd0 (by decide)
      have hm : ¬ d0 = '-' := by intro hm; rw [hm] at hd0; exact absurd hd0 (by decide)
      show numExp (e :: d0 :: (ds' ++ z)) = (e :: d0 :: ds', z)
      simp only [numExp]
      rw [show d0 :: (ds' ++ z) = (d0 :: ds') ++ z from rfl]
      rw [spanDigits_of z (fun x hx => hds x hx) hz]
      rw [if_pos (by rcases he with he | he <;> simp [he])]
      rw [if_neg hp, if_neg hm]
      simp

theorem parseNum_build_neg {X ip Y f Z ex W : List Char}
    (hni : numInt X = some (ip, Y)) (hf : numFrac Y = (f, Z)) (hx : numExp Z = (ex, W)) :
    parseNum ('-' :: X) = some ('-' :: (ip ++ f ++ ex), W) := by
  simp only [parseNum]
  rw [hni]
  simp only []
  rw [hf]
  simp only []
  rw [hx]
  simp

theorem parseNum_build_pos {c : Char} {X ip Y f Z ex W : List Char}
    (hc : ¬ c = '-') (hni : numInt (c :: X) = some (ip, Y)) (hf : numFrac Y = (f, Z))
    (hx : numExp Z = (ex, W)) :
    parseNum (c :: X) = some (ip ++ f ++ ex, W) := by
  simp only [parseNum]
  rw [if_neg hc, hni]
  simp only []
  rw [hf]
  simp only []
  rw [hx]

theorem exr_head {ex r' : List Char}
    (hx : ex = [] ∨ ∃ e ds, (e = 'e' ∨ e = 'E') ∧ (∀ x ∈ ds, x.isDigit = true) ∧ ds ≠ [] ∧
      (ex = e :: '+' :: ds ∨ ex = e :: '-' :: ds ∨ ex = e :: ds))
    (hr' : ∀ d ds, r' = d :: ds → d.isDigit = false ∧ d ≠ '.' ∧ d ≠ 'e' ∧ d ≠ 'E') :
    ∀ d ds, ex ++ r' = d :: ds → d.isDigit = false ∧ d ≠ '.' := by
  intro d ds hd
  rcases hx with hx | ⟨e, es, he, -, -, hex⟩
  · subst hx
    simp only [List.nil_append] at hd
    obtain ⟨h1, h2, -, -⟩ := hr' d ds hd
    exact ⟨h1, h2⟩
  · have hhead : ex ++ r' = e :: ((ex.tail) ++ r') := by
      rcases hex with hex | hex | hex <;> subst hex <;> rfl
    rw [hhead] at hd
    obtain ⟨h1, -⟩ := List.cons.injEq .. ▸ hd
    rw [← h1]
    rcases he with he | he <;> subst he <;> exact ⟨by decide, by decide⟩

theorem fex_head {f ex r' : List Char}
    (hf : f = [] ∨ ∃ ds, (∀ x ∈ ds, x.isDigit = true) ∧ ds ≠ [] ∧ f = '.' :: ds)
    (hx : ex = [] ∨ ∃ e ds, (e = 'e' ∨ e = 'E') ∧ (∀ x ∈ ds, x.isDigit = true) ∧ ds ≠ [] ∧
      (ex = e :: '+' :: ds ∨ ex = e :: '-' :: ds ∨ ex = e :: ds))
    (hr' : ∀ d ds, r' = d :: ds → d.isDigit = false ∧ d ≠ '.' ∧ d ≠ 'e' ∧ d ≠ 'E') :
    ∀ d ds, f ++ (ex ++ r') = d :: ds → d.isDigit = false := by
  intro d ds hd
  rcases hf with hf | ⟨fs, -, -, hfe⟩
  · subst hf
    simp only [List.nil_append] at hd
    exact (exr_head hx hr' d ds hd).1
  · subst hfe
    simp only [List.cons_append] at hd
    obtain ⟨h1, -⟩ := List.cons.injEq .. ▸ hd
    rw [← h1]
    decide

theorem numParts_replay {ip f ex : List Char} (r' : List Char)
    (hip : ip = ['0'] ∨ ∃ c ds, c.isDigit = true ∧ c ≠ '0' ∧
      (∀ x ∈ ds, x.isDigit = true) ∧ ip = c :: ds)
    (hf : f = [] ∨ ∃ ds, (∀ x ∈ ds, x.isDigit = true) ∧ ds ≠ [] ∧ f = '.' :: ds)
    (hx : ex = [] ∨ ∃ e ds, (e = 'e' ∨ e = 'E') ∧ (∀ x ∈ ds, x.isDigit = true) ∧ ds ≠ [] ∧
      (ex = e :: '+' :: ds ∨ ex = e :: '-' :: ds ∨ ex = e :: ds))
    (hr' : ∀ d ds, r' = d :: ds → d.isDigit = false ∧ d ≠ '.' ∧ d ≠ 'e' ∧ d ≠ 'E') :
    numInt (ip ++ (f ++ (ex ++ r'))) = some (ip, f ++ (ex ++ r')) ∧
    numFrac (f ++ (ex ++ r')) = (f, ex ++ r') ∧
    numExp (ex ++ r') = (ex, r') := by
  have hfexh := fex_head hf hx hr'
  have hexrh := exr_head hx hr'
  refine ⟨?_, ?_, ?_⟩
  · rcases hip with hip | ⟨c, ds, hc, h0, hds, hipe⟩
    · subst hip
      exact numInt_build0 _
    · subst hipe
      rw [show (c :: ds) ++ (f ++ (ex ++ r')) = c :: (ds ++ (f ++ (ex ++ r'))) from rfl]
      exact numInt_buildD _ hc h0 hds hfexh
  · rcases hf with hf | ⟨ds, hds, hne, hfe⟩
    · subst hf
      exact numFrac_build_nil (fun d ds hd => (hexrh d ds hd).2)
    · subst hfe
      rw [show ('.' :: ds) ++ (ex ++ r') = '.' :: (ds ++ (ex ++ r')) from rfl]
      exact numFrac_buildD _ hds hne (fun d ds' hd => (hexrh d ds' hd).1)
  · rcases hx with hx | ⟨e, ds, he, hds, hne, hexe⟩
    · subst hx
      exact numExp_build_nil (fun d ds hd => ⟨(hr' d ds hd).2.2.1, (hr' d ds hd).2.2.2⟩)
    · have hrd : ∀ d ds', r' = d :: ds' → d.isDigit = false :=
        fun d ds' hd => (hr' d ds' hd).1
      rcases hexe with hexe | hexe | hexe <;> subst hexe
      · rw [show (e :: '+' :: ds) ++ r' = e :: '+' :: (ds ++ r') from rfl]
        exact numExp_buildP _ he hds hne hrd
      · rw [show (e :: '-' :: ds) ++ r' = e :: '-' :: (ds ++ r') from rfl]
        exact numExp_buildM _ he hds hne hrd
      · rw [show (e :: ds) ++ r' = e :: (ds ++ r') from rfl]
        exact numExp_buildD _ he hds hne hrd

theorem parseNum_replay {l lex r : List Char} (h : parseNum l = some (lex, r))
    (r' : List Char)
    (hr' : ∀ d ds, r' = d :: ds → d.isDigit = false ∧ d ≠ '.' ∧ d ≠ 'e' ∧ d ≠ 'E') :
    parseNum (lex ++ r') = some (lex, r') := by
  cases l with
  | nil => simp [parseNum] at h
  | cons c t =>
      simp only [parseNum] at h
      by_cases hc : c = '-'
      · subst hc
        rw [if_pos rfl] at h
        cases hni : numInt t with
        | none => rw [hni] at h; simp at h
        | some p =>
            obtain ⟨ip, r1⟩ := p
            rw [hni] at h
            obtain ⟨h1, h2⟩ := Prod.mk.injEq .. ▸ Option.some.inj h
            have hip : ip = ['0'] ∨ ∃ c0 ds, c0.isDigit = true ∧ c0 ≠ '0' ∧
                (∀ x ∈ ds, x.isDigit = true) ∧ ip = c0 :: ds := by
              rcases numInt_inv hni with ⟨ha, -⟩ | ⟨c0, ds, a, b, d, e, -, -⟩
              · exact Or.inl ha
              · exact Or.inr ⟨c0, ds, a, b, d, e⟩
            have hfp : (numFrac r1).1 = [] ∨ ∃ ds, (∀ x ∈ ds, x.isDigit = true) ∧ ds ≠ [] ∧
                (numFrac r1).1 = '.' :: ds := by
              rcases numFrac_inv (l := r1) rfl with ⟨ha, -⟩ | ⟨ds, a, b, cq, -, -⟩
              · exact Or.inl ha
              · exact Or.inr ⟨ds, a, b, cq⟩
            have hxp : (numExp (numFrac r1).2).1 = [] ∨ ∃ e ds, (e = 'e' ∨ e = 'E') ∧
                (∀ x ∈ ds, x.isDigit = true) ∧ ds ≠ [] ∧
                ((numExp (numFrac r1).2).1 = e :: '+' :: ds ∨
                 (numExp (numFrac r1).2).1 = e :: '-' :: ds ∨
                 (numExp (numFrac r1).2).1 = e :: ds) := by
              rcases numExp_inv (l := (numFrac r1).2) rfl with ⟨ha, -⟩ |
                ⟨e, ds, a, b, cq, -, hforms⟩
              · exact Or.inl ha
              · refine Or.inr ⟨e, ds, a, b, cq, ?_⟩
                rcases hforms with ⟨hf1, -⟩ | ⟨hf1, -⟩ | ⟨hf1, -⟩
                · exact Or.inl hf1
                · exact Or.inr (Or.inl hf1)
                · exact Or.inr (Or.inr hf1)
            obtain ⟨hbi, hbf, hbx⟩ := numParts_replay r' hip hfp hxp hr'
            subst h2
            rw [← h1]
            rw [show ('-' :: (ip ++ (numFrac r1).1 ++ (numExp (numFrac r1).2).1)) ++ r' =
                  '-' :: (ip ++ ((numFrac r1).1 ++ ((numExp (numFrac r1).2).1 ++ r')))
                  from by simp]
            rw [parseNum_build_neg hbi hbf hbx]
      · rw [if_neg hc] at h
        cases hni : numInt (c :: t) with
        | none => rw [hni] at h; simp at h
        | some p =>
            obtain ⟨ip, r1⟩ := p
            rw [hni] at h
            obtain ⟨h1, h2⟩ := Prod.mk.injEq .. ▸ Option.some.inj h
            have hfp : (numFrac r1).1 = [] ∨ ∃ ds, (∀ x ∈ ds, x.isDigit = true) ∧ ds ≠ [] ∧
                (numFrac r1).1 = '.' :: ds := by
              rcases numFrac_inv (l := r1) rfl with ⟨ha, -⟩ | ⟨ds, a, b, cq, -, -⟩
              · exact Or.inl ha
              · exact Or.inr ⟨ds, a, b, cq⟩
            have hxp : (numExp (numFrac r1).2).1 = [] ∨ ∃ e ds, (e = 'e' ∨ e = 'E') ∧
                (∀ x ∈ ds, x.isDigit = true) ∧ ds ≠ [] ∧
                ((numExp (numFrac r1).2).1 = e :: '+' :: ds ∨
                 (numExp (numFrac r1).2).1 = e :: '-' :: ds ∨
                 (numExp (numFrac r1).2).1 = e :: ds) := by
              rcases numExp_inv (l := (numFrac r1).2) rfl with ⟨ha, -⟩ |
                ⟨e, ds, a, b, cq, -, hforms⟩
              · exact Or.inl ha
              · refine Or.inr ⟨e, ds, a, b, cq, ?_⟩
                rcases hforms with ⟨hf1, -⟩ | ⟨hf1, -⟩ | ⟨hf1, -⟩
                · exact Or.inl hf1
                · exact Or.inr (Or.inl hf1)
                · exact Or.inr (Or.inr hf1)
            subst h2
            rw [← h1]
            rcases numInt_inv hni with ⟨hip0, hl0⟩ | ⟨c0, ds, ha, hb, hds, hipe, hle, -⟩
            · have hip : ip = ['0'] ∨ ∃ c0 ds, c0.isDigit = true ∧ c0 ≠ '0' ∧
                  (∀ x ∈ ds, x.isDigit = true) ∧ ip = c0 :: ds := Or.inl hip0
              obtain ⟨hbi, hbf, hbx⟩ := numParts_replay r' hip hfp hxp hr'
              have hc0 : c = '0' := by
                obtain ⟨hcc, -⟩ := List.cons.injEq .. ▸ hl0
                exact hcc
              subst hc0
              subst hip0
              rw [show (['0'] ++ (numFrac r1).1 ++ (numExp (numFrac r1).2).1) ++ r' =
                    '0' :: (((numFrac r1).1 ++ ((numExp (numFrac r1).2).1 ++ r')))
                    from by simp]
              rw [parseNum_build_pos hc
                    (by
                      rw [show ('0' : Char) ::
                            ((numFrac r1).1 ++ ((numExp (numFrac r1).2).1 ++ r')) =
                          ['0'] ++ ((numFrac r1).1 ++ ((numExp (numFrac r1).2).1 ++ r'))
                          from rfl]
                      exact hbi)
                    hbf hbx]
            · have hip : ip = ['0'] ∨ ∃ c0 ds, c0.isDigit = true ∧ c0 ≠ '0' ∧
                  (∀ x ∈ ds, x.isDigit = true) ∧ ip = c0 :: ds :=
                Or.inr ⟨c0, ds, ha, hb, hds, hipe⟩
              obtain ⟨hbi, hbf, hbx⟩ := numParts_replay r' hip hfp hxp hr'
              have hc0 : c = c0 := by
                obtain ⟨hcc, -⟩ := List.cons.injEq .. ▸ hle
                exact hcc
              subst hc0
              subst hipe
              rw [show ((c :: ds) ++ (numFrac r1).1 ++ (numExp (numFrac r1).2).1) ++ r' =
                    c :: (ds ++ ((numFrac r1).1 ++ ((numExp (numFrac r1).2).1 ++ r')))
                    from by simp]
              rw [parseNum_build_pos hc
                    (by
                      rw [show c :: (ds ++ ((numFrac r1).1 ++ ((numExp (numFrac r1).2).1 ++ r'))) =
                          (c :: ds) ++ ((numFrac r1).1 ++ ((numExp (numFrac r1).2).1 ++ r'))
                          from rfl]
                      exact hbi)
                    hbf hbx]

theorem parseNum_ne_tick {l lex r : List Char} (h : parseNum l = some (lex, r)) :
    ∀ x ∈ lex, x ≠ '`' := by
  cases l with
  | nil => simp [parseNum] at h
  | cons c t =>
      simp only [parseNum] at h
      by_cases hc : c = '-'
      · subst hc
        rw [if_pos rfl] at h
        cases hni : numInt t with
        | none => rw [hni] at h; simp at h
        | some p =>
            obtain ⟨ip, r1⟩ := p
            rw [hni] at h
            obtain ⟨h1, h2⟩ := Prod.mk.injEq .. ▸ Option.some.inj h
            rw [← h1]
            intro x hx
            rcases List.mem_cons.mp hx with hx | hx
            · subst hx; decide
            · rcases List.mem_append.mp hx with hx | hx
              · rcases List.mem_append.mp hx with hx | hx
                · exact digit_ne_tick ((numInt_shape hni).2 x hx)
                · rcases (numFrac_shape r1).2 x hx with hh | hh
                  · subst hh; decide
                  · exact digit_ne_tick hh
              · rcases (numExp_shape (numFrac r1).2).2 x hx with hh | hh | hh | hh | hh
                · subst hh; decide
                · subst hh; decide
                · subst hh; decide
                · subst hh; decide
                · exact digit_ne_tick hh
      · rw [if_neg hc] at h
        cases hni : numInt (c :: t) with
        | none => rw [hni] at h; simp at h
        | some p =>
            obtain ⟨ip, r1⟩ := p
            rw [hni] at h
            obtain ⟨h1, h2⟩ := Prod.mk.injEq .. ▸ Option.some.inj h
            rw [← h1]
            intro x hx
            rcases List.mem_append.mp hx with hx | hx
            · rcases List.mem_append.mp hx with hx | hx
              · exact digit_ne_tick ((numInt_shape hni).2 x hx)
              · rcases (numFrac_shape r1).2 x hx with hh | hh
                · subst hh; decide
                · exact digit_ne_tick hh
            · rcases (numExp_shape (numFrac r1).2).2 x hx with hh | hh | hh | hh | hh
              · subst hh; decide
              · subst hh; decide
              · subst hh; decide
              · subst hh; decide
              · exact digit_ne_tick hh

theorem hexD_ne_tick {c : Char} (h : isHexD c = true) : c ≠ '`' := by
  intro hc
  subst hc
  exact absurd h (by decide)

theorem escMap_ne_tick {e d : Char} (h : escMap e = some d) : e ≠ '`' := by
  intro he
  subst he
  simp [escMap] at h

theorem psb_tick (X : List Char) :
    parseStrBody ('`' :: X) = (parseStrBody X).map (fun p => ('`' :: p.1, p.2)) := by
  rw [parseStrBody.eq_def]
  simp only []
  rw [if_neg (by decide), if_neg (by decide), if_neg (by decide)]

theorem psb_plain {c : Char} (X : List Char) (h1 : ¬ c = '"') (h2 : ¬ c = '\\')
    (h3 : ¬ c.toNat < 32) :
    parseStrBody (c :: X) = (parseStrBody X).map (fun p => (c :: p.1, p.2)) := by
  rw [parseStrBody.eq_def]
  simp only []
  rw [if_neg h1, if_neg h2, if_neg h3]

theorem rt_tick_cons {t : List Char} (h : ∀ t₃, t ≠ '`' :: '`' :: t₃) :
    removeTriples ('`' :: t) = '`' :: removeTriples t := by
  match t with
  | [] => rfl
  | [d] => rfl
  | d :: e :: ts =>
      by_cases hd : d = '`'
      · subst hd
        by_cases he : e = '`'
        · subst he
          exact absurd rfl (h ts)
        · exact removeTriples_cons3_ne '`' '`' ts he
      · exact removeTriples_cons2_ne '`' (e :: ts) hd

theorem psb_quote (X : List Char) : parseStrBody ('"' :: X) = some ([], X) := by
  rw [parseStrBody.eq_def]
  simp only []
  simp

theorem psb_esc_u {a1 a2 a3 a4 : Char} (X : List Char)
    (hhex : (isHexD a1 && isHexD a2 && isHexD a3 && isHexD a4) = true) :
    parseStrBody ('\\' :: 'u' :: a1 :: a2 :: a3 :: a4 :: X) =
      (parseStrBody X).map (fun p => (Char.ofNat (hex4 a1 a2 a3 a4) :: p.1, p.2)) := by
  rw [parseStrBody.eq_def]
  simp only []
  simp [hhex]

theorem psb_esc {e d : Char} (X : List Char) (hu : ¬ e = 'u') (hm : escMap e = some d) :
    parseStrBody ('\\' :: e :: X) = (parseStrBody X).map (fun p => (d :: p.1, p.2)) := by
  rw [parseStrBody.eq_def]
  simp only []
  simp [hu, hm]

theorem parseStrBody_rt : ∀ (n : Nat) (l : List Char), l.length ≤ n → ∀ (s r : List Char),
    parseStrBody l = some (s, r) → (∀ d ds, r = d :: ds → d ≠ '`') →
    ∃ s', parseStrBody (removeTriples l) = some (s', removeTriples r) := by
  intro n
  induction n with
  | zero =>
      intro l hl s r h hr
      have hnil : l = [] := List.length_eq_zero.mp (Nat.le_zero.mp hl)
      subst hnil
      simp [parseStrBody] at h
  | succ n ih =>
      intro l hl s r h hr
      cases l with
      | nil => simp [parseStrBody] at h
      | cons c t =>
          have hlt : t.length ≤ n := by simp at hl; omega
          by_cases h1 : c = '"'
          · subst h1
            rw [psb_quote] at h
            obtain ⟨hs, hrr⟩ := Prod.mk.injEq .. ▸ Option.some.inj h
            subst hrr
            refine ⟨[], ?_⟩
            rw [removeTriples_cons_ne _ (by decide), psb_quote]
          · by_cases h2 : c = '\\'
            · subst h2
              cases t with
              | nil =>
                  rw [parseStrBody.eq_def] at h
                  simp at h
              | cons e r2 =>
                  by_cases hu : e = 'u'
                  · subst hu
                    cases r2 with
                    | nil => rw [parseStrBody.eq_def] at h; simp at h
                    | cons a1 q1 =>
                    cases q1 with
                    | nil => rw [parseStrBody.eq_def] at h; simp at h
                    | cons a2 q2 =>
                    cases q2 with
                    | nil => rw [parseStrBody.eq_def] at h; simp at h
                    | cons a3 q3 =>
                    cases q3 with
                    | nil => rw [parseStrBody.eq_def] at h; simp at h
                    | cons a4 r3 =>
                    by_cases hhex : (isHexD a1 && isHexD a2 && isHexD a3 && isHexD a4) = true
                    · rw [psb_esc_u _ hhex] at h
                      obtain ⟨⟨s3, r3'⟩, hpsb, heq⟩ := Option.map_eq_some'.mp h
                      simp only [] at heq
                      obtain ⟨hseq, hreq⟩ := Prod.mk.injEq .. ▸ heq
                      subst hreq
                      obtain ⟨s3', hout⟩ := ih r3 (by simp at hl; omega) s3 r3' hpsb hr
                      obtain ⟨hx1, hx2, hx3, hx4⟩ : isHexD a1 = true ∧ isHexD a2 = true ∧
                          isHexD a3 = true ∧ isHexD a4 = true := by
                        simpa [Bool.and_eq_true, and_assoc] using hhex
                      refine ⟨Char.ofNat (hex4 a1 a2 a3 a4) :: s3', ?_⟩
                      rw [removeTriples_cons_ne _ (by decide),
                          removeTriples_cons_ne _ (by decide),
                          removeTriples_cons_ne _ (hexD_ne_tick hx1),
                          removeTriples_cons_ne _ (hexD_ne_tick hx2),
                          removeTriples_cons_ne _ (hexD_ne_tick hx3),
                          removeTriples_cons_ne _ (hexD_ne_tick hx4),
                          psb_esc_u _ hhex, hout]
                      rfl
                    · rw [parseStrBody.eq_def] at h
                      simp [hhex] at h
                  · cases hesc : escMap e with
                    | none =>
                        rw [parseStrBody.eq_def] at h
                        simp [hu, hesc] at h
                    | some d =>
                        rw [psb_esc _ hu hesc] at h
                        obtain ⟨⟨s1, r1⟩, hpsb, heq⟩ := Option.map_eq_some'.mp h
                        simp only [] at heq
                        obtain ⟨hseq, hreq⟩ := Prod.mk.injEq .. ▸ heq
                        subst hreq
                        obtain ⟨s1', hout⟩ := ih r2 (by simp at hl; omega) s1 r1 hpsb hr
                        refine ⟨d :: s1', ?_⟩
                        rw [removeTriples_cons_ne _ (by decide),
                            removeTriples_cons_ne _ (escMap_ne_tick hesc),
                            psb_esc _ hu hesc, hout]
                        rfl
            · by_cases h3 : c.toNat < 32
              · rw [parseStrBody.eq_def] at h
                simp [h1, h2, h3] at h
              · rw [psb_plain _ h1 h2 h3] at h
                obtain ⟨⟨s1, r1⟩, hpsb, heq⟩ := Option.map_eq_some'.mp h
                simp only [] at heq
                obtain ⟨hseq, hreq⟩ := Prod.mk.injEq .. ▸ heq
                subst hreq
                by_cases hct : c = '`'
                · subst hct
                  cases t with
                  | nil => simp [parseStrBody] at hpsb
                  | cons d ts =>
                      by_cases hd : d = '`'
                      · subst hd
                        cases ts with
                        | nil =>
                            rw [psb_tick] at hpsb
                            simp [parseStrBody] at hpsb
                        | cons e2 ts2 =>
                            by_cases he2 : e2 = '`'
                            · subst he2
                              rw [psb_tick] at hpsb
                              obtain ⟨⟨s2, r2⟩, hpsb2, heq2⟩ := Option.map_eq_some'.mp hpsb
                              simp only [] at heq2
                              obtain ⟨-, hreq2⟩ := Prod.mk.injEq .. ▸ heq2
                              rw [psb_tick] at hpsb2
                              obtain ⟨⟨s3, r3⟩, hpsb3, heq3⟩ := Option.map_eq_some'.mp hpsb2
                              simp only [] at heq3
                              obtain ⟨-, hreq3⟩ := Prod.mk.injEq .. ▸ heq3
                              subst hreq3
                              subst hreq2
                              obtain ⟨s3', hout⟩ := ih ts2 (by simp at hl; omega) s3 r3 hpsb3 hr
                              refine ⟨s3', ?_⟩
                              rw [show removeTriples ('`' :: '`' :: '`' :: ts2) =
                                    removeTriples ts2 from by simp [removeTriples]]
                              exact hout
                            · have hnt : ∀ t₃, ('`' :: e2 :: ts2 : List Char) ≠ '`' :: '`' :: t₃ := by
                                intro t₃ hq
                                obtain ⟨-, hq2⟩ := List.cons.injEq .. ▸ hq
                                obtain ⟨hq3, -⟩ := List.cons.injEq .. ▸ hq2
                                exact he2 hq3
                              obtain ⟨s1', hout⟩ :=
                                ih ('`' :: e2 :: ts2) hlt s1 r1 hpsb hr
                              refine ⟨'`' :: s1', ?_⟩
                              rw [rt_tick_cons hnt, psb_tick, hout]
                              rfl
                      · have hnt : ∀ t₃, (d :: ts : List Char) ≠ '`' :: '`' :: t₃ := by
                          intro t₃ hq
                          obtain ⟨hq1, -⟩ := List.cons.injEq .. ▸ hq
                          exact hd hq1
                        obtain ⟨s1', hout⟩ := ih (d :: ts) hlt s1 r1 hpsb hr
                        refine ⟨'`' :: s1', ?_⟩
                        rw [rt_tick_cons hnt, psb_tick, hout]
                        rfl
                · obtain ⟨s1', hout⟩ := ih t hlt s1 r1 hpsb hr
                  refine ⟨c :: s1', ?_⟩
                  rw [removeTriples_cons_ne _ hct, psb_plain _ h1 h2 h3, hout]
                  rfl

theorem parseStr_inv {l s r : List Char} (h : parseStr l = some (s, r)) :
    ∃ t, l = '"' :: t ∧ parseStrBody t = some (s, r) := by
  rw [parseStr.eq_def] at h
  split at h
  · rename_i t
    exact ⟨t, rfl, h⟩
  · simp at h

theorem parseStr_rt {l s r : List Char} (h : parseStr l = some (s, r))
    (hr : ∀ d ds, r = d :: ds → d ≠ '`') :
    ∃ s', parseStr (removeTriples l) = some (s', removeTriples r) := by
  obtain ⟨t, hl, hb⟩ := parseStr_inv h
  subst hl
  obtain ⟨s', hout⟩ := parseStrBody_rt t.length t le_rfl s r hb hr
  refine ⟨s', ?_⟩
  rw [removeTriples_cons_ne _ (by decide)]
  exact hout

theorem pv_obj_empty (g : Nat) {r₀ r₂ : List Char} (h : skipWs r₀ = '}' :: r₂) :
    parseV (g + 1) PMode.val ('{' :: r₀) = some (Json.obj [], r₂) := by
  rw [parseV.eq_def]
  simp only []
  simp [h]

theorem pv_obj_mems (g : Nat) {r₀ x : List Char} (hq : skipWs r₀ = '"' :: x)
    {v : Json} {r : List Char} (hm : parseV g PMode.mems (skipWs r₀) = some (v, r)) :
    parseV (g + 1) PMode.val ('{' :: r₀) = some (v, r) := by
  rw [parseV.eq_def]
  simp only []
  rw [hq] at hm
  simp [hq, hm]

theorem pv_arr_empty (g : Nat) {r₀ r₂ : List Char} (h : skipWs r₀ = ']' :: r₂) :
    parseV (g + 1) PMode.val ('[' :: r₀) = some (Json.arr [], r₂) := by
  rw [parseV.eq_def]
  simp only []
  simp [h]

theorem pv_arr_elems (g : Nat) {r₀ : List Char}
    (hne : ∀ r₂, skipWs r₀ ≠ ']' :: r₂)
    {v : Json} {r : List Char} (he : parseV g PMode.elems (skipWs r₀) = some (v, r)) :
    parseV (g + 1) PMode.val ('[' :: r₀) = some (v, r) := by
  rw [parseV.eq_def]
  simp only []
  rw [if_neg (by decide)]
  simp only [if_true]
  cases hs : skipWs r₀ with
  | nil =>
      rw [hs] at he
      simp [he]
  | cons d ds =>
      rw [hs] at he
      have hd : d ≠ ']' := by
        intro hq
        subst hq
        exact hne ds hs
      simp [he, hd]

theorem pv_str (g : Nat) {t s r : List Char} (h : parseStrBody t = some (s, r)) :
    parseV (g + 1) PMode.val ('"' :: t) = some (Json.str s, r) := by
  rw [parseV.eq_def]
  simp only []
  rw [if_neg (by decide), if_neg (by decide)]
  simp only [if_true]
  rw [show parseStr ('"' :: t) = parseStrBody t from rfl, h]
  rfl

theorem pv_true (g : Nat) {r₀ : List Char} (h : lstarts ['r', 'u', 'e'] r₀ = true) :
    parseV (g + 1) PMode.val ('t' :: r₀) = some (Json.bool true, r₀.drop 3) := by
  rw [parseV.eq_def]
  simp only []
  simp [h]

theorem pv_false (g : Nat) {r₀ : List Char} (h : lstarts ['a', 'l', 's', 'e'] r₀ = true) :
    parseV (g + 1) PMode.val ('f' :: r₀) = some (Json.bool false, r₀.drop 4) := by
  rw [parseV.eq_def]
  simp only []
  simp [h]

theorem pv_null (g : Nat) {r₀ : List Char} (h : lstarts ['u', 'l', 'l'] r₀ = true) :
    parseV (g + 1) PMode.val ('n' :: r₀) = some (Json.null, r₀.drop 3) := by
  rw [parseV.eq_def]
  simp only []
  simp [h]

theorem pv_nan (g : Nat) {r₀ : List Char} (h : lstarts ['a', 'N'] r₀ = true) :
    parseV (g + 1) PMode.val ('N' :: r₀) = some (Json.num ['N', 'a', 'N'], r₀.drop 2) := by
  rw [parseV.eq_def]
  simp only []
  simp [h]

theorem pv_inf (g : Nat) {r₀ : List Char}
    (h : lstarts ['n', 'f', 'i', 'n', 'i', 't', 'y'] r₀ = true) :
    parseV (g + 1) PMode.val ('I' :: r₀) = some (Json.num "Infinity".data, r₀.drop 7) := by
  rw [parseV.eq_def]
  simp only []
  simp [h]

theorem pv_num_neg (g : Nat) {r₀ lex r : List Char}
    (h : parseNum ('-' :: r₀) = some (lex, r)) :
    parseV (g + 1) PMode.val ('-' :: r₀) = some (Json.num lex, r) := by
  rw [parseV.eq_def]
  simp only []
  simp [h]

theorem pv_neg_inf (g : Nat) {r₀ : List Char}
    (hn : parseNum ('-' :: r₀) = none)
    (h : lstarts ['I', 'n', 'f', 'i', 'n', 'i', 't', 'y'] r₀ = true) :
    parseV (g + 1) PMode.val ('-' :: r₀) = some (Json.num "-Infinity".data, r₀.drop 8) := by
  rw [parseV.eq_def]
  simp only []
  simp [hn, h]

theorem pv_num (g : Nat) {c : Char} {r₀ lex r : List Char}
    (hd : c.isDigit = true) (h : parseNum (c :: r₀) = some (lex, r)) :
    parseV (g + 1) PMode.val (c :: r₀) = some (Json.num lex, r) := by
  have h1 : ¬ c = '{' := by intro hq; rw [hq] at hd; exact absurd hd (by decide)
  have h2 : ¬ c = '[' := by intro hq; rw [hq] at hd; exact absurd hd (by decide)
  have h3 : ¬ c = '"' := by intro hq; rw [hq] at hd; exact absurd hd (by decide)
  have h4 : ¬ c = 't' := by intro hq; rw [hq] at hd; exact absurd hd (by decide)
  have h5 : ¬ c = 'f' := by intro hq; rw [hq] at hd; exact absurd hd (by decide)
  have h6 : ¬ c = 'n' := by intro hq; rw [hq] at hd; exact absurd hd (by decide)
  have h7 : ¬ c = 'N' := by intro hq; rw [hq] at hd; exact absurd hd (by decide)
  have h8 : ¬ c = 'I' := by intro hq; rw [hq] at hd; exact absurd hd (by decide)
  have h9 : ¬ c = '-' := by intro hq; rw [hq] at hd; exact absurd hd (by decide)
  rw [parseV.eq_def]
  simp only []
  rw [if_neg h1, if_neg h2, if_neg h3, if_neg h4, if_neg h5, if_neg h6, if_neg h7,
      if_neg h8, if_neg h9, if_pos hd, h]
  rfl

theorem pv_mems_last (g : Nat) {l k r₁ r₂ : List Char} {v : Json} {r₃ r₄ : List Char}
    (hk : parseStr l = some (k, r₁)) (hc : skipWs r₁ = ':' :: r₂)
    (hv : parseV g PMode.val (skipWs r₂) = some (v, r₃))
    (he : skipWs r₃ = '}' :: r₄) :
    parseV (g + 1) PMode.mems l = some (Json.obj [(k, v)], r₄) := by
  rw [parseV.eq_def]
  simp only []
  rw [hk]
  simp only []
  rw [hc]
  simp only []
  rw [hv]
  simp only []
  rw [he]
  rfl

theorem pv_mems_cons (g : Nat) {l k r₁ r₂ : List Char} {v : Json} {r₃ r₄ x : List Char}
    {kvs : List (List Char × Json)} {r₅ : List Char}
    (hk : parseStr l = some (k, r₁)) (hc : skipWs r₁ = ':' :: r₂)
    (hv : parseV g PMode.val (skipWs r₂) = some (v, r₃))
    (hcm : skipWs r₃ = ',' :: r₄) (hq : skipWs r₄ = '"' :: x)
    (hm : parseV g PMode.mems (skipWs r₄) = some (Json.obj kvs, r₅)) :
    parseV (g + 1) PMode.mems l = some (Json.obj ((k, v) :: kvs), r₅) := by
  rw [parseV.eq_def]
  simp only []
  rw [hk]
  simp only []
  rw [hc]
  simp only []
  rw [hv]
  simp only []
  rw [hcm]
  simp only []
  rw [hq] at hm
  rw [hq, hm]
  rfl

theorem pv_elems_last (g : Nat) {l : List Char} {v : Json} {r₁ r₂ : List Char}
    (hv : parseV g PMode.val l = some (v, r₁)) (he : skipWs r₁ = ']' :: r₂) :
    parseV (g + 1) PMode.elems l = some (Json.arr [v], r₂) := by
  rw [parseV.eq_def]
  simp only []
  rw [hv]
  simp only []
  rw [he]
  rfl

theorem pv_elems_cons (g : Nat) {l : List Char} {v : Json} {r₁ r₂ : List Char}
    {vs : List Json} {r₃ : List Char}
    (hv : parseV g PMode.val l = some (v, r₁)) (hc : skipWs r₁ = ',' :: r₂)
    (hm : parseV g PMode.elems (skipWs r₂) = some (Json.arr vs, r₃)) :
    parseV (g + 1) PMode.elems l = some (Json.arr (v :: vs), r₃) := by
  rw [parseV.eq_def]
  simp only []
  rw [hv]
  simp only []
  rw [hc]
  simp only []
  rw [hm]

theorem pv_elems_inv {f : Nat} {l : List Char} {v : Json} {r : List Char}
    (h : parseV (f + 1) PMode.elems l = some (v, r)) :
    ∃ v₁ r₁, parseV f PMode.val l = some (v₁, r₁) ∧
      ((∃ r₂, skipWs r₁ = ']' :: r₂ ∧ v = Json.arr [v₁] ∧ r = r₂) ∨
       (∃ r₂ vs, skipWs r₁ = ',' :: r₂ ∧
         parseV f PMode.elems (skipWs r₂) = some (Json.arr vs, r) ∧
         v = Json.arr (v₁ :: vs))) := by
  rw [parseV.eq_def] at h
  simp only [] at h
  cases hv : parseV f PMode.val l with
  | none => rw [hv] at h; simp at h
  | some p =>
      obtain ⟨v₁, r₁⟩ := p
      rw [hv] at h
      simp only [] at h
      refine ⟨v₁, r₁, rfl, ?_⟩
      cases hsw : skipWs r₁ with
      | nil => rw [hsw] at h; simp at h
      | cons d r₂ =>
          rw [hsw] at h
          by_cases hd : d = ','
          · subst hd
            simp only [] at h
            cases hm : parseV f PMode.elems (skipWs r₂) with
            | none => rw [hm] at h; simp at h
            | some q =>
                obtain ⟨w, r₃⟩ := q
                rw [hm] at h
                cases w with
                | arr vs =>
                    obtain ⟨h1, h2⟩ := Prod.mk.injEq .. ▸ Option.some.inj h
                    subst h2
                    exact Or.inr ⟨r₂, vs, rfl, hm, h1.symm⟩
                | null => simp at h
                | bool b => simp at h
                | num lex => simp at h
                | str s => simp at h
                | obj kvs => simp at h
          · by_cases hd2 : d = ']'
            · subst hd2
              simp only [] at h
              obtain ⟨h1, h2⟩ := Prod.mk.injEq .. ▸ Option.some.inj h
              exact Or.inl ⟨r₂, rfl, h1.symm, h2.symm⟩
            · simp [hd, hd2] at h

theorem pv_mems_inv {f : Nat} {l : List Char} {v : Json} {r : List Char}
    (h : parseV (f + 1) PMode.mems l = some (v, r)) :
    ∃ k r₁ r₂ v₁ r₃, parseStr l = some (k, r₁) ∧ skipWs r₁ = ':' :: r₂ ∧
      parseV f PMode.val (skipWs r₂) = some (v₁, r₃) ∧
      ((∃ r₄, skipWs r₃ = '}' :: r₄ ∧ v = Json.obj [(k, v₁)] ∧ r = r₄) ∨
       (∃ r₄ x kvs, skipWs r₃ = ',' :: r₄ ∧ skipWs r₄ = '"' :: x ∧
         parseV f PMode.mems (skipWs r₄) = some (Json.obj kvs, r) ∧
         v = Json.obj ((k, v₁) :: kvs))) := by
  rw [parseV.eq_def] at h
  simp only [] at h
  cases hk : parseStr l with
  | none => rw [hk] at h; simp at h
  | some p =>
      obtain ⟨k, r₁⟩ := p
      rw [hk] at h
      simp only [] at h
      cases hsw : skipWs r₁ with
      | nil => rw [hsw] at h; simp at h
      | cons d r₂ =>
          rw [hsw] at h
          by_cases hd : d = ':'
          · subst hd
            simp only [] at h
            cases hv : parseV f PMode.val (skipWs r₂) with
            | none => rw [hv] at h; simp at h
            | some q =>
                obtain ⟨v₁, r₃⟩ := q
                rw [hv] at h
                simp only [] at h
                refine ⟨k, r₁, r₂, v₁, r₃, rfl, hsw, hv, ?_⟩
                cases hsw3 : skipWs r₃ with
                | nil => rw [hsw3] at h; simp at h
                | cons d2 r₄ =>
                    rw [hsw3] at h
                    by_cases hd2 : d2 = ','
                    · subst hd2
                      simp only [] at h
                      cases hsw4 : skipWs r₄ with
                      | nil => rw [hsw4] at h; simp at h
                      | cons d3 x =>
                          rw [hsw4] at h
                          by_cases hd3 : d3 = '"'
                          · subst hd3
                            simp only [] at h
                            cases hm : parseV f PMode.mems ('"' :: x) with
                            | none => rw [hm] at h; simp at h
                            | some q2 =>
                                obtain ⟨w, r₅⟩ := q2
                                rw [hm] at h
                                cases w with
                                | obj kvs =>
                                    obtain ⟨h1, h2⟩ := Prod.mk.injEq .. ▸ Option.some.inj h
                                    subst h2
                                    refine Or.inr ⟨r₄, x, kvs, rfl, hsw4, ?_, h1.symm⟩
                                    rw [hsw4]
                                    exact hm
                                | null => simp at h
                                | bool b => simp at h
                                | num lex => simp at h
                                | str s => simp at h
                                | arr es => simp at h
                          · simp [hd3] at h
                    · by_cases hd2b : d2 = '}'
                      · subst hd2b
                        simp only [] at h
                        obtain ⟨h1, h2⟩ := Prod.mk.injEq .. ▸ Option.some.inj h
                        exact Or.inl ⟨r₄, rfl, h1.symm, h2.symm⟩
                      · simp [hd2, hd2b] at h
          · simp [hd] at h

theorem pv_val_inv {f : Nat} {l : List Char} {v : Json} {r : List Char}
    (h : parseV (f + 1) PMode.val l = some (v, r)) :
    ∃ c r₀, l = c :: r₀ ∧
      ((c = '{' ∧ ((∃ r₂, skipWs r₀ = '}' :: r₂ ∧ v = Json.obj [] ∧ r = r₂) ∨
           (∃ x, skipWs r₀ = '"' :: x ∧ parseV f PMode.mems (skipWs r₀) = some (v, r)))) ∨
       (c = '[' ∧ ((∃ r₂, skipWs r₀ = ']' :: r₂ ∧ v = Json.arr [] ∧ r = r₂) ∨
           ((∀ r₂, skipWs r₀ ≠ ']' :: r₂) ∧
            parseV f PMode.elems (skipWs r₀) = some (v, r)))) ∨
       (c = '"' ∧ ∃ s, parseStrBody r₀ = some (s, r) ∧ v = Json.str s) ∨
       (c = 't' ∧ lstarts ['r', 'u', 'e'] r₀ = true ∧ v = Json.bool true ∧ r = r₀.drop 3) ∨
       (c = 'f' ∧ lstarts ['a', 'l', 's', 'e'] r₀ = true ∧ v = Json.bool false ∧
          r = r₀.drop 4) ∨
       (c = 'n' ∧ lstarts ['u', 'l', 'l'] r₀ = true ∧ v = Json.null ∧ r = r₀.drop 3) ∨
       (c = 'N' ∧ lstarts ['a', 'N'] r₀ = true ∧ v = Json.num ['N', 'a', 'N'] ∧
          r = r₀.drop 2) ∨
       (c = 'I' ∧ lstarts ['n', 'f', 'i', 'n', 'i', 't', 'y'] r₀ = true ∧
          v = Json.num "Infinity".data ∧ r = r₀.drop 7) ∨
       (c = '-' ∧ ((∃ lex, parseNum (c :: r₀) = some (lex, r) ∧ v = Json.num lex) ∨
           (parseNum (c :: r₀) = none ∧
            lstarts ['I', 'n', 'f', 'i', 'n', 'i', 't', 'y'] r₀ = true ∧
            v = Json.num "-Infinity".data ∧ r = r₀.drop 8))) ∨
       (c.isDigit = true ∧ ∃ lex, parseNum (c :: r₀) = some (lex, r) ∧ v = Json.num lex)) := by
  rw [parseV.eq_def] at h
  simp only [] at h
  cases l with
  | nil => simp at h
  | cons c r₀ =>
      simp only [] at h
      refine ⟨c, r₀, rfl, ?_⟩
      by_cases h1 : c = '{'
      · subst h1
        rw [if_pos rfl] at h
        refine Or.inl ⟨rfl, ?_⟩
        cases hsw : skipWs r₀ with
        | nil => rw [hsw] at h; simp at h
        | cons d ds =>
            rw [hsw] at h
            by_cases hd : d = '}'
            · subst hd
              simp only [] at h
              obtain ⟨hv1, hv2⟩ := Prod.mk.injEq .. ▸ Option.some.inj h
              exact Or.inl ⟨ds, rfl, hv1.symm, hv2.symm⟩
            · by_cases hd2 : d = '"'
              · subst hd2
                simp only [] at h
                exact Or.inr ⟨ds, rfl, h⟩
              · simp [hd, hd2] at h
      · rw [if_neg h1] at h
        by_cases h2 : c = '['
        · subst h2
          rw [if_pos rfl] at h
          refine Or.inr (Or.inl ⟨rfl, ?_⟩)
          cases hsw : skipWs r₀ with
          | nil =>
              rw [hsw] at h
              simp only [] at h
              refine Or.inr ⟨?_, ?_⟩
              · intro r₂ hq
                simp at hq
              · exact h
          | cons d ds =>
              rw [hsw] at h
              by_cases hd : d = ']'
              · subst hd
                simp only [] at h
                obtain ⟨hv1, hv2⟩ := Prod.mk.injEq .. ▸ Option.some.inj h
                exact Or.inl ⟨ds, rfl, hv1.symm, hv2.symm⟩
              · refine Or.inr ⟨?_, ?_⟩
                · intro r₂ hq
                  obtain ⟨hq1, -⟩ := List.cons.injEq .. ▸ hq
                  exact hd hq1
                · rw [show (match (d :: ds : List Char) with
                      | ']' :: r2 => some (Json.arr [], r2)
                      | x => parseV f PMode.elems (d :: ds)) =
                      parseV f PMode.elems (d :: ds) from by
                    simp [hd]] at h
                  exact h
        · rw [if_neg h2] at h
          by_cases h3 : c = '"'
          · subst h3
            rw [if_pos rfl] at h
            obtain ⟨⟨s, r'⟩, hps, heq⟩ := Option.map_eq_some'.mp h
            simp only [] at heq
            obtain ⟨hv1, hv2⟩ := Prod.mk.injEq .. ▸ heq
            subst hv2
            exact Or.inr (Or.inr (Or.inl ⟨rfl, s, hps, hv1.symm⟩))
          · rw [if_neg h3] at h
            by_cases h4 : c = 't'
            · subst h4
              rw [if_pos rfl] at h
              by_cases hls : lstarts ['r', 'u', 'e'] r₀ = true
              · rw [if_pos hls] at h
                obtain ⟨hv1, hv2⟩ := Prod.mk.injEq .. ▸ Option.some.inj h
                exact Or.inr (Or.inr (Or.inr (Or.inl ⟨rfl, hls, hv1.symm, hv2.symm⟩)))
              · rw [if_neg hls] at h
                simp at h
            · rw [if_neg h4] at h
              by_cases h5 : c = 'f'
              · subst h5
                rw [if_pos rfl] at h
                by_cases hls : lstarts ['a', 'l', 's', 'e'] r₀ = true
                · rw [if_pos hls] at h
                  obtain ⟨hv1, hv2⟩ := Prod.mk.injEq .. ▸ Option.some.inj h
                  exact Or.inr (Or.inr (Or.inr (Or.inr (Or.inl
                    ⟨rfl, hls, hv1.symm, hv2.symm⟩))))
                · rw [if_neg hls] at h
                  simp at h
              · rw [if_neg h5] at h
                by_cases h6 : c = 'n'
                · subst h6
                  rw [if_pos rfl] at h
                  by_cases hls : lstarts ['u', 'l', 'l'] r₀ = true
                  · rw [if_pos hls] at h
                    obtain ⟨hv1, hv2⟩ := Prod.mk.injEq .. ▸ Option.some.inj h
                    exact Or.inr (Or.inr (Or.inr (Or.inr (Or.inr (Or.inl
                      ⟨rfl, hls, hv1.symm, hv2.symm⟩)))))
                  · rw [if_neg hls] at h
                    simp at h
                · rw [if_neg h6] at h
                  by_cases h7 : c = 'N'
                  · subst h7
                    rw [if_pos rfl] at h
                    by_cases hls : lstarts ['a', 'N'] r₀ = true
                    · rw [if_pos hls] at h
                      obtain ⟨hv1, hv2⟩ := Prod.mk.injEq .. ▸ Option.some.inj h
                      exact Or.inr (Or.inr (Or.inr (Or.inr (Or.inr (Or.inr (Or.inl
                        ⟨rfl, hls, hv1.symm, hv2.symm⟩))))))
                    · rw [if_neg hls] at h
                      simp at h
                  · rw [if_neg h7] at h
                    by_cases h8 : c = 'I'
                    · subst h8
                      rw [if_pos rfl] at h
                      by_cases hls : lstarts ['n', 'f', 'i', 'n', 'i', 't', 'y'] r₀ = true
                      · rw [if_pos hls] at h
                        obtain ⟨hv1, hv2⟩ := Prod.mk.injEq .. ▸ Option.some.inj h
                        exact Or.inr (Or.inr (Or.inr (Or.inr (Or.inr (Or.inr (Or.inr
                          (Or.inl ⟨rfl, hls, hv1.symm, hv2.symm⟩)))))))
                      · rw [if_neg hls] at h
                        simp at h
                    · rw [if_neg h8] at h
                      by_cases h9 : c = '-'
                      · subst h9
                        rw [if_pos rfl] at h
                        cases hpn : parseNum ('-' :: r₀) with
                        | some p =>
                            obtain ⟨lex, r2⟩ := p
                            rw [hpn] at h
                            simp only [] at h
                            obtain ⟨hv1, hv2⟩ := Prod.mk.injEq .. ▸ Option.some.inj h
                            subst hv2
                            exact Or.inr (Or.inr (Or.inr (Or.inr (Or.inr (Or.inr (Or.inr
                              (Or.inr (Or.inl ⟨rfl, Or.inl ⟨lex, rfl, hv1.symm⟩⟩))))))))
                        | none =>
                            rw [hpn] at h
                            simp only [] at h
                            by_cases hls : lstarts ['I', 'n', 'f', 'i', 'n', 'i', 't', 'y']
                                r₀ = true
                            · rw [if_pos hls] at h
                              obtain ⟨hv1, hv2⟩ := Prod.mk.injEq .. ▸ Option.some.inj h
                              exact Or.inr (Or.inr (Or.inr (Or.inr (Or.inr (Or.inr (Or.inr
                                (Or.inr (Or.inl ⟨rfl, Or.inr
                                  ⟨rfl, hls, hv1.symm, hv2.symm⟩⟩))))))))
                            · rw [if_neg hls] at h
                              simp at h
                      · rw [if_neg h9] at h
                        by_cases hdg : c.isDigit = true
                        · rw [if_pos hdg] at h
                          obtain ⟨⟨lex, r'⟩, hpn, heq⟩ := Option.map_eq_some'.mp h
                          simp only [] at heq
                          obtain ⟨hv1, hv2⟩ := Prod.mk.injEq .. ▸ heq
                          subst hv2
                          exact Or.inr (Or.inr (Or.inr (Or.inr (Or.inr (Or.inr (Or.inr
                            (Or.inr (Or.inr ⟨hdg, lex, hpn, hv1.symm⟩))))))))
                        · rw [if_neg hdg] at h
                          simp at h

theorem parseV_mono : ∀ (g f : Nat) (m : PMode) (l : List Char) (p : Json × List Char),
    f ≤ g → parseV f m l = some p → parseV g m l = some p := by
  intro g
  induction g with
  | zero =>
      intro f m l p hle h
      have hf : f = 0 := Nat.le_zero.mp hle
      subst hf
      simp [parseV] at h
  | succ g ih =>
      intro f m l p hle h
      cases f with
      | zero => simp [parseV] at h
      | succ f =>
          have hle' : f ≤ g := Nat.succ_le_succ_iff.mp hle
          obtain ⟨v, r⟩ := p
          cases m with
          | val =>
              obtain ⟨c, r₀, hl, hcase⟩ := pv_val_inv h
              subst hl
              rcases hcase with ⟨hc, hcase⟩ | ⟨hc, hcase⟩ | ⟨hc, s, hps, hv⟩ |
                ⟨hc, hls, hv, hr⟩ | ⟨hc, hls, hv, hr⟩ | ⟨hc, hls, hv, hr⟩ |
                ⟨hc, hls, hv, hr⟩ | ⟨hc, hls, hv, hr⟩ | ⟨hc, hcase⟩ | ⟨hdg, lex, hpn, hv⟩
              · subst hc
                rcases hcase with ⟨r₂, hsw, hv, hr⟩ | ⟨x, hq, hm⟩
                · subst hv; subst hr
                  exact pv_obj_empty g hsw
                · exact pv_obj_mems g hq (ih f PMode.mems _ _ hle' hm)
              · subst hc
                rcases hcase with ⟨r₂, hsw, hv, hr⟩ | ⟨hne, he⟩
                · subst hv; subst hr
                  exact pv_arr_empty g hsw
                · exact pv_arr_elems g hne (ih f PMode.elems _ _ hle' he)
              · subst hc; subst hv
                exact pv_str g hps
              · subst hc; subst hv; subst hr
                exact pv_true g hls
              · subst hc; subst hv; subst hr
                exact pv_false g hls
              · subst hc; subst hv; subst hr
                exact pv_null g hls
              · subst hc; subst hv; subst hr
                exact pv_nan g hls
              · subst hc; subst hv; subst hr
                exact pv_inf g hls
              · subst hc
                rcases hcase with ⟨lex, hpn, hv⟩ | ⟨hpn, hls, hv, hr⟩
                · subst hv
                  exact pv_num_neg g hpn
                · subst hv; subst hr
                  exact pv_neg_inf g hpn hls
              · subst hv
                exact pv_num g hdg hpn
          | mems =>
              obtain ⟨k, r₁, r₂, v₁, r₃, hk, hcc, hval, hcase⟩ := pv_mems_inv h
              have hval2 := ih f PMode.val _ _ hle' hval
              rcases hcase with ⟨r₄, he, hv, hr⟩ | ⟨r₄, x, kvs, hcm, hq, hm, hv⟩
              · subst hv; subst hr
                exact pv_mems_last g hk hcc hval2 he
              · subst hv
                exact pv_mems_cons g hk hcc hval2 hcm hq (ih f PMode.mems _ _ hle' hm)
          | elems =>
              obtain ⟨v₁, r₁, hval, hcase⟩ := pv_elems_inv h
              have hval2 := ih f PMode.val _ _ hle' hval
              rcases hcase with ⟨r₂, he, hv, hr⟩ | ⟨r₂, vs, hcm, hm, hv⟩
              · subst hv; subst hr
                exact pv_elems_last g hval2 he
              · subst hv
                exact pv_elems_cons g hval2 hcm (ih f PMode.elems _ _ hle' hm)

theorem skipWs_len (l : List Char) : (skipWs l).length ≤ l.length :=
  (List.dropWhile_suffix _).length_le

theorem parseStr_len {l k r₁ : List Char} (h : parseStr l = some (k, r₁)) :
    r₁.length < l.length := by
  obtain ⟨t, hl, hb⟩ := parseStr_inv h
  subst hl
  obtain ⟨body, hbe, -⟩ := parseStrBody_shape t.length t le_rfl k r₁ hb
  rw [hbe]
  simp
  omega

theorem parseNum_lex_ne {l lex r : List Char} (h : parseNum l = some (lex, r)) :
    lex ≠ [] := by
  cases l with
  | nil => simp [parseNum] at h
  | cons c t =>
      simp only [parseNum] at h
      by_cases hc : c = '-'
      · subst hc
        rw [if_pos rfl] at h
        cases hni : numInt t with
        | none => rw [hni] at h; simp at h
        | some p =>
            obtain ⟨ip, r1⟩ := p
            rw [hni] at h
            obtain ⟨h1, -⟩ := Prod.mk.injEq .. ▸ Option.some.inj h
            rw [← h1]
            simp
      · rw [if_neg hc] at h
        cases hni : numInt (c :: t) with
        | none => rw [hni] at h; simp at h
        | some p =>
            obtain ⟨ip, r1⟩ := p
            rw [hni] at h
            obtain ⟨h1, -⟩ := Prod.mk.injEq .. ▸ Option.some.inj h
            rw [← h1]
            rcases numInt_inv hni with ⟨hip, -⟩ | ⟨c0, ds, -, -, -, hip, -, -⟩ <;>
              subst hip <;> simp

theorem parseNum_len {l lex r : List Char} (h : parseNum l = some (lex, r)) :
    r.length < l.length := by
  have hsplit := (parseNum_shape h).1
  have hne := parseNum_lex_ne h
  have := congrArg List.length hsplit
  simp at this
  cases lex with
  | nil => exact absurd rfl hne
  | cons a as => simp at this; omega

theorem parseV_consume : ∀ (f : Nat) (m : PMode) (l : List Char) (v : Json) (r : List Char),
    parseV f m l = some (v, r) → r.length < l.length := by
  intro f
  induction f with
  | zero => intro m l v r h; simp [parseV] at h
  | succ f ih =>
      intro m l v r h
      cases m with
      | val =>
          obtain ⟨c, r₀, hl, hcase⟩ := pv_val_inv h
          subst hl
          have hsk : (skipWs r₀).length ≤ r₀.length := skipWs_len _
          rcases hcase with ⟨hc, hcase⟩ | ⟨hc, hcase⟩ | ⟨hc, s, hps, hv⟩ |
            ⟨hc, hls, hv, hr⟩ | ⟨hc, hls, hv, hr⟩ | ⟨hc, hls, hv, hr⟩ |
            ⟨hc, hls, hv, hr⟩ | ⟨hc, hls, hv, hr⟩ | ⟨hc, hcase⟩ | ⟨hdg, lex, hpn, hv⟩
          · rcases hcase with ⟨r₂, hsw, hv, hr⟩ | ⟨x, hq, hm⟩
            · subst hr
              have := congrArg List.length hsw
              simp at this
              simp
              omega
            · have := ih _ _ _ _ hm
              simp
              omega
          · rcases hcase with ⟨r₂, hsw, hv, hr⟩ | ⟨hne, he⟩
            · subst hr
              have := congrArg List.length hsw
              simp at this
              simp
              omega
            · have := ih _ _ _ _ he
              simp
              omega
          · obtain ⟨body, hbe, -⟩ := parseStrBody_shape r₀.length r₀ le_rfl s r hps
            rw [hbe]
            simp
            omega
          · subst hr
            simp [List.length_drop]
            omega
          · subst hr
            simp [List.length_drop]
            omega
          · subst hr
            simp [List.length_drop]
            omega
          · subst hr
            simp [List.length_drop]
            omega
          · subst hr
            simp [List.length_drop]
            omega
          · rcases hcase with ⟨lex, hpn, hv⟩ | ⟨hpn, hls, hv, hr⟩
            · subst hc
              exact parseNum_len hpn
            · subst hr
              simp [List.length_drop]
              omega
          · exact parseNum_len hpn
      | mems =>
          obtain ⟨k, r₁, r₂, v₁, r₃, hk, hcc, hval, hcase⟩ := pv_mems_inv h
          have hlen1 : r₁.length < l.length := parseStr_len hk
          have hsk1 : (skipWs r₁).length ≤ r₁.length := skipWs_len _
          have hlen2 : r₂.length + 1 = (skipWs r₁).length := by
            have := congrArg List.length hcc
            simp at this
            omega
          have hsk2 : (skipWs r₂).length ≤ r₂.length := skipWs_len _
          have hlen3 : r₃.length < (skipWs r₂).length := ih _ _ _ _ hval
          have hsk3 : (skipWs r₃).length ≤ r₃.length := skipWs_len _
          rcases hcase with ⟨r₄, he, hv, hr⟩ | ⟨r₄, x, kvs, hcm, hq, hm, hv⟩
          · subst hr
            have := congrArg List.length he
            simp at this
            omega
          · have hlen4 : r₄.length + 1 = (skipWs r₃).length := by
              have := congrArg List.length hcm
              simp at this
              omega
            have hsk4 : (skipWs r₄).length ≤ r₄.length := skipWs_len _
            have := ih _ _ _ _ hm
            omega
      | elems =>
          obtain ⟨v₁, r₁, hval, hcase⟩ := pv_elems_inv h
          have hlen1 : r₁.length < l.length := ih _ _ _ _ hval
          have hsk1 : (skipWs r₁).length ≤ r₁.length := skipWs_len _
          rcases hcase with ⟨r₂, he, hv, hr⟩ | ⟨r₂, vs, hcm, hm, hv⟩
          · subst hr
            have := congrArg List.length he
            simp at this
            omega
          · have hlen2 : r₂.length + 1 = (skipWs r₁).length := by
              have := congrArg List.length hcm
              simp at this
              omega
            have hsk2 : (skipWs r₂).length ≤ r₂.length := skipWs_len _
            have := ih _ _ _ _ hm
            omega

theorem parseV_norm : ∀ (μ f : Nat) (m : PMode) (l : List Char) (v : Json) (r : List Char),
    2 * l.length + mcost m ≤ μ → parseV f m l = some (v, r) →
    parseV (2 * l.length + mcost m) m l = some (v, r) := by
  intro μ
  induction μ with
  | zero =>
      intro f m l v r hμ h
      cases m <;> simp [mcost] at hμ
  | succ μ ih =>
      intro f m l v r hμ h
      cases f with
      | zero => simp [parseV] at h
      | succ f =>
          cases m with
          | val =>
              obtain ⟨c, r₀, hl, hcase⟩ := pv_val_inv h
              subst hl
              simp only [mcost, List.length_cons] at hμ ⊢
              have hT : 2 * (r₀.length + 1) + 1 = (2 * r₀.length + 2) + 1 := by omega
              rw [hT]
              have hsk : (skipWs r₀).length ≤ r₀.length := skipWs_len _
              rcases hcase with ⟨hc, hcase⟩ | ⟨hc, hcase⟩ | ⟨hc, s, hps, hv⟩ |
                ⟨hc, hls, hv, hr⟩ | ⟨hc, hls, hv, hr⟩ | ⟨hc, hls, hv, hr⟩ |
                ⟨hc, hls, hv, hr⟩ | ⟨hc, hls, hv, hr⟩ | ⟨hc, hcase⟩ | ⟨hdg, lex, hpn, hv⟩
              · subst hc
                rcases hcase with ⟨r₂, hsw, hv, hr⟩ | ⟨x, hq, hm⟩
                · subst hv; subst hr
                  exact pv_obj_empty _ hsw
                · have hrec := ih f PMode.mems (skipWs r₀) v r
                    (by simp only [mcost]; omega) hm
                  have hpad := parseV_mono (2 * r₀.length + 2) _ PMode.mems (skipWs r₀)
                    (v, r) (by simp only [mcost] at hrec ⊢; omega) hrec
                  exact pv_obj_mems _ hq hpad
              · subst hc
                rcases hcase with ⟨r₂, hsw, hv, hr⟩ | ⟨hne, he⟩
                · subst hv; subst hr
                  exact pv_arr_empty _ hsw
                · have hrec := ih f PMode.elems (skipWs r₀) v r
                    (by simp only [mcost]; omega) he
                  have hpad := parseV_mono (2 * r₀.length + 2) _ PMode.elems (skipWs r₀)
                    (v, r) (by simp only [mcost] at hrec ⊢; omega) hrec
                  exact pv_arr_elems _ hne hpad
              · subst hc; subst hv
                exact pv_str _ hps
              · subst hc; subst hv; subst hr
                exact pv_true _ hls
              · subst hc; subst hv; subst hr
                exact pv_false _ hls
              · subst hc; subst hv; subst hr
                exact pv_null _ hls
              · subst hc; subst hv; subst hr
                exact pv_nan _ hls
              · subst hc; subst hv; subst hr
                exact pv_inf _ hls
              · subst hc
                rcases hcase with ⟨lex, hpn, hv⟩ | ⟨hpn, hls, hv, hr⟩
                · subst hv
                  exact pv_num_neg _ hpn
                · subst hv; subst hr
                  exact pv_neg_inf _ hpn hls
              · subst hv
                exact pv_num _ hdg hpn
          | mems =>
              obtain ⟨k, r₁, r₂, v₁, r₃, hk, hcc, hval, hcase⟩ := pv_mems_inv h
              simp only [mcost] at hμ ⊢
              have hT : 2 * l.length + 2 = (2 * l.length + 1) + 1 := by omega
              rw [hT]
              have hlen1 : r₁.length < l.length := parseStr_len hk
              have hsk1 : (skipWs r₁).length ≤ r₁.length := skipWs_len _
              have hlen2 : r₂.length + 1 = (skipWs r₁).length := by
                have := congrArg List.length hcc
                simp at this
                omega
              have hsk2 : (skipWs r₂).length ≤ r₂.length := skipWs_len _
              have hvrec := ih f PMode.val (skipWs r₂) v₁ r₃
                (by simp only [mcost]; omega) hval
              have hvpad := parseV_mono (2 * l.length + 1) _ PMode.val (skipWs r₂)
                (v₁, r₃) (by simp only [mcost] at hvrec ⊢; omega) hvrec
              rcases hcase with ⟨r₄, he, hv, hr⟩ | ⟨r₄, x, kvs, hcm, hq, hm, hv⟩
              · subst hv; subst hr
                exact pv_mems_last _ hk hcc hvpad he
              · subst hv
                have hlen3 : r₃.length < (skipWs r₂).length := parseV_consume f _ _ _ _ hval
                have hsk3 : (skipWs r₃).length ≤ r₃.length := skipWs_len _
                have hlen4 : r₄.length + 1 = (skipWs r₃).length := by
                  have := congrArg List.length hcm
                  simp at this
                  omega
                have hsk4 : (skipWs r₄).length ≤ r₄.length := skipWs_len _
                have hmrec := ih f PMode.mems (skipWs r₄) (Json.obj kvs) r
                  (by simp only [mcost]; omega) hm
                have hmpad := parseV_mono (2 * l.length + 1) _ PMode.mems (skipWs r₄)
                  (Json.obj kvs, r) (by simp only [mcost] at hmrec ⊢; omega) hmrec
                exact pv_mems_cons _ hk hcc hvpad hcm hq hmpad
          | elems =>
              obtain ⟨v₁, r₁, hval, hcase⟩ := pv_elems_inv h
              simp only [mcost] at hμ ⊢
              have hT : 2 * l.length + 2 = (2 * l.length + 1) + 1 := by omega
              rw [hT]
              have hvrec := ih f PMode.val l v₁ r₁ (by simp only [mcost]; omega) hval
              have hvpad := parseV_mono (2 * l.length + 1) _ PMode.val l
                (v₁, r₁) (by simp only [mcost] at hvrec ⊢; omega) hvrec
              rcases hcase with ⟨r₂, he, hv, hr⟩ | ⟨r₂, vs, hcm, hm, hv⟩
              · subst hv; subst hr
                exact pv_elems_last _ hvpad he
              · subst hv
                have hlen1 : r₁.length < l.length := parseV_consume f _ _ _ _ hval
                have hsk1 : (skipWs r₁).length ≤ r₁.length := skipWs_len _
                have hlen2 : r₂.length + 1 = (skipWs r₁).length := by
                  have := congrArg List.length hcm
                  simp at this
                  omega
                have hsk2 : (skipWs r₂).length ≤ r₂.length := skipWs_len _
                have hmrec := ih f PMode.elems (skipWs r₂) (Json.arr vs) r
                  (by simp only [mcost]; omega) hm
                have hmpad := parseV_mono (2 * l.length + 1) _ PMode.elems (skipWs r₂)
                  (Json.arr vs, r) (by simp only [mcost] at hmrec ⊢; omega) hmrec
                exact pv_elems_cons _ hvpad hcm hmpad

theorem jKind_obj {w : Json} (h : jKind w = 5) : ∃ kvs, w = Json.obj kvs := by
  cases w with
  | obj kvs => exact ⟨kvs, rfl⟩
  | null => simp [jKind] at h
  | bool b => simp [jKind] at h
  | num lex => simp [jKind] at h
  | str s => simp [jKind] at h
  | arr vs => simp [jKind] at h

theorem jKind_arr {w : Json} (h : jKind w = 4) : ∃ vs, w = Json.arr vs := by
  cases w with
  | arr vs => exact ⟨vs, rfl⟩
  | null => simp [jKind] at h
  | bool b => simp [jKind] at h
  | num lex => simp [jKind] at h
  | str s => simp [jKind] at h
  | obj kvs => simp [jKind] at h

theorem pv_val_head {f : Nat} {l : List Char} {v : Json} {r : List Char}
    (h : parseV f PMode.val l = some (v, r)) : ∃ c t, l = c :: t ∧ c ≠ '`' := by
  cases f with
  | zero => simp [parseV] at h
  | succ f =>
      obtain ⟨c, r₀, hl, hcase⟩ := pv_val_inv h
      refine ⟨c, r₀, hl, ?_⟩
      rcases hcase with ⟨hc, -⟩ | ⟨hc, -⟩ | ⟨hc, -⟩ | ⟨hc, -⟩ | ⟨hc, -⟩ |
        ⟨hc, -⟩ | ⟨hc, -⟩ | ⟨hc, -⟩ | ⟨hc, -⟩ | ⟨hdg, -⟩
      · subst hc; decide
      · subst hc; decide
      · subst hc; decide
      · subst hc; decide
      · subst hc; decide
      · subst hc; decide
      · subst hc; decide
      · subst hc; decide
      · subst hc; decide
      · exact digit_ne_tick hdg

theorem pv_head_ne_tick {f : Nat} {m : PMode} {l : List Char} {v : Json} {r : List Char}
    (h : parseV f m l = some (v, r)) : ∃ c t, l = c :: t ∧ c ≠ '`' := by
  cases m with
  | val => exact pv_val_head h
  | mems =>
      cases f with
      | zero => simp [parseV] at h
      | succ f =>
          obtain ⟨k, r₁, r₂, v₁, r₃, hk, -, -, -⟩ := pv_mems_inv h
          obtain ⟨t, hl, -⟩ := parseStr_inv hk
          exact ⟨'"', t, hl, by decide⟩
  | elems =>
      cases f with
      | zero => simp [parseV] at h
      | succ f =>
          obtain ⟨v₁, r₁, hval, -⟩ := pv_elems_inv h
          exact pv_val_head hval

theorem sepHead_num_tail {r : List Char} (hsep : sepHead r) :
    ∀ d ds, removeTriples r = d :: ds →
      d.isDigit = false ∧ d ≠ '.' ∧ d ≠ 'e' ∧ d ≠ 'E' := by
  intro d ds hx
  cases r with
  | nil => simp [removeTriples] at hx
  | cons a as =>
      have ha : a ≠ '`' := sepHead_ne_tick hsep a as rfl
      rw [removeTriples_cons_ne _ ha] at hx
      obtain ⟨h1, -⟩ := List.cons.injEq .. ▸ hx
      have hf := sep_facts (hsep a as rfl)
      rw [← h1]
      exact ⟨hf.2.1, hf.2.2.1, hf.2.2.2.1, hf.2.2.2.2⟩

theorem parseV_rt : ∀ (f : Nat) (m : PMode) (l : List Char) (v : Json) (r : List Char),
    parseV f m l = some (v, r) → sepHead r →
    ∃ v', parseV f m (removeTriples l) = some (v', removeTriples r) ∧
      jKind v' = jKind v := by
  intro f
  induction f with
  | zero => intro m l v r h hsep; simp [parseV] at h
  | succ f ih =>
      intro m l v r h hsep
      cases m with
      | val =>
          obtain ⟨c, r₀, hl, hcase⟩ := pv_val_inv h
          subst hl
          rcases hcase with ⟨hc, hcase⟩ | ⟨hc, hcase⟩ | ⟨hc, s, hps, hv⟩ |
            ⟨hc, hls, hv, hr⟩ | ⟨hc, hls, hv, hr⟩ | ⟨hc, hls, hv, hr⟩ |
            ⟨hc, hls, hv, hr⟩ | ⟨hc, hls, hv, hr⟩ | ⟨hc, hcase⟩ | ⟨hdg, lex, hpn, hv⟩
          · subst hc
            rw [removeTriples_cons_ne _ (by decide)]
            rcases hcase with ⟨r₂, hsw, hv, hr⟩ | ⟨x, hq, hm⟩
            · subst hv; subst hr
              exact ⟨Json.obj [], pv_obj_empty _ (skipWs_rt_cons (by decide) hsw), rfl⟩
            · obtain ⟨v', hm', hk⟩ := ih PMode.mems (skipWs r₀) v r hm hsep
              have hq' : skipWs (removeTriples r₀) = '"' :: removeTriples x :=
                skipWs_rt_cons (by decide) hq
              have hcomm : removeTriples (skipWs r₀) = skipWs (removeTriples r₀) := by
                rw [hq, removeTriples_cons_ne _ (by decide), hq']
              rw [hcomm] at hm'
              exact ⟨v', pv_obj_mems _ hq' hm', hk⟩
          · subst hc
            rw [removeTriples_cons_ne _ (by decide)]
            rcases hcase with ⟨r₂, hsw, hv, hr⟩ | ⟨hne, he⟩
            · subst hv; subst hr
              exact ⟨Json.arr [], pv_arr_empty _ (skipWs_rt_cons (by decide) hsw), rfl⟩
            · obtain ⟨v', he', hk⟩ := ih PMode.elems (skipWs r₀) v r he hsep
              obtain ⟨d, t, hdt, hd⟩ := pv_head_ne_tick he
              have hsw' : skipWs (removeTriples r₀) = d :: removeTriples t :=
                skipWs_rt_cons hd hdt
              have hcomm : removeTriples (skipWs r₀) = skipWs (removeTriples r₀) := by
                rw [hdt, removeTriples_cons_ne _ hd, hsw']
              rw [hcomm] at he'
              have hne' : ∀ r₂, skipWs (removeTriples r₀) ≠ ']' :: r₂ := by
                intro r₂ hx
                rw [hsw'] at hx
                obtain ⟨h1, -⟩ := List.cons.injEq .. ▸ hx
                exact hne t (h1 ▸ hdt)
              exact ⟨v', pv_arr_elems _ hne' he', hk⟩
          · subst hc; subst hv
            have hps2 : parseStr ('"' :: r₀) = some (s, r) := by
              rw [show parseStr ('"' :: r₀) = parseStrBody r₀ from rfl]
              exact hps
            obtain ⟨s', hout⟩ := parseStr_rt hps2 (sepHead_ne_tick hsep)
            rw [removeTriples_cons_ne _ (by decide)] at hout ⊢
            have hout2 : parseStrBody (removeTriples r₀) = some (s', removeTriples r) := by
              rw [show parseStrBody (removeTriples r₀) =
                    parseStr ('"' :: removeTriples r₀) from rfl]
              exact hout
            exact ⟨Json.str s', pv_str _ hout2, rfl⟩
          · subst hc; subst hv; subst hr
            rw [removeTriples_cons_ne _ (by decide)]
            have hsplit : r₀ = ['r', 'u', 'e'] ++ r₀.drop 3 := lstarts_decomp hls
            have hrt : removeTriples r₀ =
                ['r', 'u', 'e'] ++ removeTriples (r₀.drop 3) := by
              conv_lhs => rw [hsplit]
              exact removeTriples_no_tick_append _
                (by intro c hc; simp at hc; rcases hc with rfl | rfl | rfl <;> decide)
            have hls' : lstarts ['r', 'u', 'e'] (removeTriples r₀) = true := by
              rw [hrt]
              exact lstarts_append_mono _ (by decide)
            have hdrop : (removeTriples r₀).drop 3 = removeTriples (r₀.drop 3) := by
              rw [hrt]
              exact List.drop_left' (by decide)
            exact ⟨Json.bool true, hdrop ▸ pv_true f hls', rfl⟩
          · subst hc; subst hv; subst hr
            rw [removeTriples_cons_ne _ (by decide)]
            have hsplit : r₀ = ['a', 'l', 's', 'e'] ++ r₀.drop 4 := lstarts_decomp hls
            have hrt : removeTriples r₀ =
                ['a', 'l', 's', 'e'] ++ removeTriples (r₀.drop 4) := by
              conv_lhs => rw [hsplit]
              exact removeTriples_no_tick_append _
                (by intro c hc; simp at hc; rcases hc with rfl | rfl | rfl | rfl <;> decide)
            have hls' : lstarts ['a', 'l', 's', 'e'] (removeTriples r₀) = true := by
              rw [hrt]
              exact lstarts_append_mono _ (by decide)
            have hdrop : (removeTriples r₀).drop 4 = removeTriples (r₀.drop 4) := by
              rw [hrt]
              exact List.drop_left' (by decide)
            exact ⟨Json.bool false, hdrop ▸ pv_false f hls', rfl⟩
          · subst hc; subst hv; subst hr
            rw [removeTriples_cons_ne _ (by decide)]
            have hsplit : r₀ = ['u', 'l', 'l'] ++ r₀.drop 3 := lstarts_decomp hls
            have hrt : removeTriples r₀ =
                ['u', 'l', 'l'] ++ removeTriples (r₀.drop 3) := by
              conv_lhs => rw [hsplit]
              exact removeTriples_no_tick_append _
                (by intro c hc; simp at hc; rcases hc with rfl | rfl | rfl <;> decide)
            have hls' : lstarts ['u', 'l', 'l'] (removeTriples r₀) = true := by
              rw [hrt]
              exact lstarts_append_mono _ (by decide)
            have hdrop : (removeTriples r₀).drop 3 = removeTriples (r₀.drop 3) := by
              rw [hrt]
              exact List.drop_left' (by decide)
            exact ⟨Json.null, hdrop ▸ pv_null f hls', rfl⟩
          · subst hc; subst hv; subst hr
            rw [removeTriples_cons_ne _ (by decide)]
            have hsplit : r₀ = ['a', 'N'] ++ r₀.drop 2 := lstarts_decomp hls
            have hrt : removeTriples r₀ = ['a', 'N'] ++ removeTriples (r₀.drop 2) := by
              conv_lhs => rw [hsplit]
              exact removeTriples_no_tick_append _
                (by intro c hc; simp at hc; rcases hc with rfl | rfl <;> decide)
            have hls' : lstarts ['a', 'N'] (removeTriples r₀) = true := by
              rw [hrt]
              exact lstarts_append_mono _ (by decide)
            have hdrop : (removeTriples r₀).drop 2 = removeTriples (r₀.drop 2) := by
              rw [hrt]
              exact List.drop_left' (by decide)
            exact ⟨Json.num ['N', 'a', 'N'], hdrop ▸ pv_nan f hls', rfl⟩
          · subst hc; subst hv; subst hr
            rw [removeTriples_cons_ne _ (by decide)]
            have hsplit : r₀ = ['n', 'f', 'i', 'n', 'i', 't', 'y'] ++ r₀.drop 7 :=
              lstarts_decomp hls
            have hrt : removeTriples r₀ =
                ['n', 'f', 'i', 'n', 'i', 't', 'y'] ++ removeTriples (r₀.drop 7) := by
              conv_lhs => rw [hsplit]
              exact removeTriples_no_tick_append _
                (by intro c hc; simp at hc;
                    rcases hc with rfl | rfl | rfl | rfl | rfl | rfl | rfl <;> decide)
            have hls' : lstarts ['n', 'f', 'i', 'n', 'i', 't', 'y']
                (removeTriples r₀) = true := by
              rw [hrt]
              exact lstarts_append_mono _ (by decide)
            have hdrop : (removeTriples r₀).drop 7 = removeTriples (r₀.drop 7) := by
              rw [hrt]
              exact List.drop_left' (by decide)
            exact ⟨Json.num "Infinity".data, hdrop ▸ pv_inf f hls', rfl⟩
          · subst hc
            rcases hcase with ⟨lex, hpn, hv⟩ | ⟨hpn, hls, hv, hr⟩
            · subst hv
              have hshape := (parseNum_shape hpn).1
              have hnt := parseNum_ne_tick hpn
              have hrt : removeTriples ('-' :: r₀) = lex ++ removeTriples r := by
                rw [hshape]
                exact removeTriples_no_tick_append _ hnt
              have hreplay := parseNum_replay hpn (removeTriples r) (sepHead_num_tail hsep)
              rw [← hrt] at hreplay
              rw [removeTriples_cons_ne _ (by decide)] at hreplay ⊢
              exact ⟨Json.num lex, pv_num_neg _ hreplay, rfl⟩
            · subst hv; subst hr
              rw [removeTriples_cons_ne _ (by decide)]
              have hsplit : r₀ = ['I', 'n', 'f', 'i', 'n', 'i', 't', 'y'] ++ r₀.drop 8 :=
                lstarts_decomp hls
              have hrt : removeTriples r₀ =
                  ['I', 'n', 'f', 'i', 'n', 'i', 't', 'y'] ++ removeTriples (r₀.drop 8) := by
                conv_lhs => rw [hsplit]
                exact removeTriples_no_tick_append _
                  (by intro c hc; simp at hc;
                      rcases hc with rfl | rfl | rfl | rfl | rfl | rfl | rfl | rfl <;> decide)
              have hn' : parseNum ('-' :: removeTriples r₀) = none := by
                rw [hrt]
                simp [parseNum, numInt]
              have hls' : lstarts ['I', 'n', 'f', 'i', 'n', 'i', 't', 'y']
                  (removeTriples r₀) = true := by
                rw [hrt]
                exact lstarts_append_mono _ (by decide)
              have hdrop : (removeTriples r₀).drop 8 = removeTriples (r₀.drop 8) := by
                rw [hrt]
                exact List.drop_left' (by decide)
              exact ⟨Json.num "-Infinity".data, hdrop ▸ pv_neg_inf f hn' hls', rfl⟩
          · subst hv
            have hshape := (parseNum_shape hpn).1
            have hnt := parseNum_ne_tick hpn
            have hrt : removeTriples (c :: r₀) = lex ++ removeTriples r := by
              rw [hshape]
              exact removeTriples_no_tick_append _ hnt
            have hreplay := parseNum_replay hpn (removeTriples r) (sepHead_num_tail hsep)
            rw [← hrt] at hreplay
            obtain ⟨a, as, hlex⟩ := List.exists_cons_of_ne_nil (parseNum_lex_ne hpn)
            subst hlex
            rw [List.cons_append] at hshape
            obtain ⟨hac, -⟩ := List.cons.injEq .. ▸ hshape
            subst hac
            rw [hrt, List.cons_append]
            exact ⟨Json.num (c :: as),
              pv_num _ hdg (by rw [← List.cons_append, ← hrt]; exact hreplay), rfl⟩
      | mems =>
          obtain ⟨k, r₁, r₂, v₁, r₃, hk, hcc, hval, hcase⟩ := pv_mems_inv h
          have hsep1 : sepHead r₁ := sepHead_of_skipWs hcc (by decide)
          obtain ⟨k', hk'⟩ := parseStr_rt hk (sepHead_ne_tick hsep1)
          have hcc' : skipWs (removeTriples r₁) = ':' :: removeTriples r₂ :=
            skipWs_rt_cons (by decide) hcc
          obtain ⟨d, t, hdt, hd⟩ := pv_val_head hval
          have hcomm2 : removeTriples (skipWs r₂) = skipWs (removeTriples r₂) := by
            rw [hdt, removeTriples_cons_ne _ hd, skipWs_rt_cons hd hdt]
          rcases hcase with ⟨r₄, he, hv, hr⟩ | ⟨r₄, x, kvs, hcm, hq, hm, hv⟩
          · subst hv; subst hr
            have hsep3 : sepHead r₃ := sepHead_of_skipWs he (by decide)
            obtain ⟨v₁', hval', hk1⟩ := ih PMode.val (skipWs r₂) v₁ r₃ hval hsep3
            rw [hcomm2] at hval'
            have he' : skipWs (removeTriples r₃) = '}' :: removeTriples r :=
              skipWs_rt_cons (by decide) he
            exact ⟨Json.obj [(k', v₁')], pv_mems_last _ hk' hcc' hval' he', rfl⟩
          · subst hv
            have hsep3 : sepHead r₃ := sepHead_of_skipWs hcm (by decide)
            obtain ⟨v₁', hval', hk1⟩ := ih PMode.val (skipWs r₂) v₁ r₃ hval hsep3
            rw [hcomm2] at hval'
            have hcm' : skipWs (removeTriples r₃) = ',' :: removeTriples r₄ :=
              skipWs_rt_cons (by decide) hcm
            have hq' : skipWs (removeTriples r₄) = '"' :: removeTriples x :=
              skipWs_rt_cons (by decide) hq
            obtain ⟨w', hm', hkw⟩ := ih PMode.mems (skipWs r₄) (Json.obj kvs) r hm hsep
            have hcomm4 : removeTriples (skipWs r₄) = skipWs (removeTriples r₄) := by
              rw [hq, removeTriples_cons_ne _ (by decide), hq']
            rw [hcomm4] at hm'
            obtain ⟨kvs', hw⟩ := jKind_obj (hkw.trans rfl)
            subst hw
            exact ⟨Json.obj ((k', v₁') :: kvs'),
              pv_mems_cons _ hk' hcc' hval' hcm' hq' hm', rfl⟩
      | elems =>
          obtain ⟨v₁, r₁, hval, hcase⟩ := pv_elems_inv h
          rcases hcase with ⟨r₂, he, hv, hr⟩ | ⟨r₂, vs, hcm, hm, hv⟩
          · subst hv; subst hr
            have hsep1 : sepHead r₁ := sepHead_of_skipWs he (by decide)
            obtain ⟨v₁', hval', hk1⟩ := ih PMode.val l v₁ r₁ hval hsep1
            have he' : skipWs (removeTriples r₁) = ']' :: removeTriples r :=
              skipWs_rt_cons (by decide) he
            exact ⟨Json.arr [v₁'], pv_elems_last _ hval' he', rfl⟩
          · subst hv
            have hsep1 : sepHead r₁ := sepHead_of_skipWs hcm (by decide)
            obtain ⟨v₁', hval', hk1⟩ := ih PMode.val l v₁ r₁ hval hsep1
            have hcm' : skipWs (removeTriples r₁) = ',' :: removeTriples r₂ :=
              skipWs_rt_cons (by decide) hcm
            obtain ⟨w', hm', hkw⟩ := ih PMode.elems (skipWs r₂) (Json.arr vs) r hm hsep
            obtain ⟨d, t, hdt, hd⟩ := pv_head_ne_tick hm
            have hcomm2 : removeTriples (skipWs r₂) = skipWs (removeTriples r₂) := by
              rw [hdt, removeTriples_cons_ne _ hd, skipWs_rt_cons hd hdt]
            rw [hcomm2] at hm'
            obtain ⟨vs', hw⟩ := jKind_arr (hkw.trans rfl)
            subst hw
            exact ⟨Json.arr (v₁' :: vs'), pv_elems_cons _ hval' hcm' hm', rfl⟩

theorem jsonLoads_rt {l : List Char} {kvs : List (List Char × Json)}
    (h : jsonLoads l = some (Json.obj kvs)) :
    ∃ kvs', jsonLoads (removeTriples l) = some (Json.obj kvs') := by
  simp only [jsonLoads] at h
  cases hpv : parseV (2 * (skipWs l).length + 2) PMode.val (skipWs l) with
  | none => rw [hpv] at h; simp at h
  | some p =>
      obtain ⟨v, rest⟩ := p
      rw [hpv] at h
      simp only [] at h
      by_cases hre : skipWs rest = []
      · rw [if_pos hre] at h
        have hv : v = Json.obj kvs := Option.some.inj h
        subst hv
        have hsep : sepHead rest := sepHead_of_skipWs_nil hre
        obtain ⟨v', hrt, hkw⟩ := parseV_rt _ PMode.val (skipWs l) _ rest hpv hsep
        obtain ⟨kvs', hv'⟩ := jKind_obj (hkw.trans rfl)
        subst hv'
        obtain ⟨c, t₀, hdt, hd⟩ := pv_val_head hpv
        have hcomm : removeTriples (skipWs l) = skipWs (removeTriples l) := by
          rw [hdt, removeTriples_cons_ne _ hd, skipWs_rt_cons hd hdt]
        rw [hcomm] at hrt
        have hn := parseV_norm (2 * (skipWs (removeTriples l)).length + 1)
          (2 * (skipWs l).length + 2) PMode.val (skipWs (removeTriples l))
          (Json.obj kvs') (removeTriples rest)
          (by simp only [mcost]; omega) hrt
        have hm := parseV_mono (2 * (skipWs (removeTriples l)).length + 2)
          (2 * (skipWs (removeTriples l)).length + mcost PMode.val) PMode.val
          (skipWs (removeTriples l)) (Json.obj kvs', removeTriples rest)
          (by simp only [mcost]; omega) hn
        have hre' : rest.dropWhile jsonWsChar = [] := hre
        have hrest_ws : ∀ x ∈ rest, jsonWsChar x = true :=
          List.dropWhile_eq_nil_iff.mp hre'
        have hrid : removeTriples rest = rest :=
          removeTriples_id_no_tick (fun c hc => jsonWs_ne_tick (hrest_ws c hc))
        refine ⟨kvs', ?_⟩
        simp only [jsonLoads]
        rw [hm]
        simp only []
        rw [hrid, if_pos hre]
      · rw [if_neg hre] at h
        simp at h

/-- C8: wrapping any raw text whose stripped form is a valid JSON object in
a ```json fenced-code block leaves every field of the result except the
retained raw text unchanged.  No side condition: even when the raw text
itself contains ``` runs, the global fence-stripper deletes them from both
the wrapped and the unwrapped text, and deleting ``` runs from a valid
JSON object text preserves decodability (backticks can only occur inside
string literals, never adjacent to an escape), so both parses take the
structured branch on the same decoded object. -/
theorem C8_fence_wrap_transparent (raw : List Char) (kvs : List (List Char × Json))
    (hjson : jsonLoads (pstrip raw) = some (Json.obj kvs)) :
    (parse (wrapFence raw)).resumo = (parse raw).resumo ∧
    (parse (wrapFence raw)).situacao = (parse raw).situacao ∧
    (parse (wrapFence raw)).prazo = (parse raw).prazo ∧
    (parse (wrapFence raw)).proxima_acao = (parse raw).proxima_acao ∧
    (parse (wrapFence raw)).aviso = (parse raw).aviso ∧
    (parse (wrapFence raw)).erro = (parse raw).erro := by
  obtain ⟨mid, hshape, hclean⟩ := clean_obj hjson
  have hcrt : clean raw = removeTriples (pstrip raw) := by
    rw [hclean, hshape, removeTriples_obj mid]
  obtain ⟨kvs', hjson'⟩ := jsonLoads_rt hjson
  rw [← hcrt] at hjson'
  have hps : pstrip (clean raw) = clean raw := objShape_pstrip (removeTriples mid) hclean
  have hjson2 : jsonLoads (pstrip (clean raw)) = some (Json.obj kvs') := by
    rw [hps]
    exact hjson'
  have hex : extrairJson (clean raw) = some (clean raw) := by
    have hx := extrairJson_pstrip_self hjson2
    rw [hps] at hx
    exact hx
  have hw : parse (wrapFence raw) =
      (match mkCampos kvs' with
       | some (r, s, p, a) => ⟨wrapFence raw, r, s, p, a, none, none⟩
       | none => excRecord (wrapFence raw)) := by
    unfold parse
    rw [clean_wrapFence hjson]
    exact parseFrom_obj _ _ _ kvs' hex hjson'
  have hu : parse raw =
      (match mkCampos kvs' with
       | some (r, s, p, a) => ⟨raw, r, s, p, a, none, none⟩
       | none => excRecord raw) := by
    unfold parse
    exact parseFrom_obj _ _ _ kvs' hex hjson'
  rw [hw, hu]
  cases hmk : mkCampos kvs' with
  | none => exact ⟨rfl, rfl, rfl, rfl, rfl, rfl⟩
  | some q =>
      obtain ⟨r, s, p, a⟩ := q
      exact ⟨rfl, rfl, rfl, rfl, rfl, rfl⟩

/-- Witness for C8: the theorem applied at `c8raw`. -/
theorem C8_fence_wrap_transparent_witness :
    (parse (wrapFence c8raw)).resumo = (parse c8raw).resumo ∧
    (parse (wrapFence c8raw)).situacao = (parse c8raw).situacao ∧
    (parse (wrapFence c8raw)).prazo = (parse c8raw).prazo ∧
    (parse (wrapFence c8raw)).proxima_acao = (parse c8raw).proxima_acao ∧
    (parse (wrapFence c8raw)).aviso = (parse c8raw).aviso ∧
    (parse (wrapFence c8raw)).erro = (parse c8raw).erro :=
  C8_fence_wrap_transparent c8raw
    [("resumo".data, Json.str "ok".data), ("situacao".data, Json.str "normal".data)]
    rfl
